import Mathlib

/-!
Verification development for the algorithm-execution engine of the
GraphAlgorithmVisualize repository.

The embedding follows the TypeScript source:
  * `src/src/types/index.ts`      — data model (`Node`, `Edge`, `Graph`, steps, results)
  * `src/src/utils/graphUtils.ts` — graph model mutators and queries
  * the algorithms module (bundled after the app component in `src/src/App.tsx`):
    `bfs`, `dfs`, `dijkstra`, `bellmanFord`, `aStar`, `reconstructPath`,
    `runAlgorithm`

Modelling conventions:
  * JavaScript numbers that hold distances are modelled by `JNum := Option Int`
    (`none` is `Infinity`); edge weights and coordinates are `Int`.
  * `Map` objects are association lists with JavaScript `Map` semantics
    (`set` overwrites in place, `get` returns an `Option`); `Set` objects are
    insertion-ordered duplicate-free lists (`Array.from` iterates in insertion
    order, which the DFS stack snapshots rely on).
  * `Array.prototype.sort` with a consistent comparator is stable (ES2019);
    a stable ascending sort has a unique output, so it is modelled by a stable
    insertion sort.
  * every `while` loop / recursion takes explicit fuel and the surrounding
    function returns `Option _`, `none` marking fuel exhaustion; fuel
    sufficiency is proved separately.
  * `throw` and JavaScript `TypeError` crashes (dereferencing the `undefined`
    result of a failed lookup) are modelled with `Except JsErr`.
  * A*'s heuristic divides a floating-point Euclidean norm by 50; floating
    point is not embedded, so the heuristic is an arbitrary `String → Int`
    parameter and theorems about `aStar` hold for every heuristic.
-/

namespace GAV

/-- Node record from `src/src/types/index.ts`. -/
structure Node where
  id : String
  x : Int
  y : Int
  label : String
deriving DecidableEq

/-- Edge record from `src/src/types/index.ts`. -/
structure Edge where
  id : String
  source : String
  target : String
  weight : Int
deriving DecidableEq

/-- Graph record from `src/src/types/index.ts`. -/
structure Graph where
  nodes : List Node
  edges : List Edge
  isDirected : Bool
  isWeighted : Bool
deriving DecidableEq

/-- JavaScript number used as a distance: `some v` is the finite value `v`,
`none` is `Infinity`. -/
abbrev JNum := Option Int

/-- The value `Infinity`. -/
def jInf : JNum := none

/-- Strict `<` on distances, as JavaScript compares numbers
(`x < Infinity` for finite `x`, `Infinity < y` never). -/
def jlt : JNum → JNum → Bool
  | some a, some b => a < b
  | some _, none => true
  | none, _ => false

/-- Non-strict `≤` on distances. -/
def jle : JNum → JNum → Bool
  | _, none => true
  | none, some _ => false
  | some a, some b => a ≤ b

/-- Adding a finite edge weight to a distance (`Infinity + w = Infinity`). -/
def jadd (a : JNum) (w : Int) : JNum := a.map (· + w)

/-- Rendering of a distance in a step message (`Infinity` prints as such). -/
def jstr : JNum → String
  | some v => toString v
  | none => "Infinity"

/-- Association list with JavaScript `Map` get semantics: first (unique)
binding of the key. -/
def mfind? {α : Type} (m : List (String × α)) (k : String) : Option α :=
  (m.find? (fun p => p.1 == k)).map Prod.snd

/-- JavaScript `Map.set`: overwrite the existing binding in place, otherwise
append a new binding (insertion order is preserved). -/
def mset {α : Type} (m : List (String × α)) (k : String) (v : α) : List (String × α) :=
  if (m.find? (fun p => p.1 == k)).isSome then
    m.map (fun p => if p.1 == k then (k, v) else p)
  else
    m ++ [(k, v)]

/-- Key membership of a JavaScript `Map` (`Map.has`). -/
def mhas {α : Type} (m : List (String × α)) (k : String) : Bool :=
  (mfind? m k).isSome

/-- JavaScript `Set` as an insertion-ordered duplicate-free list. -/
abbrev JSet := List String

/-- `Set.add`. -/
def sadd (s : JSet) (x : String) : JSet := if s.contains x then s else s ++ [x]

/-- `Set.has`. -/
def shas (s : JSet) (x : String) : Bool := s.contains x

/-- `Set.delete` (the element occurs at most once). -/
def sdel (s : JSet) (x : String) : JSet := s.filter (fun y => y != x)

/-- Stable insertion into a sorted list: the new element goes in front of the
first element it is `le` to, hence behind earlier equal elements. -/
def sinsert {α : Type} (le : α → α → Bool) (x : α) : List α → List α
  | [] => [x]
  | y :: ys => if le x y then x :: y :: ys else y :: sinsert le x ys

/-- Stable ascending sort; models `Array.prototype.sort` with a consistent
numeric comparator (an ES2019 sort is stable, and a stable ascending sort is
unique, so the engine's actual algorithm is irrelevant). -/
def ssort {α : Type} (le : α → α → Bool) : List α → List α
  | [] => []
  | x :: xs => sinsert le x (ssort le xs)

/-! ## Graph model (src/src/utils/graphUtils.ts) -/

/-- `createEmptyGraph` from graphUtils.ts. -/
def createEmptyGraph : Graph :=
  { nodes := [], edges := [], isDirected := false, isWeighted := true }

/-- `addNode` from graphUtils.ts.  `generateNodeId` builds the id from
`Date.now()` and `Math.random()`; the generated id is passed as an explicit
argument `id`.  The default label is `String.fromCharCode(65 + nodes.length)`;
`label || default` makes an empty label fall back to the default. -/
def addNode (g : Graph) (x y : Int) (label? : Option String) (id : String) : Graph :=
  let defaultLabel := String.mk [Char.ofNat (65 + g.nodes.length)]
  let label := match label? with
    | some l => if l == "" then defaultLabel else l
    | none => defaultLabel
  { g with nodes := g.nodes ++ [{ id, x, y, label }] }

/-- `addEdge` from graphUtils.ts: no-op when an equivalent edge exists
(orientation ignored for undirected graphs) or when source equals target.
The generated edge id is passed explicitly. -/
def addEdge (g : Graph) (sourceId targetId : String) (weight : Int) (id : String) : Graph :=
  let exists_ := g.edges.any (fun e =>
    (e.source == sourceId && e.target == targetId) ||
    (!g.isDirected && e.source == targetId && e.target == sourceId))
  if exists_ || sourceId == targetId then g
  else { g with edges := g.edges ++ [{ id, source := sourceId, target := targetId, weight }] }

/-- `removeNode` from graphUtils.ts (cascades incident edge deletion). -/
def removeNode (g : Graph) (nodeId : String) : Graph :=
  { g with
    nodes := g.nodes.filter (fun n => n.id != nodeId),
    edges := g.edges.filter (fun e => e.source != nodeId && e.target != nodeId) }

/-- `removeEdge` from graphUtils.ts. -/
def removeEdge (g : Graph) (edgeId : String) : Graph :=
  { g with edges := g.edges.filter (fun e => e.id != edgeId) }

/-- TypeScript `Partial<Node>`: the subset of fields the update supplies. -/
structure NodeUpdate where
  id? : Option String := none
  x? : Option Int := none
  y? : Option Int := none
  label? : Option String := none
deriving DecidableEq

/-- Spreading `{ ...n, ...updates }` for a `Partial<Node>`. -/
def applyUpdate (n : Node) (u : NodeUpdate) : Node :=
  { id := u.id?.getD n.id
    x := u.x?.getD n.x
    y := u.y?.getD n.y
    label := u.label?.getD n.label }

/-- `updateNode` from graphUtils.ts. -/
def updateNode (g : Graph) (nodeId : String) (updates : NodeUpdate) : Graph :=
  { g with nodes := g.nodes.map (fun n => if n.id == nodeId then applyUpdate n updates else n) }

/-- `getNodeById` from graphUtils.ts. -/
def getNodeById (g : Graph) (nodeId : String) : Option Node :=
  g.nodes.find? (fun n => n.id == nodeId)

/-- One iteration of the edge loop of `getNeighbors`: the candidate neighbour
id (`null` modelled as `none`), filtered by the `if (neighborId)` truthiness
test (false for the empty string) and the `getNodeById` lookup. -/
def neighborEntry (g : Graph) (nodeId : String) (e : Edge) : Option (Node × Edge × Int) :=
  let neighborId? : Option String :=
    if e.source == nodeId then some e.target
    else if !g.isDirected && e.target == nodeId then some e.source
    else none
  match neighborId? with
  | none => none
  | some nid =>
    if nid == "" then none
    else match getNodeById g nid with
      | some node => some (node, e, e.weight)
      | none => none

/-- `getNeighbors` from graphUtils.ts. -/
def getNeighbors (g : Graph) (nodeId : String) : List (Node × Edge × Int) :=
  g.edges.filterMap (neighborEntry g nodeId)

/-- `createSampleGraph` from graphUtils.ts. -/
def createSampleGraph : Graph :=
  { nodes := [
      { id := "n1", x := 150, y := 100, label := "A" },
      { id := "n2", x := 350, y := 100, label := "B" },
      { id := "n3", x := 550, y := 100, label := "C" },
      { id := "n4", x := 150, y := 300, label := "D" },
      { id := "n5", x := 350, y := 300, label := "E" },
      { id := "n6", x := 550, y := 300, label := "F" }],
    edges := [
      { id := "e1", source := "n1", target := "n2", weight := 4 },
      { id := "e2", source := "n1", target := "n4", weight := 2 },
      { id := "e3", source := "n2", target := "n3", weight := 3 },
      { id := "e4", source := "n2", target := "n5", weight := 1 },
      { id := "e5", source := "n3", target := "n6", weight := 5 },
      { id := "e6", source := "n4", target := "n5", weight := 3 },
      { id := "e7", source := "n5", target := "n6", weight := 2 }],
    isDirected := false,
    isWeighted := true }

/-! ## Step and result records (src/src/types/index.ts) -/

/-- Discriminator of `AlgorithmStep.type`. -/
inductive StepType
  | visit
  | explore
  | relax
  | path
  | complete
  | cycleDetected
deriving DecidableEq

/-- `AlgorithmStep` from types/index.ts; absent optional properties are `none`,
map/set snapshots are deep copies at append time. -/
structure AlgorithmStep where
  type : StepType
  nodeId : Option String := none
  edgeId : Option String := none
  message : String
  distances : Option (List (String × JNum)) := none
  visited : Option JSet := none
  queue : Option (List String) := none
  stack : Option (List String) := none
  currentPath : Option (List String) := none
deriving DecidableEq

/-- `AlgorithmResult` from types/index.ts. -/
structure AlgorithmResult where
  steps : List AlgorithmStep
  shortestPath : Option (List String) := none
  distances : Option (List (String × JNum)) := none
  hasCycle : Option Bool := none
  hasNegativeCycle : Option Bool := none
deriving DecidableEq

/-- Distance map (`Map<string, number>`). -/
abbrev DMap := List (String × JNum)

/-- Parent map (`Map<string, string | null>`). -/
abbrev PMap := List (String × Option String)

/-- Rendering `node?.label` in a template literal: a failed lookup prints
`undefined`. -/
def optLabel : Option Node → String
  | some n => n.label
  | none => "undefined"

/-- The guard `endId && x === endId`: an absent or empty `endId` is falsy. -/
def isEndHit (endId? : Option String) (x : String) : Bool :=
  match endId? with
  | some e => e != "" && x == e
  | none => false

/-- Truthiness of the optional `endId` string (`""` is falsy). -/
def strTruthy : Option String → Bool
  | some s => s != ""
  | none => false

/-! ## reconstructPath -/

/-- One step of the chain walk of `reconstructPath`: the JavaScript expression
`parents.get(current) || null` collapses `undefined`, `null` and the falsy
empty string to `null`. -/
def jsGetParent (parents : PMap) (current : String) : Option String :=
  match mfind? parents current with
  | some (some p) => if p == "" then none else some p
  | some none => none
  | none => none

/-- Fueled loop of `reconstructPath`; `path.unshift(current)` prepends. -/
def reconstructPathGo (parents : PMap) : Nat → List String → String → Option (List String)
  | 0, _, _ => none
  | fuel + 1, acc, current =>
    let acc := current :: acc
    match jsGetParent parents current with
    | none => some acc
    | some p => reconstructPathGo parents fuel acc p

/-- `reconstructPath` from the algorithms module.  The JavaScript loop runs
until the parent chain hits `null`; on the acyclic parent maps the algorithms
build, the chain is no longer than the number of bindings plus one, which is
the fuel supplied here (`none` models the diverging loop on a cyclic map). -/
def reconstructPath (parents : PMap) (endId : String) : Option (List String) :=
  reconstructPathGo parents (parents.length + 1) [] endId

/-! ## BFS -/

/-- Working state of the BFS loop. -/
structure BfsSt where
  steps : List AlgorithmStep
  visited : JSet
  parents : PMap
  queue : List String
deriving DecidableEq

/-- Neighbour loop of BFS: an `explore` step for every unvisited neighbour
(with the queue snapshot showing the candidate appended), enqueueing only
first discoveries (`!parents.has`). -/
def bfsExplore (currentId : String) (visited : JSet) :
    List (Node × Edge × Int) → BfsSt → BfsSt
  | [], st => st
  | (node, edge, _) :: rest, st =>
    if shas visited node.id then
      bfsExplore currentId visited rest st
    else
      let st := { st with steps := st.steps ++
        [{ type := .explore, nodeId := some node.id, edgeId := some edge.id,
           message := "Exploring edge to " ++ node.label,
           visited := some visited, queue := some (st.queue ++ [node.id]) }] }
      if mhas st.parents node.id then
        bfsExplore currentId visited rest st
      else
        bfsExplore currentId visited rest
          { st with parents := mset st.parents node.id (some currentId),
                    queue := st.queue ++ [node.id] }

/-- Main loop of `bfs`. -/
def bfsLoop (g : Graph) (endId? : Option String) : Nat → BfsSt → Option AlgorithmResult
  | 0, _ => none
  | fuel + 1, st =>
    match st.queue with
    | [] =>
      some { steps := st.steps ++
        [{ type := .complete,
           message := match endId? with
             | some _ => "Target node not reachable from start"
             | none => "BFS traversal complete",
           visited := some st.visited }] }
    | currentId :: rest =>
      if shas st.visited currentId then
        bfsLoop g endId? fuel { st with queue := rest }
      else
        let visited := sadd st.visited currentId
        let steps := st.steps ++
          [{ type := .visit, nodeId := some currentId,
             message := "Visiting node " ++ optLabel (getNodeById g currentId),
             visited := some visited, queue := some rest }]
        if isEndHit endId? currentId then
          match reconstructPath st.parents currentId with
          | none => none
          | some path =>
            let doneStep : AlgorithmStep :=
              { type := .complete,
                message := "Found target node " ++ optLabel (getNodeById g currentId) ++
                  "! Path length: " ++ toString (path.length - 1),
                currentPath := some path, visited := some visited }
            some { steps := steps ++ [doneStep], shortestPath := some path }
        else
          let st := bfsExplore currentId visited (getNeighbors g currentId)
            { steps, visited, parents := st.parents, queue := rest }
          bfsLoop g endId? fuel st

/-- Fuel for the BFS loop: every iteration either dequeues an already-visited
node or discovers at most all remaining nodes, so `nodes.length + 2` bounds
the iteration count. -/
def bfsFuel (g : Graph) : Nat := g.nodes.length + 2

/-- `bfs` from the algorithms module. -/
def bfs (g : Graph) (startId : String) (endId? : Option String) : Option AlgorithmResult :=
  let queue := [startId]
  let parents : PMap := mset [] startId none
  let steps : List AlgorithmStep :=
    [{ type := .visit, nodeId := some startId,
       message := "Starting BFS from node " ++ optLabel (getNodeById g startId),
       visited := some [], queue := some queue }]
  bfsLoop g endId? (bfsFuel g) { steps, visited := [], parents, queue }

/-! ## DFS -/

/-- Working state of the DFS recursion (`hasCycle` and `foundEnd` are the
mutable flags of the closure). -/
structure DfsSt where
  steps : List AlgorithmStep
  visited : JSet
  recStack : JSet
  parents : PMap
  hasCycle : Bool
  foundEnd : Bool
deriving DecidableEq

mutual

/-- `dfsRecursive` from the algorithms module.  The boolean result propagates
the found-flag that aborts the remaining recursion.  Fuel is consumed on every
visit and every explored neighbour so that the mutual recursion is structural;
`none` marks exhaustion (never reached, see the sufficiency lemma). -/
def dfsRec (g : Graph) (endId? : Option String) (detectCycles : Bool) :
    Nat → String → Option String → DfsSt → Option (DfsSt × Bool)
  | 0, _, _, _ => none
  | fuel + 1, nodeId, parentId, st =>
    let visited := sadd st.visited nodeId
    let recStack := sadd st.recStack nodeId
    let parents := mset st.parents nodeId parentId
    let visitStep : AlgorithmStep :=
      { type := .visit, nodeId := some nodeId,
        message := "Visiting node " ++ optLabel (getNodeById g nodeId),
        visited := some visited, stack := some recStack }
    let st := { st with visited, recStack, parents, steps := st.steps ++ [visitStep] }
    if isEndHit endId? nodeId then
      match reconstructPath st.parents nodeId with
      | none => none
      | some path =>
        let doneStep : AlgorithmStep :=
          { type := .complete,
            message := "Found target node " ++ optLabel (getNodeById g nodeId) ++
              "! Path length: " ++ toString (path.length - 1),
            currentPath := some path, visited := some st.visited }
        some ({ st with foundEnd := true, steps := st.steps ++ [doneStep] }, true)
    else
      match dfsNeighbors g endId? detectCycles fuel nodeId parentId (getNeighbors g nodeId) st with
      | none => none
      | some (st, true) => some (st, true)
      | some (st, false) => some ({ st with recStack := sdel st.recStack nodeId }, false)

/-- Neighbour loop of `dfsRecursive`: an `explore` step for every neighbour,
recursion into unvisited ones, back-edge detection for visited ones on the
recursion stack (skipping the immediate parent in undirected graphs). -/
def dfsNeighbors (g : Graph) (endId? : Option String) (detectCycles : Bool) :
    Nat → String → Option String → List (Node × Edge × Int) → DfsSt → Option (DfsSt × Bool)
  | 0, _, _, _, _ => none
  | _ + 1, _, _, [], st => some (st, false)
  | fuel + 1, nodeId, parentId, (neighbor, edge, _) :: rest, st =>
    let exploreStep : AlgorithmStep :=
      { type := .explore, nodeId := some neighbor.id, edgeId := some edge.id,
        message := "Exploring edge to " ++ neighbor.label,
        visited := some st.visited, stack := some st.recStack }
    let st := { st with steps := st.steps ++ [exploreStep] }
    if !(shas st.visited neighbor.id) then
      match dfsRec g endId? detectCycles fuel neighbor.id (some nodeId) st with
      | none => none
      | some (st, true) => some (st, true)
      | some (st, false) => dfsNeighbors g endId? detectCycles fuel nodeId parentId rest st
    else
      if detectCycles && shas st.recStack neighbor.id &&
          (g.isDirected || !(some neighbor.id == parentId)) then
        let cycleStep : AlgorithmStep :=
          { type := .cycleDetected, nodeId := some neighbor.id, edgeId := some edge.id,
            message := "Cycle detected! Back edge to " ++ neighbor.label,
            visited := some st.visited }
        let st := { st with hasCycle := true, steps := st.steps ++ [cycleStep] }
        dfsNeighbors g endId? detectCycles fuel nodeId parentId rest st
      else
        dfsNeighbors g endId? detectCycles fuel nodeId parentId rest st

end

/-- Fuel for the DFS recursion: one unit per visit and per explored neighbour,
bounded by nodes times incident edges. -/
def dfsFuel (g : Graph) : Nat := (g.nodes.length + 2) * (g.edges.length + 2)

/-- `dfs` from the algorithms module (`detectCycles` defaults to `true` at the
call site in `runAlgorithm`). -/
def dfs (g : Graph) (startId : String) (endId? : Option String) (detectCycles : Bool) :
    Option AlgorithmResult :=
  let st0 : DfsSt :=
    { steps := [], visited := [], recStack := [],
      parents := mset [] startId none, hasCycle := false, foundEnd := false }
  match dfsRec g endId? detectCycles (dfsFuel g) startId none st0 with
  | none => none
  | some (st, _) =>
    if !st.foundEnd then
      let finalStep : AlgorithmStep :=
        { type := .complete,
          message :=
            if st.hasCycle then "DFS complete - Cycle detected!"
            else if strTruthy endId? then "DFS complete - Target node not reachable"
            else "DFS traversal complete - No cycle found",
          visited := some st.visited }
      some { steps := st.steps ++ [finalStep], hasCycle := some st.hasCycle }
    else
      some { steps := st.steps, hasCycle := some st.hasCycle }

/-! ## Dijkstra -/

/-- Working state of the Dijkstra loop; the priority structure is the list of
`{id, dist}` records, re-sorted (stably, ascending by `dist`) each iteration. -/
structure DijSt where
  steps : List AlgorithmStep
  distances : DMap
  parents : PMap
  visited : JSet
  pq : List (String × JNum)
deriving DecidableEq

/-- Comparator `(a, b) => a.dist - b.dist` of the priority list.  All entries
ever pushed are finite, so the `Infinity` rows are never exercised (JavaScript
would yield `NaN` for `Infinity - Infinity`). -/
def pqLe (a b : String × JNum) : Bool := jle a.2 b.2

/-- Relaxation guard `newDist < distances.get(node.id)!` — an absent binding
is `undefined` in JavaScript and every `<` comparison with it is false. -/
def jsLtOpt (a : JNum) (b? : Option JNum) : Bool :=
  match b? with
  | some b => jlt a b
  | none => false

/-- Rendering of the old distance in Dijkstra's `explore` message
(`oldDist === Infinity ? '∞' : oldDist`). -/
def oldDistStr : Option JNum → String
  | some (some v) => toString v
  | some none => "∞"
  | none => "undefined"

/-- Neighbour loop of Dijkstra: skip visited neighbours, emit `explore`, relax
when the candidate distance is smaller, pushing a fresh priority entry. -/
def dijkstraExplore (currentId : String) (currentDist : JNum) :
    List (Node × Edge × Int) → DijSt → DijSt
  | [], st => st
  | (node, edge, weight) :: rest, st =>
    if shas st.visited node.id then
      dijkstraExplore currentId currentDist rest st
    else
      let newDist := jadd currentDist weight
      let oldDist? := mfind? st.distances node.id
      let exploreStep : AlgorithmStep :=
        { type := .explore, nodeId := some node.id, edgeId := some edge.id,
          message := "Checking " ++ node.label ++ ": current=" ++ oldDistStr oldDist? ++
            ", new=" ++ jstr newDist,
          distances := some st.distances }
      let st := { st with steps := st.steps ++ [exploreStep] }
      if jsLtOpt newDist oldDist? then
        let distances := mset st.distances node.id newDist
        let relaxStep : AlgorithmStep :=
          { type := .relax, nodeId := some node.id, edgeId := some edge.id,
            message := "Updated distance to " ++ node.label ++ ": " ++ jstr newDist,
            distances := some distances }
        dijkstraExplore currentId currentDist rest
          { st with distances,
                    parents := mset st.parents node.id (some currentId),
                    pq := st.pq ++ [(node.id, newDist)],
                    steps := st.steps ++ [relaxStep] }
      else
        dijkstraExplore currentId currentDist rest st

/-- Code after Dijkstra's main loop: report the path to `endId` (absent when
the recorded distance is `Infinity`) or the full distance map. -/
def dijkstraFinish (endId? : Option String) (st : DijSt) : Option AlgorithmResult :=
  if strTruthy endId? then
    let e := endId?.getD ""
    match reconstructPath st.parents e with
    | none => none
    | some path =>
      let dist? := mfind? st.distances e
      let isInf := dist? == some none
      let doneStep : AlgorithmStep :=
        { type := .complete,
          message := if isInf then "No path exists"
            else "Shortest path found! Distance: " ++ oldDistStr dist?,
          currentPath := if isInf then none else some path,
          distances := some st.distances }
      some { steps := st.steps ++ [doneStep],
             shortestPath := if isInf then none else some path,
             distances := some st.distances }
  else
    let doneStep : AlgorithmStep :=
      { type := .complete,
        message := "Dijkstra complete - All shortest paths computed",
        distances := some st.distances }
    some { steps := st.steps ++ [doneStep], distances := some st.distances }

/-- Main loop of `dijkstra`: re-sort the priority list, pop the minimum, skip
stale entries for visited nodes, stop early on an `Infinity` entry. -/
def dijkstraLoop (g : Graph) (endId? : Option String) : Nat → DijSt → Option AlgorithmResult
  | 0, _ => none
  | fuel + 1, st =>
    match ssort pqLe st.pq with
    | [] => dijkstraFinish endId? st
    | (currentId, currentDist) :: rest =>
      if shas st.visited currentId then
        dijkstraLoop g endId? fuel { st with pq := rest }
      else if currentDist == jInf then
        dijkstraFinish endId? { st with pq := rest }
      else
        let visited := sadd st.visited currentId
        let visitStep : AlgorithmStep :=
          { type := .visit, nodeId := some currentId,
            message := "Processing " ++ optLabel (getNodeById g currentId) ++
              " with distance " ++ jstr currentDist,
            distances := some st.distances, visited := some visited }
        let st := { st with visited, pq := rest, steps := st.steps ++ [visitStep] }
        if isEndHit endId? currentId then
          match reconstructPath st.parents currentId with
          | none => none
          | some path =>
            let doneStep : AlgorithmStep :=
              { type := .complete,
                message := "Shortest path found! Distance: " ++
                  oldDistStr (mfind? st.distances currentId),
                currentPath := some path, distances := some st.distances }
            some { steps := st.steps ++ [doneStep],
                   shortestPath := some path, distances := some st.distances }
        else
          let st := dijkstraExplore currentId currentDist (getNeighbors g currentId) st
          dijkstraLoop g endId? fuel st

/-- Fuel for the Dijkstra loop: each iteration pops one priority entry and
entries are pushed only while visiting a node for the first time, at most one
per incident edge. -/
def dijFuel (g : Graph) : Nat := (g.nodes.length + 1) * (g.edges.length + 1) + 2

/-- `dijkstra` from the algorithms module. -/
def dijkstra (g : Graph) (startId : String) (endId? : Option String) : Option AlgorithmResult :=
  let distances : DMap :=
    g.nodes.foldl (fun d n => mset d n.id (if n.id == startId then some 0 else jInf)) []
  let startStep : AlgorithmStep :=
    { type := .visit, nodeId := some startId,
      message := "Starting Dijkstra from " ++ optLabel (getNodeById g startId),
      distances := some distances, visited := some [] }
  dijkstraLoop g endId? (dijFuel g)
    { steps := [startStep], distances, parents := mset [] startId none,
      visited := [], pq := [(startId, some 0)] }

/-! ## Bellman-Ford -/

/-- Direction list for one edge: directed graphs use the edge once, undirected
graphs relax it in both directions. -/
def edgeDirections (g : Graph) (e : Edge) : List (String × String) :=
  if g.isDirected then [(e.source, e.target)]
  else [(e.source, e.target), (e.target, e.source)]

/-- The relaxation guard of Bellman-Ford.  In JavaScript an absent source
binding gives `undefined !== Infinity` (true) but then a `NaN` comparison that
never relaxes, and an absent target binding makes `newDist < undefined` false;
both collapse to "no relaxation". -/
def bfRelaxable (d : DMap) (src dst : String) (w : Int) : Bool :=
  match mfind? d src, mfind? d dst with
  | some (some f), some t => jlt (some (f + w)) t
  | _, _ => false

/-- Inner direction loop of one edge inside a Bellman-Ford pass. -/
def bfRelaxDirs (g : Graph) (e : Edge) :
    List (String × String) → List AlgorithmStep × DMap × PMap × Bool →
    List AlgorithmStep × DMap × PMap × Bool
  | [], acc => acc
  | (src, dst) :: rest, (steps, d, p, updated) =>
    if bfRelaxable d src dst e.weight then
      let newDist := jadd (mfind? d src |>.getD jInf) e.weight
      let d := mset d dst newDist
      let relaxStep : AlgorithmStep :=
        { type := .relax, nodeId := some dst, edgeId := some e.id,
          message := "Relaxed edge: distance to " ++ optLabel (getNodeById g dst) ++
            " = " ++ jstr newDist,
          distances := some d }
      bfRelaxDirs g e rest (steps ++ [relaxStep], d, mset p dst (some src), true)
    else
      bfRelaxDirs g e rest (steps, d, p, updated)

/-- One full pass of Bellman-Ford over all edges. -/
def bfPass (g : Graph) :
    List Edge → List AlgorithmStep × DMap × PMap × Bool →
    List AlgorithmStep × DMap × PMap × Bool
  | [], acc => acc
  | e :: rest, acc => bfPass g rest (bfRelaxDirs g e (edgeDirections g e) acc)

/-- The `n - 1` relaxation passes, with the early exit when a pass produced no
update.  `iterIdx` is the zero-based pass counter used in the messages and
`total` is `n - 1`. -/
def bfIterate (g : Graph) (total : Nat) :
    Nat → Nat → List AlgorithmStep × DMap × PMap → List AlgorithmStep × DMap × PMap
  | 0, _, acc => acc
  | k + 1, iterIdx, (steps, d, p) =>
    let iterStep : AlgorithmStep :=
      { type := .visit,
        message := "Iteration " ++ toString (iterIdx + 1) ++ " of " ++ toString total,
        distances := some d }
    let (steps, d, p, updated) := bfPass g g.edges (steps ++ [iterStep], d, p, false)
    if updated then bfIterate g total k (iterIdx + 1) (steps, d, p)
    else
      let stopStep : AlgorithmStep :=
        { type := .visit,
          message := "No updates in iteration " ++ toString (iterIdx + 1) ++
            ", terminating early",
          distances := some d }
      (steps ++ [stopStep], d, p)

/-- The negative-cycle check: scan the edges (both directions for undirected
graphs) and stop at the first edge that can still relax. -/
def bfFindRelaxable (g : Graph) (d : DMap) : List Edge → Option Edge
  | [] => none
  | e :: rest =>
    if (edgeDirections g e).any (fun sd => bfRelaxable d sd.1 sd.2 e.weight) then some e
    else bfFindRelaxable g d rest

/-- `bellmanFord` from the algorithms module. -/
def bellmanFord (g : Graph) (startId : String) (endId? : Option String) :
    Option AlgorithmResult :=
  let n := g.nodes.length
  let distances : DMap :=
    g.nodes.foldl (fun d nd => mset d nd.id (if nd.id == startId then some 0 else jInf)) []
  let parents : PMap := mset [] startId none
  let startStep : AlgorithmStep :=
    { type := .visit, nodeId := some startId,
      message := "Starting Bellman-Ford from " ++ optLabel (getNodeById g startId),
      distances := some distances }
  let (steps, d, p) := bfIterate g (n - 1) (n - 1) 0 ([startStep], distances, parents)
  match bfFindRelaxable g d g.edges with
  | some e =>
    let cycleStep : AlgorithmStep :=
      { type := .cycleDetected, edgeId := some e.id,
        message := "Negative cycle detected!", distances := some d }
    let doneStep : AlgorithmStep :=
      { type := .complete,
        message := "Algorithm complete - Negative cycle exists!", distances := some d }
    some { steps := steps ++ [cycleStep, doneStep],
           hasNegativeCycle := some true, distances := some d }
  | none =>
    if strTruthy endId? then
      let e := endId?.getD ""
      match reconstructPath p e with
      | none => none
      | some path =>
        let dist? := mfind? d e
        let isInf := dist? == some none
        let doneStep : AlgorithmStep :=
          { type := .complete,
            message := if isInf then "No path exists"
              else "Shortest path: " ++ oldDistStr dist?,
            currentPath := if isInf then none else some path,
            distances := some d }
        some { steps := steps ++ [doneStep],
               shortestPath := if isInf then none else some path,
               distances := some d }
    else
      let doneStep : AlgorithmStep :=
        { type := .complete, message := "Bellman-Ford complete", distances := some d }
      some { steps := steps ++ [doneStep], distances := some d,
             hasNegativeCycle := some false }

/-! ## A* -/

/-- `gScore.get(x) || Infinity`: `undefined`, `Infinity` and the falsy `0` all
become `Infinity`. -/
def jsOrInf : Option JNum → JNum
  | some (some v) => if v == 0 then jInf else some v
  | some none => jInf
  | none => jInf

/-- `gScore.get(x) || 0`: `undefined` becomes `0`, everything else (including
`Infinity`) is kept (`0 || 0` is still `0`). -/
def jsOrZero : Option JNum → JNum
  | some j => j
  | none => some 0

/-- Comparator of the open list: ascending
`(fScore.get(a) || Infinity) - (fScore.get(b) || Infinity)`. -/
def fLe (fScore : DMap) (a b : String) : Bool :=
  jle (jsOrInf (mfind? fScore a)) (jsOrInf (mfind? fScore b))

/-- Working state of the A* loop. -/
structure AStarSt where
  steps : List AlgorithmStep
  gScore : DMap
  fScore : DMap
  parents : PMap
  openSet : List String
  closedSet : JSet
deriving DecidableEq

/-- Neighbour loop of A*: skip closed neighbours, emit `explore`, relax when
the tentative g-score beats `gScore.get(node.id) || Infinity`, pushing to the
open list only on first membership. -/
def aStarExplore (hfun : String → Int) (currentId : String) :
    List (Node × Edge × Int) → AStarSt → AStarSt
  | [], st => st
  | (node, edge, weight) :: rest, st =>
    if shas st.closedSet node.id then
      aStarExplore hfun currentId rest st
    else
      let tentativeG := jadd (jsOrZero (mfind? st.gScore currentId)) weight
      let exploreStep : AlgorithmStep :=
        { type := .explore, nodeId := some node.id, edgeId := some edge.id,
          message := "Exploring " ++ node.label ++ ": g=" ++ jstr tentativeG ++
            ", h=" ++ toString (hfun node.id),
          distances := some st.gScore }
      let st := { st with steps := st.steps ++ [exploreStep] }
      if jlt tentativeG (jsOrInf (mfind? st.gScore node.id)) then
        let gScore := mset st.gScore node.id tentativeG
        let fScore := mset st.fScore node.id (jadd tentativeG (hfun node.id))
        let openSet := if st.openSet.contains node.id then st.openSet
          else st.openSet ++ [node.id]
        let relaxStep : AlgorithmStep :=
          { type := .relax, nodeId := some node.id, edgeId := some edge.id,
            message := "Updated " ++ node.label ++ ": g=" ++ jstr tentativeG ++
              ", f=" ++ oldDistStr (mfind? fScore node.id),
            distances := some gScore }
        aStarExplore hfun currentId rest
          { st with gScore, fScore, openSet,
                    parents := mset st.parents node.id (some currentId),
                    steps := st.steps ++ [relaxStep] }
      else
        aStarExplore hfun currentId rest st

/-- Main loop of A*. -/
def aStarLoop (g : Graph) (endId : String) (hfun : String → Int) :
    Nat → AStarSt → Option AlgorithmResult
  | 0, _ => none
  | fuel + 1, st =>
    match ssort (fLe st.fScore) st.openSet with
    | [] =>
      let doneStep : AlgorithmStep :=
        { type := .complete,
          message := "No path exists between start and end nodes",
          distances := some st.gScore }
      some { steps := st.steps ++ [doneStep] }
    | currentId :: rest =>
      let visitStep : AlgorithmStep :=
        { type := .visit, nodeId := some currentId,
          message := "Processing " ++ optLabel (getNodeById g currentId) ++
            " (g=" ++ oldDistStr (mfind? st.gScore currentId) ++
            ", f=" ++ oldDistStr (mfind? st.fScore currentId) ++ ")",
          distances := some st.gScore, visited := some st.closedSet }
      let st := { st with openSet := rest, steps := st.steps ++ [visitStep] }
      if currentId == endId then
        match reconstructPath st.parents endId with
        | none => none
        | some path =>
          let doneStep : AlgorithmStep :=
            { type := .complete,
              message := "Path found! Distance: " ++ oldDistStr (mfind? st.gScore endId),
              currentPath := some path, distances := some st.gScore }
          some { steps := st.steps ++ [doneStep],
                 shortestPath := some path, distances := some st.gScore }
      else
        let st := { st with closedSet := sadd st.closedSet currentId }
        let st := aStarExplore hfun currentId (getNeighbors g currentId) st
        aStarLoop g endId hfun fuel st

/-- Fuel for the A* loop: the open list is duplicate-free and a node never
re-enters it after being closed, so the number of pops is bounded by the
number of nodes. -/
def aStarFuel (g : Graph) : Nat := g.nodes.length + 2

/-- JavaScript failure modes of the engine: an explicit `throw new Error(msg)`
or a `TypeError` from dereferencing `undefined`. -/
inductive JsErr
  | thrown (msg : String)
  | typeError
deriving DecidableEq

/-- `aStar` from the algorithms module.  The non-null-asserted lookups of the
start and end node are dereferenced (via the heuristic's `node.x` accesses and
the start message) before the loop begins: when either lookup fails the
JavaScript function dies with a `TypeError` before producing a result.  The
heuristic (`Euclidean distance / 50`, floating point) is abstracted into the
parameter `hfun`. -/
def aStar (g : Graph) (startId endId : String) (hfun : String → Int) :
    Except JsErr (Option AlgorithmResult) :=
  match getNodeById g startId, getNodeById g endId with
  | some startNode, some endNode =>
    let gScore : DMap :=
      g.nodes.foldl (fun d nd => mset d nd.id (if nd.id == startId then some 0 else jInf)) []
    let fScore : DMap :=
      g.nodes.foldl (fun d nd =>
        mset d nd.id (if nd.id == startId then some (hfun startId) else jInf)) []
    let startStep : AlgorithmStep :=
      { type := .visit, nodeId := some startId,
        message := "Starting A* from " ++ startNode.label ++ " to " ++ endNode.label,
        distances := some gScore }
    .ok (aStarLoop g endId hfun (aStarFuel g)
      { steps := [startStep], gScore, fScore,
        parents := mset [] startId none, openSet := [startId], closedSet := [] })
  | _, _ => .error .typeError

/-! ## Dispatcher -/

/-- `runAlgorithm` from the algorithms module.  The result is
`.error` for a thrown error, `.ok none` for a loop that would not terminate
(never reached) and `.ok (some r)` for a normal return. -/
def runAlgorithm (type : String) (g : Graph) (startId : String) (endId? : Option String)
    (hfun : String → Int) : Except JsErr (Option AlgorithmResult) :=
  if type == "bfs" then .ok (bfs g startId endId?)
  else if type == "dfs" then .ok (dfs g startId endId? true)
  else if type == "dijkstra" then .ok (dijkstra g startId endId?)
  else if type == "bellman-ford" then .ok (bellmanFord g startId endId?)
  else if type == "astar" then
    if !strTruthy endId? then .error (.thrown "A* requires an end node")
    else aStar g startId (endId?.getD "") hfun
  else .error (.thrown ("Unknown algorithm: " ++ type))

/-! ## Graph-side specification notions

These notions are stated directly against the `Graph` record: adjacency
respects the `isDirected` flag exactly as the spec describes ("an edge's
effective endpoints depend on `graph.isDirected`"). -/

/-- `u` steps to `v` through an edge of weight `w`, respecting directedness. -/
def wadjOn (g : Graph) (u v : String) (w : Int) : Prop :=
  ∃ e ∈ g.edges,
    ((e.source = u ∧ e.target = v) ∨ (g.isDirected = false ∧ e.source = v ∧ e.target = u)) ∧
    e.weight = w

/-- Unweighted adjacency respecting directedness. -/
def adjOn (g : Graph) (u v : String) : Prop := ∃ w, wadjOn g u v w

/-- Walks from `u` to `t` with total weight `c` and edge count `k`. -/
inductive CWalk (g : Graph) : String → String → Int → Nat → Prop
  | nil (v : String) : CWalk g v v 0 0
  | cons {u v t : String} {w c : Int} {k : Nat} :
      wadjOn g u v w → CWalk g v t c k → CWalk g u t (w + c) (k + 1)

/-- `v` is reachable from `s` respecting directedness. -/
def Reachable (g : Graph) (s v : String) : Prop := ∃ c k, CWalk g s v c k

/-- A negative cycle (closed walk of negative total weight) reachable from
`s`; per claim C3 an edge of an undirected graph is usable in both directions,
so in particular a negative undirected edge closes such a cycle. -/
def NegCycleFrom (g : Graph) (s : String) : Prop :=
  ∃ v c k, Reachable g s v ∧ CWalk g v v c k ∧ 0 < k ∧ c < 0

/-- A negative cycle anywhere in the graph (the unrestricted reading of
claim C3). -/
def NegCycleAnywhere (g : Graph) : Prop :=
  ∃ v c k, CWalk g v v c k ∧ 0 < k ∧ c < 0

/-- The node-id list of a graph. -/
def nodeIds (g : Graph) : List String := g.nodes.map Node.id

/-- Claim C5's first condition: every edge's `source`/`target` references an
existing node id. -/
def EdgesRefNodes (g : Graph) : Prop :=
  ∀ e ∈ g.edges, e.source ∈ nodeIds g ∧ e.target ∈ nodeIds g

/-- Claim C5's second condition: no self-loops. -/
def NoSelfLoops (g : Graph) : Prop := ∀ e ∈ g.edges, e.source ≠ e.target

/-- Two edges connect the same pair, orientation ignored when undirected —
the equivalence `addEdge` tests before inserting. -/
def sameEndpoints (isDirected : Bool) (e1 e2 : Edge) : Prop :=
  (e1.source = e2.source ∧ e1.target = e2.target) ∨
  (isDirected = false ∧ e1.source = e2.target ∧ e1.target = e2.source)

/-- Claim C5's third condition: no duplicate edges between the same
(ordered, when directed) pair. -/
def NoDupEdges (g : Graph) : Prop :=
  g.edges.Pairwise (fun e1 e2 => ¬ sameEndpoints g.isDirected e1 e2)

/-- The three structural conditions claim C5 quantifies over. -/
def Mutator3 (g : Graph) : Prop := EdgesRefNodes g ∧ NoSelfLoops g ∧ NoDupEdges g

/-- Well-formedness assumed by the algorithm claims: the three structural
Graph-Model invariants plus the data-model guarantees about node ids — ids
are unique ("id: string (unique, stable)") and non-empty (every id the Graph
Model generates has the shape `node_<timestamp>_<random>`; `getNeighbors`
tests ids for truthiness, so the empty string is not a usable id). -/
def WellFormed (g : Graph) : Prop :=
  Mutator3 g ∧ (nodeIds g).Nodup ∧ ∀ n ∈ g.nodes, n.id ≠ ""

/-! ## Specification-side notions about parent maps, distances and traces -/

/-- Chains to the root in a parent map: `PChain p s v l` says that following
the parent pointers from `v` reaches the root `s` (whose recorded parent is
`null`), visiting the nodes `l = [s, …, v]`.  Parent values are non-empty
strings, matching `reconstructPath`'s truthiness collapse. -/
inductive PChain (p : PMap) (s : String) : String → List String → Prop
  | root : mfind? p s = some none → PChain p s s [s]
  | step {v u : String} {l : List String} :
      mfind? p v = some (some u) → v ≠ s → u ≠ "" →
      PChain p s u l → PChain p s v (l ++ [v])

/-- Depth of `v` in a parent map: the edge count of its parent chain, read off
the list `reconstructPath` computes. -/
def depthOf (p : PMap) (v : String) : Nat :=
  ((reconstructPath p v).getD []).length - 1

/-- Walks of edge count `k` and arbitrary cost. -/
def ReachN (g : Graph) (s v : String) (k : Nat) : Prop := ∃ c, CWalk g s v c k

/-- Nodes of the graph not yet bound in a parent map. -/
def undiscovered (g : Graph) (p : PMap) : Nat :=
  (g.nodes.filter (fun n => !(mhas p n.id))).length

/-- The list `p` is a node sequence from `s` to `e` every consecutive pair of
which is connected respecting directedness (claim C6's conclusion). -/
def IsPathList (g : Graph) (s e : String) (p : List String) : Prop :=
  p.head? = some s ∧ p.getLast? = some e ∧ List.Chain' (adjOn g) p

/-- Parent of the current node read off a DFS stack snapshot (insertion
order): the element just before the last; `none` for the root. -/
def stackParent (stk : List String) : Option String := (stk.reverse.drop 1).head?

/-- The event claim C4 describes, read off one trace step: an `explore` step
whose recorded target is already visited, lies on the recorded recursion
stack, and is not the undirected parent-skip case. -/
def backEdgeEvent (g : Graph) (s : AlgorithmStep) : Prop :=
  s.type = .explore ∧
  ∃ v stk vis, s.nodeId = some v ∧ s.stack = some stk ∧ s.visited = some vis ∧
    v ∈ vis ∧ v ∈ stk ∧ (g.isDirected = true ∨ some v ≠ stackParent stk)

/-- Some step of the trace is a back-edge event. -/
def BackEdgeInTrace (g : Graph) (steps : List AlgorithmStep) : Prop :=
  ∃ s ∈ steps, backEdgeEvent g s

/-- The step list is non-empty and its final step is a `complete` step
(claim C9's conclusion). -/
def endsComplete (r : AlgorithmResult) : Bool :=
  !r.steps.isEmpty && ((r.steps.getLast?).map AlgorithmStep.type == some StepType.complete)

/-- Distance recorded for `v` in a distance map; an absent binding reads as
`Infinity` (bindings exist for every node of the graph throughout). -/
def dget (d : DMap) (v : String) : JNum := (mfind? d v).getD jInf

/-- No edge can relax: `d v ≤ d u + w` across every usable edge direction. -/
def Stable (g : Graph) (d : DMap) : Prop :=
  ∀ u v w, wadjOn g u v w → jle (dget d v) (jadd (dget d u) w) = true

/-- Every finite recorded distance is realised by a walk from `s`. -/
def SoundD (g : Graph) (s : String) (d : DMap) : Prop :=
  ∀ v c, dget d v = some c → ∃ k, CWalk g s v c k

/-- All edge weights are non-negative. -/
def NonnegW (g : Graph) : Prop := ∀ e ∈ g.edges, 0 ≤ e.weight

/-- Loop invariant of `bfs` relating the working state to the graph: the
parent map is a tree of discovered nodes rooted at `s` whose chains are
genuine graph paths, the queue lists discovered-but-unvisited nodes in
non-decreasing depth order spanning at most two consecutive BFS layers, and
every neighbour of a visited node is discovered within one extra layer. -/
structure BfsInv (g : Graph) (s : String) (endId? : Option String) (st : BfsSt) : Prop where
  root : mfind? st.parents s = some none
  edges : ∀ v u, mfind? st.parents v = some (some u) →
    adjOn g u v ∧ u ≠ "" ∧ mhas st.parents u = true ∧ v ≠ s
  chains : ∀ v, mhas st.parents v = true → ∃ l, PChain st.parents s v l
  keysNe : ∀ v, mhas st.parents v = true → v ≠ ""
  queueKeys : ∀ v ∈ st.queue, mhas st.parents v = true
  visKeys : ∀ v ∈ st.visited, mhas st.parents v = true
  cover : ∀ v, mhas st.parents v = true → v ∈ st.visited ∨ v ∈ st.queue
  qmono : List.Chain' (fun a b => depthOf st.parents a ≤ depthOf st.parents b) st.queue
  qspread : ∀ hd, st.queue.head? = some hd →
    ∀ w ∈ st.queue, depthOf st.parents w ≤ depthOf st.parents hd + 1
  visq : ∀ u ∈ st.visited, ∀ w ∈ st.queue, depthOf st.parents u ≤ depthOf st.parents w
  closed : ∀ u ∈ st.visited, ∀ v, adjOn g u v →
    mhas st.parents v = true ∧ depthOf st.parents v ≤ depthOf st.parents u + 1
  reach : ∀ v, mhas st.parents v = true → ReachN g s v (depthOf st.parents v)
  novisend : ∀ v ∈ st.visited, isEndHit endId? v = false
  qnodup : st.queue.Nodup
  qnotvis : ∀ v ∈ st.queue, v ∉ st.visited

/-- Contract of one BFS neighbour loop: the queue grows by the freshly
discovered targets `added`, each bound to the current node in the parent map,
and the bindings of previously discovered nodes are untouched. -/
structure BfsExploreOut (g : Graph) (c : String) (vis : JSet) (st st' : BfsSt)
    (added : List String) : Prop where
  queue_eq : st'.queue = st.queue ++ added
  vis_eq : st'.visited = st.visited
  steps_pre : ∃ tail, st'.steps = st.steps ++ tail
  old_keys : ∀ x, mhas st.parents x = true → mfind? st'.parents x = mfind? st.parents x
  new_keys : ∀ a ∈ added, mfind? st'.parents a = some (some c) ∧
    mhas st.parents a = false ∧ a ≠ "" ∧ (∃ nd ∈ g.nodes, nd.id = a) ∧
    adjOn g c a ∧ shas vis a = false
  keys_sub : ∀ x, mhas st'.parents x = true → mhas st.parents x = true ∨ x ∈ added
  added_nodup : added.Nodup
  undisc : undiscovered g st'.parents + added.length ≤ undiscovered g st.parents

/-! ## Concrete graphs and outcome classifiers used by the claim theorems -/

/-- One node, no edges (claim C7's scenario). -/
def oneNodeGraph : Graph :=
  { nodes := [{ id := "a", x := 0, y := 0, label := "A" }],
    edges := [], isDirected := false, isWeighted := true }

/-- Directed path `s → e → x` with unit weights (claim C2's counterexample:
`e` is the end node, `x` lies beyond it). -/
def lineGraph : Graph :=
  { nodes := [
      { id := "s", x := 0, y := 0, label := "S" },
      { id := "e", x := 0, y := 0, label := "E" },
      { id := "x", x := 0, y := 0, label := "X" }],
    edges := [
      { id := "e1", source := "s", target := "e", weight := 1 },
      { id := "e2", source := "e", target := "x", weight := 1 }],
    isDirected := true, isWeighted := true }

/-- An isolated start node next to a negative directed 2-cycle that is not
reachable from it (claim C3's counterexample). -/
def negPairGraph : Graph :=
  { nodes := [
      { id := "s", x := 0, y := 0, label := "S" },
      { id := "a", x := 0, y := 0, label := "A" },
      { id := "b", x := 0, y := 0, label := "B" }],
    edges := [
      { id := "e1", source := "a", target := "b", weight := -1 },
      { id := "e2", source := "b", target := "a", weight := -1 }],
    isDirected := true, isWeighted := true }

/-- The invocation returned normally with a non-empty step list whose final
step is a `complete` step. -/
def completesNormally (x : Except JsErr (Option AlgorithmResult)) : Bool :=
  match x with
  | .ok (some r) =>
    !r.steps.isEmpty && ((r.steps.getLast?).map AlgorithmStep.type == some StepType.complete)
  | _ => false

/-- The invocation died with a JavaScript `TypeError`. -/
def failsWithTypeError (x : Except JsErr (Option AlgorithmResult)) : Bool :=
  match x with
  | .error .typeError => true
  | _ => false

/-- The invocation threw `new Error(msg)`. -/
def failsThrown (x : Except JsErr (Option AlgorithmResult)) (msg : String) : Bool :=
  match x with
  | .error (.thrown m) => m == msg
  | _ => false

/-! ## Further specification notions shared by the remaining claims -/

/-- Number of graph nodes not contained in a set snapshot (the termination
measure of the DFS recursion and the A* loop). -/
def unvisited (g : Graph) (vis : JSet) : Nat :=
  (g.nodes.filter (fun n => !(shas vis n.id))).length

/-- Walks presented by their trace: the list of nodes visited after the
start, so `tr.length` is the edge count. -/
inductive TWalk (g : Graph) : String → String → Int → List String → Prop
  | nil (v : String) : TWalk g v v 0 []
  | cons {u v t : String} {w c : Int} {tr : List String} :
      wadjOn g u v w → TWalk g v t c tr → TWalk g u t (w + c) (v :: tr)

/-- Paths in the parent-pointer graph: `PPath p g a b c T` follows parent
bindings upward from `a` to `b`; every link is matched with the graph edge it
was relaxed along (weight summed into `c`), and `T` collects the nodes whose
bindings are used, in order (so `T.head? = some a`). -/
inductive PPath (p : PMap) (g : Graph) : String → String → Int → List String → Prop
  | single {a b : String} {w : Int} :
      mfind? p a = some (some b) → wadjOn g b a w → PPath p g a b w [a]
  | cons {a u b : String} {w c : Int} {T : List String} :
      mfind? p a = some (some u) → wadjOn g u a w → PPath p g u b c T →
      PPath p g a b (w + c) (a :: T)

/-- After `j` Bellman-Ford passes: the recorded distance of every node is at
most the cost of any walk from the start with at most `j` edges. -/
def PassBound (g : Graph) (s : String) (d : DMap) (j : Nat) : Prop :=
  ∀ v c k, k ≤ j → CWalk g s v c k → jle (dget d v) (some c) = true

/-- The recorded distance of every node is at most the cost of every walk
from the start. -/
def AllWalkBound (g : Graph) (s : String) (d : DMap) : Prop :=
  ∀ v c k, CWalk g s v c k → jle (dget d v) (some c) = true

/-- Loop invariant of the DFS recursion relating the parent map to the
visited set: every binding lies on a chain to the root and every bound node
is visited (or is the root awaiting its first visit). -/
structure DfsInv (s : String) (st : DfsSt) : Prop where
  chains : ∀ k, mhas st.parents k = true → ∃ l, PChain st.parents s k l
  keysVis : ∀ k, mhas st.parents k = true → k ∈ st.visited ∨ k = s
  stackVis : ∀ x ∈ st.recStack, x ∈ st.visited

/-- Common postcondition of one `dfsRecursive` call or one of its neighbour
loops: the state evolves monotonically, steps are appended, `hasCycle` flips
exactly on back-edge events of the appended trace, and a `true` result marks
the found-end early return with its `complete` step last. -/
structure DfsOut (g : Graph) (s : String) (st st' : DfsSt) (b : Bool) : Prop where
  inv : DfsInv s st'
  visMono : ∀ x ∈ st.visited, x ∈ st'.visited
  sVis : s ∈ st'.visited
  keysMono : ∀ k, mhas st.parents k = true → mhas st'.parents k = true
  unvisLe : unvisited g st'.visited ≤ unvisited g st.visited
  trace : ∃ tail, st'.steps = st.steps ++ tail ∧
    (∀ stp ∈ tail, backEdgeEvent g stp → st'.hasCycle = true) ∧
    (st'.hasCycle = true → st.hasCycle = true ∨ ∃ stp ∈ tail, backEdgeEvent g stp)
  cycMono : st.hasCycle = true → st'.hasCycle = true
  foundEq : st'.foundEnd = (st.foundEnd || b)
  lastDone : b = true → ∃ pre stp, st'.steps = pre ++ [stp] ∧ stp.type = StepType.complete
  stackEq : b = false → st'.recStack = st.recStack

/-- Loop invariant of the Dijkstra main loop.  The fields about the parent
map make its chains acyclic graph paths rooted at `s` (parents are visited
strictly earlier than their children); the fields about the priority list
make every entry a finite, walk-realised over-approximation of the current
distance of its node; the last two fields hold under non-negative weights
and express the greedy property (visited distances are final and never
beaten through an outgoing edge). -/
structure DijInv (g : Graph) (s : String) (st : DijSt) : Prop where
  dkeys : ∀ v, mhas st.distances v = true ↔ v ∈ nodeIds g
  dzero : dget st.distances s = some 0
  root : mfind? st.parents s = some none
  noneRoot : ∀ v, mfind? st.parents v = some none → v = s
  pvals : ∀ v u, mfind? st.parents v = some (some u) →
    mhas st.parents u = true ∧ u ≠ "" ∧ (∃ w, wadjOn g u v w)
  pord : ∀ v u, mfind? st.parents v = some (some u) →
    u ∈ st.visited ∧ (v ∈ st.visited →
      st.visited.indexOf u < st.visited.indexOf v)
  visNodup : st.visited.Nodup
  visKeys : ∀ v ∈ st.visited, mhas st.parents v = true
  emptyPq : st.visited = [] → st.pq = [(s, some 0)]
  svis : st.visited ≠ [] → s ∈ st.visited
  pqKeys : ∀ x ∈ st.pq, mhas st.parents x.1 = true
  pqIds : ∀ x ∈ st.pq, x.1 ∈ nodeIds g
  pqSound : ∀ x ∈ st.pq, ∃ i k, x.2 = some i ∧ CWalk g s x.1 i k
  dSound : SoundD g s st.distances
  dle : ∀ x ∈ st.pq, jle (dget st.distances x.1) x.2 = true
  finKey : ∀ v, dget st.distances v ≠ jInf → mhas st.parents v = true
  visFin : ∀ v ∈ st.visited, dget st.distances v ≠ jInf
  inPq : ∀ v, v ∉ st.visited → dget st.distances v ≠ jInf →
    (v, dget st.distances v) ∈ st.pq
  visClosed : ∀ u ∈ st.visited, ∀ v w, wadjOn g u v w →
    dget st.distances v ≠ jInf
  visle : NonnegW g → ∀ v ∈ st.visited, ∀ x ∈ st.pq,
    jle (dget st.distances v) x.2 = true
  visStable : NonnegW g → ∀ u ∈ st.visited, ∀ v w, wadjOn g u v w →
    jle (dget st.distances v) (jadd (dget st.distances u) w) = true

/-- Contract of one Dijkstra neighbour loop run from the node `c` popped with
priority `cd`: the visited set is untouched, steps are appended, distances
only decrease, every changed binding is a relaxation through `c` along a
graph edge with its fresh priority entry pushed, and the priority list grows
by entries that record their node's distance at push time. -/
structure DijExpOut (g : Graph) (c : String) (cd : JNum) (st st' : DijSt) : Prop where
  visitedEq : st'.visited = st.visited
  steps : ∃ tail, st'.steps = st.steps ++ tail
  dmono : ∀ x, jle (dget st'.distances x) (dget st.distances x) = true
  dkeysEq : ∀ x, mhas st'.distances x = mhas st.distances x
  chg : ∀ x, (mfind? st'.distances x = mfind? st.distances x ∧
      mfind? st'.parents x = mfind? st.parents x) ∨
    (shas st.visited x = false ∧ x ∈ nodeIds g ∧ x ≠ "" ∧
     mfind? st'.parents x = some (some c) ∧
     ∃ w, wadjOn g c x w ∧ mfind? st'.distances x = some (jadd cd w) ∧
       (x, jadd cd w) ∈ st'.pq)
  pkeysMono : ∀ x, mhas st.parents x = true → mhas st'.parents x = true
  pqApp : ∃ add, st'.pq = st.pq ++ add ∧ ∀ y ∈ add,
    shas st.visited y.1 = false ∧ y.1 ∈ nodeIds g ∧
    mhas st'.parents y.1 = true ∧
    jle (dget st'.distances y.1) y.2 = true ∧
    ∃ w, wadjOn g c y.1 w ∧ y.2 = jadd cd w

/-- Invariant of the Bellman-Ford working data.  Every link of the parent
map is backed by a graph edge along which it was relaxed, so parent cycles
carry strictly negative total weight (`cycNeg`, maintained through the
strict relaxation guard); the root bindings stay intact unless a negative
closed walk from the start has been found (`disj`). -/
structure BFInv (g : Graph) (s : String) (d : DMap) (p : PMap) : Prop where
  dkeys : ∀ v, mhas d v = true ↔ v ∈ nodeIds g
  sLe0 : jle (dget d s) (some 0) = true
  sound : SoundD g s d
  keysFin : ∀ v, mhas p v = true → dget d v ≠ jInf
  finKey : ∀ v, dget d v ≠ jInf → mhas p v = true
  pvals : ∀ v u, mfind? p v = some (some u) → mhas p u = true ∧ u ≠ "" ∧
    ∃ w, wadjOn g u v w ∧ jle (jadd (dget d u) w) (dget d v) = true
  cycNeg : ∀ v c T, PPath p g v v c T → c < 0
  disj : (mfind? p s = some none ∧ ∀ v, mfind? p v = some none → v = s) ∨
    NegCycleFrom g s

/-- Loop invariant of the A* main loop: the open list is duplicate-free,
consists of graph nodes bound in the parent map and never re-admits closed
nodes, and the parent map is a tree of graph edges rooted at the start node
(parents are closed strictly earlier than their children). -/
structure AStarInv (g : Graph) (s : String) (st : AStarSt) : Prop where
  root : mfind? st.parents s = some none
  noneRoot : ∀ v, mfind? st.parents v = some none → v = s
  pvals : ∀ v u, mfind? st.parents v = some (some u) →
    mhas st.parents u = true ∧ u ≠ "" ∧ (∃ w, wadjOn g u v w)
  pord : ∀ v u, mfind? st.parents v = some (some u) →
    u ∈ st.closedSet ∧ (v ∈ st.closedSet →
      st.closedSet.indexOf u < st.closedSet.indexOf v)
  closedNodup : st.closedSet.Nodup
  openIds : ∀ x ∈ st.openSet, x ∈ nodeIds g
  openKeys : ∀ x ∈ st.openSet, mhas st.parents x = true
  openNotClosed : ∀ x ∈ st.openSet, x ∉ st.closedSet
  openNodup : st.openSet.Nodup
  emptyClosed : st.closedSet = [] → st.openSet = [s]
  sClosed : st.closedSet ≠ [] → s ∈ st.closedSet

/-- Contract of one A* neighbour loop: the closed set is untouched, steps are
appended, every changed parent binding points at the current node along a
graph edge, and the open list grows by fresh unclosed bound nodes without
acquiring duplicates. -/
structure AStarExpOut (g : Graph) (c : String) (st st' : AStarSt) : Prop where
  closedEq : st'.closedSet = st.closedSet
  steps : ∃ tail, st'.steps = st.steps ++ tail
  pchg : ∀ x, mfind? st'.parents x = mfind? st.parents x ∨
    (mfind? st'.parents x = some (some c) ∧ x ∉ st.closedSet ∧ x ≠ "" ∧
     (∃ w, wadjOn g c x w) ∧ x ∈ nodeIds g)
  keysMono : ∀ x, mhas st.parents x = true → mhas st'.parents x = true
  openApp : ∃ add, st'.openSet = st.openSet ++ add ∧
    ∀ x ∈ add, x ∈ nodeIds g ∧ x ∉ st.closedSet ∧ mhas st'.parents x = true
  openNodupP : st.openSet.Nodup → st'.openSet.Nodup

/-! ## Decidability of the structural predicates -/

instance (d : Bool) (e1 e2 : Edge) : Decidable (sameEndpoints d e1 e2) := by
  unfold sameEndpoints; infer_instance

instance (g : Graph) : Decidable (EdgesRefNodes g) := by
  unfold EdgesRefNodes; infer_instance

instance (g : Graph) : Decidable (NoSelfLoops g) := by
  unfold NoSelfLoops; infer_instance

instance (g : Graph) : Decidable (NoDupEdges g) := by
  unfold NoDupEdges; infer_instance

instance (g : Graph) : Decidable (Mutator3 g) := by
  unfold Mutator3; infer_instance

instance (g : Graph) : Decidable (WellFormed g) := by
  unfold WellFormed; infer_instance

instance (g : Graph) (u v : String) (w : Int) : Decidable (wadjOn g u v w) := by
  unfold wadjOn; infer_instance

instance (g : Graph) : Decidable (NonnegW g) := by
  unfold NonnegW; infer_instance

/-! ## Theorems: Graph Model mutators (claim C5) -/

theorem nodeIds_addNode (g : Graph) (x y : Int) (l? : Option String) (i : String) :
    nodeIds (addNode g x y l? i) = nodeIds g ++ [i] := by
  simp [nodeIds, addNode]

theorem mem_nodeIds_removeNode {g : Graph} {rid x : String} :
    x ∈ nodeIds (removeNode g rid) ↔ x ∈ nodeIds g ∧ x ≠ rid := by
  simp only [nodeIds, removeNode, List.mem_map, List.mem_filter]
  constructor
  · rintro ⟨n, ⟨hn, hne⟩, rfl⟩
    simp only [bne_iff_ne, ne_eq, decide_eq_true_eq] at hne
    exact ⟨⟨n, hn, rfl⟩, hne⟩
  · rintro ⟨⟨n, hn, rfl⟩, hne⟩
    exact ⟨n, ⟨hn, by simpa using hne⟩, rfl⟩

theorem nodeIds_updateNode {g : Graph} {uid : String} {u : NodeUpdate}
    (hu : u.id? = none) : nodeIds (updateNode g uid u) = nodeIds g := by
  simp only [nodeIds, updateNode, List.map_map]
  refine List.map_congr_left (fun n _ => ?_)
  simp only [Function.comp_apply]
  split
  · simp [applyUpdate, hu]
  · rfl

theorem addEdge_cases (g : Graph) (src tgt : String) (w : Int) (eid : String) :
    addEdge g src tgt w eid = g ∨
    (src ≠ tgt ∧
     (∀ e ∈ g.edges,
        ¬ ((e.source = src ∧ e.target = tgt) ∨
           (g.isDirected = false ∧ e.source = tgt ∧ e.target = src))) ∧
     addEdge g src tgt w eid =
       { g with edges := g.edges ++ [{ id := eid, source := src, target := tgt, weight := w }] }) := by
  unfold addEdge
  set c := g.edges.any (fun e =>
    (e.source == src && e.target == tgt) ||
    (!g.isDirected && e.source == tgt && e.target == src)) with hc
  by_cases h : (c || src == tgt) = true
  · left; simp [h]
  · right
    simp only [Bool.or_eq_true, not_or] at h
    obtain ⟨hc1, hc2⟩ := h
    refine ⟨by simpa using hc2, ?_, by simp [hc1, hc2]⟩
    intro e he
    have := (List.any_eq_false.mp (Bool.not_eq_true _ ▸ hc1)) e he
    simp only [Bool.or_eq_true, Bool.and_eq_true, beq_iff_eq, Bool.not_eq_true',
      not_or, not_and] at this
    rintro (⟨h1, h2⟩ | ⟨hd, h1, h2⟩)
    · exact this.1 h1 h2
    · exact this.2 ⟨hd, h1⟩ h2

/-- C5: the claim as stated is false — `addEdge` does not check that its
endpoint ids exist, so applying it to the (well-formed) empty graph with
arbitrary ids produces a dangling edge reference; and `updateNode` accepts a
`Partial<Node>` that rewrites the node's id, dangling every incident edge. -/
theorem C5_counterexample :
    Mutator3 createEmptyGraph ∧
    ¬ Mutator3 (addEdge createEmptyGraph "a" "b" 1 "e1") ∧
    Mutator3 createSampleGraph ∧
    ¬ Mutator3 (updateNode createSampleGraph "n1" { id? := some "zz" }) := by
  decide

/-- C5 (amended): the Graph Model mutators preserve the three structural
conditions, provided `addEdge` is applied to endpoint ids of existing nodes
and `updateNode` does not rewrite the node id (the repository only ever calls
`addEdge` with ids of clicked nodes and `updateNode` with position updates). -/
theorem C5_mutators_preserve (g : Graph) (hg : Mutator3 g)
    (x y : Int) (label? : Option String) (nid : String)
    (src tgt : String) (w : Int) (eid : String)
    (hsrc : src ∈ nodeIds g) (htgt : tgt ∈ nodeIds g)
    (rid reid uid : String) (upd : NodeUpdate) (hupd : upd.id? = none) :
    Mutator3 (addNode g x y label? nid) ∧
    Mutator3 (addEdge g src tgt w eid) ∧
    Mutator3 (removeNode g rid) ∧
    Mutator3 (removeEdge g reid) ∧
    Mutator3 (updateNode g uid upd) := by
  obtain ⟨href, hself, hdup⟩ := hg
  refine ⟨⟨?_, ?_, ?_⟩, ?_, ⟨?_, ?_, ?_⟩, ⟨?_, ?_, ?_⟩, ⟨?_, ?_, ?_⟩⟩
  · intro e he
    have he' : e ∈ g.edges := he
    have := href e he'
    rw [nodeIds_addNode]
    exact ⟨List.mem_append_left _ this.1, List.mem_append_left _ this.2⟩
  · intro e he; exact hself e he
  · exact hdup
  · rcases addEdge_cases g src tgt w eid with h | ⟨hne, hnodup, h⟩
    · rw [h]; exact ⟨href, hself, hdup⟩
    · rw [h]
      refine ⟨?_, ?_, ?_⟩
      · intro e he
        rcases List.mem_append.mp he with h1 | h1
        · exact href e h1
        · simp only [List.mem_singleton] at h1
          subst h1
          exact ⟨hsrc, htgt⟩
      · intro e he
        rcases List.mem_append.mp he with h1 | h1
        · exact hself e h1
        · simp only [List.mem_singleton] at h1
          subst h1
          exact hne
      · unfold NoDupEdges
        rw [List.pairwise_append]
        refine ⟨hdup, List.pairwise_singleton _ _, ?_⟩
        intro e he e' he'
        simp only [List.mem_singleton] at he'
        subst he'
        intro hsame
        exact hnodup e he (by simpa [sameEndpoints] using hsame)
  · intro e he
    simp only [removeNode, List.mem_filter, Bool.and_eq_true, bne_iff_ne, ne_eq,
      decide_eq_true_eq] at he
    obtain ⟨he', hs, ht⟩ := he
    have := href e he'
    exact ⟨mem_nodeIds_removeNode.mpr ⟨this.1, hs⟩, mem_nodeIds_removeNode.mpr ⟨this.2, ht⟩⟩
  · intro e he
    have : e ∈ g.edges := List.mem_of_mem_filter he
    exact hself e this
  · exact List.Pairwise.sublist (List.filter_sublist _) hdup
  · intro e he
    have : e ∈ g.edges := List.mem_of_mem_filter he
    exact href e this
  · intro e he
    have : e ∈ g.edges := List.mem_of_mem_filter he
    exact hself e this
  · exact List.Pairwise.sublist (List.filter_sublist _) hdup
  · intro e he
    have := href e he
    rw [nodeIds_updateNode hupd]
    exact this
  · exact hself
  · exact hdup

/-- Witness for C5's amended theorem at a concrete graph and arguments. -/
theorem C5_mutators_preserve_witness :
    Mutator3 (addNode createSampleGraph 5 5 none "n9") ∧
    Mutator3 (addEdge createSampleGraph "n1" "n6" 7 "e9") ∧
    Mutator3 (removeNode createSampleGraph "n1") ∧
    Mutator3 (removeEdge createSampleGraph "e1") ∧
    Mutator3 (updateNode createSampleGraph "n1" { x? := some 9 }) := by
  exact C5_mutators_preserve createSampleGraph (by decide) 5 5 none "n9" "n1" "n6" 7 "e9"
    (by decide) (by decide) "n1" "e1" "n1" { x? := some 9 } rfl

/-! ## Claim C7: BFS on a single node -/

/-- C7: false as stated — BFS emits a `visit` step for the start node before
the loop and a second one when it is dequeued, so the single-node run has two
`visit` steps (plus one `complete`), not one. -/
theorem C7_counterexample :
    (bfs oneNodeGraph "a" none).map
      (fun r => ((r.steps.filter (fun s => s.type == StepType.visit)).length,
                 (r.steps.filter (fun s => s.type == StepType.complete)).length,
                 r.steps.length)) = some (2, 1, 3) := by
  decide

/-- C7 (amended): for every single-node, edge-free graph, BFS from that node
with no end node returns exactly three steps — two `visit` steps (the start
announcement and the dequeue) and one final `complete` — and no path. -/
theorem C7_amended (n : Node) (dflag wflag : Bool) :
    (bfs { nodes := [n], edges := [], isDirected := dflag, isWeighted := wflag } n.id none).map
      (fun r => (r.steps.map AlgorithmStep.type, r.shortestPath)) =
    some ([StepType.visit, StepType.visit, StepType.complete], none) := by
  simp [bfs, bfsFuel, bfsLoop, bfsExplore, getNeighbors, getNodeById, sadd, shas,
    mset, mfind?, isEndHit, optLabel]

/-! ## Claim C8: empty graph -/

/-- C8: false as stated — on the empty graph no validation error is raised:
`bfs` (like `dfs`, `dijkstra` and `bellman-ford`) returns normally with a
`complete` step, and `astar` dies with an unrelated `TypeError` from
dereferencing the failed start-node lookup. -/
theorem C8_counterexample :
    completesNormally (runAlgorithm "bfs" createEmptyGraph "x" none (fun _ => 0)) = true ∧
    completesNormally (runAlgorithm "dfs" createEmptyGraph "x" none (fun _ => 0)) = true ∧
    completesNormally (runAlgorithm "dijkstra" createEmptyGraph "x" none (fun _ => 0)) = true ∧
    completesNormally (runAlgorithm "bellman-ford" createEmptyGraph "x" none (fun _ => 0)) = true ∧
    failsWithTypeError (runAlgorithm "astar" createEmptyGraph "x" (some "y") (fun _ => 0)) = true := by
  decide

/-- C8 (amended): on the empty graph, for every start id, `bfs`, `dfs`,
`dijkstra` and `bellman-ford` complete normally (final `complete` step, no
validation error), while `astar` alone fails — with a `TypeError` when a
non-empty end id is supplied, and with the thrown "A* requires an end node"
validation error when none is. -/
theorem C8_amended (startId endId : String) (hfun : String → Int) :
    completesNormally (runAlgorithm "bfs" createEmptyGraph startId none hfun) = true ∧
    completesNormally (runAlgorithm "dfs" createEmptyGraph startId none hfun) = true ∧
    completesNormally (runAlgorithm "dijkstra" createEmptyGraph startId none hfun) = true ∧
    completesNormally (runAlgorithm "bellman-ford" createEmptyGraph startId none hfun) = true ∧
    failsWithTypeError (runAlgorithm "astar" createEmptyGraph startId (some endId) hfun) =
      (endId != "") ∧
    failsThrown (runAlgorithm "astar" createEmptyGraph startId none hfun)
      "A* requires an end node" = true := by
  refine ⟨?_, ?_, ?_, ?_, ?_, ?_⟩
  · simp [runAlgorithm, bfs, bfsFuel, bfsLoop, bfsExplore, createEmptyGraph, getNeighbors,
      getNodeById, sadd, shas, mset, mfind?, isEndHit, optLabel, completesNormally]
  · simp [runAlgorithm, dfs, dfsFuel, dfsRec, dfsNeighbors, createEmptyGraph, getNeighbors,
      getNodeById, sadd, shas, sdel, mset, mfind?, isEndHit, optLabel, strTruthy,
      completesNormally]
  · simp [runAlgorithm, dijkstra, dijFuel, dijkstraLoop, dijkstraExplore, dijkstraFinish,
      createEmptyGraph, getNeighbors, getNodeById, sadd, shas, mset, mfind?, isEndHit,
      optLabel, strTruthy, ssort, sinsert, pqLe, jInf, completesNormally]
  · simp [runAlgorithm, bellmanFord, bfIterate, bfPass, bfFindRelaxable, createEmptyGraph,
      getNodeById, mset, mfind?, strTruthy, optLabel, completesNormally]
  · by_cases h : endId = "" <;>
      simp [runAlgorithm, aStar, createEmptyGraph, getNodeById, strTruthy, h,
        failsWithTypeError, failsThrown]
  · simp [runAlgorithm, strTruthy, failsThrown]

/-! ## Claim C2 counterexample -/

/-- C2: false as stated for runs with an `endId` — Dijkstra returns as soon as
the end node is dequeued, leaving the reachable node `x` beyond it at
`Infinity` in the returned distance map, while Bellman-Ford still records 2
for it.  All hypotheses of the claim hold for this graph. -/
theorem C2_counterexample :
    WellFormed lineGraph ∧
    lineGraph.edges.all (fun e => decide (0 ≤ e.weight)) = true ∧
    "s" ∈ nodeIds lineGraph ∧
    Reachable lineGraph "s" "x" ∧
    (dijkstra lineGraph "s" (some "e")).map
      (fun r => r.distances.map (fun d => mfind? d "x")) = some (some (some jInf)) ∧
    (bellmanFord lineGraph "s" (some "e")).map
      (fun r => r.distances.map (fun d => mfind? d "x")) = some (some (some (some 2))) := by
  refine ⟨by decide, by decide, by decide, ?_, by decide, by decide⟩
  refine ⟨2, 2, ?_⟩
  have h1 : wadjOn lineGraph "s" "e" 1 := by
    refine ⟨{ id := "e1", source := "s", target := "e", weight := 1 }, by decide, ?_, rfl⟩
    exact Or.inl ⟨rfl, rfl⟩
  have h2 : wadjOn lineGraph "e" "x" 1 := by
    refine ⟨{ id := "e2", source := "e", target := "x", weight := 1 }, by decide, ?_, rfl⟩
    exact Or.inl ⟨rfl, rfl⟩
  exact CWalk.cons h1 (CWalk.cons h2 (CWalk.nil "x"))

/-! ## Claim C3 counterexample -/

/-- C3: false as stated — the graph contains a negative cycle (`a → b → a`,
total weight −2) but it is unreachable from the start node `s`, so every
relaxation guard `fromDist !== Infinity` stays false there and Bellman-Ford
reports `hasNegativeCycle = false`. -/
theorem C3_counterexample :
    WellFormed negPairGraph ∧
    "s" ∈ nodeIds negPairGraph ∧
    NegCycleAnywhere negPairGraph ∧
    (bellmanFord negPairGraph "s" none).map (fun r => r.hasNegativeCycle) =
      some (some false) := by
  refine ⟨by decide, by decide, ?_, by decide⟩
  refine ⟨"a", -2, 2, ?_, by decide, by decide⟩
  have h1 : wadjOn negPairGraph "a" "b" (-1) := by
    refine ⟨{ id := "e1", source := "a", target := "b", weight := -1 }, by decide, ?_, rfl⟩
    exact Or.inl ⟨rfl, rfl⟩
  have h2 : wadjOn negPairGraph "b" "a" (-1) := by
    refine ⟨{ id := "e2", source := "b", target := "a", weight := -1 }, by decide, ?_, rfl⟩
    exact Or.inl ⟨rfl, rfl⟩
  have : CWalk negPairGraph "a" "a" (-1 + (-1 + 0)) (1 + 1) :=
    CWalk.cons h1 (CWalk.cons h2 (CWalk.nil "a"))
  simpa using this

/-! ## Basic lemmas: JavaScript maps -/

theorem mfind?_nil {α : Type} (k : String) : mfind? ([] : List (String × α)) k = none := rfl

theorem mfind?_cons {α : Type} (p : String × α) (m : List (String × α)) (k : String) :
    mfind? (p :: m) k = if p.1 = k then some p.2 else mfind? m k := by
  by_cases h : p.1 = k <;> simp [mfind?, List.find?_cons, h]

theorem mfind?_append_left {α : Type} {m m' : List (String × α)} {k : String} {v : α}
    (h : mfind? m k = some v) : mfind? (m ++ m') k = some v := by
  induction m with
  | nil => simp [mfind?_nil] at h
  | cons p m ih =>
    rw [mfind?_cons] at h
    rw [List.cons_append, mfind?_cons]
    split at h
    · simpa [*] using h
    · simpa [*] using ih h

theorem mfind?_append_right {α : Type} {m : List (String × α)} {k : String}
    (h : mfind? m k = none) (m' : List (String × α)) :
    mfind? (m ++ m') k = mfind? m' k := by
  induction m with
  | nil => rfl
  | cons p m ih =>
    rw [mfind?_cons] at h
    rw [List.cons_append, mfind?_cons]
    split at h
    · exact absurd h (by simp)
    · simpa [*] using ih h

theorem mhas_eq_find?_isSome {α : Type} (m : List (String × α)) (k : String) :
    mhas m k = (m.find? (fun p => p.1 == k)).isSome := by
  unfold mhas mfind?
  cases m.find? (fun p => p.1 == k) <;> rfl

theorem mfind?_mapOverwrite {α : Type} (m : List (String × α)) (k x : String) (v : α) :
    mfind? (m.map (fun p => if p.1 == k then (k, v) else p)) x =
      if x = k then (if mhas m k then some v else none) else mfind? m x := by
  induction m with
  | nil => by_cases hx : x = k <;> simp [mfind?_nil, mhas, hx]
  | cons p m ih =>
    rw [List.map_cons]
    by_cases hp : p.1 = k
    · have hhead : (if (p.1 == k) = true then (k, v) else p) = (k, v) := by simp [hp]
      rw [hhead, mfind?_cons]
      by_cases hx : x = k
      · subst hx
        simp [mhas, mfind?_cons, hp]
      · have : ¬ ((k : String) = x) := fun h => hx h.symm
        simp only [this, if_false, if_neg hx]
        rw [ih]
        simp only [if_neg hx]
        rw [mfind?_cons]
        simp [hp, this]
    · have hhead : (if (p.1 == k) = true then (k, v) else p) = p := by simp [hp]
      have hmh : mhas (p :: m) k = mhas m k := by simp [mhas, mfind?_cons, hp]
      rw [hhead, hmh, mfind?_cons]
      by_cases hpx : p.1 = x
      · have hxk : ¬ x = k := fun h => hp (h ▸ hpx)
        rw [if_pos hpx, if_neg hxk, mfind?_cons, if_pos hpx]
      · rw [if_neg hpx, ih]
        by_cases hx : x = k
        · simp [hx]
        · simp [hx, mfind?_cons, hpx]

theorem mfind?_mset {α : Type} (m : List (String × α)) (k x : String) (v : α) :
    mfind? (mset m k v) x = if x = k then some v else mfind? m x := by
  unfold mset
  split
  case isTrue hsome =>
    rw [mfind?_mapOverwrite]
    have : mhas m k = true := by rw [mhas_eq_find?_isSome]; exact hsome
    simp [this]
  case isFalse hnone =>
    have hn : mfind? m k = none := by
      unfold mfind?
      rcases h : m.find? (fun q => q.1 == k) with _ | p
      · rw [h]; rfl
      · exact absurd (by simp [h]) hnone
    by_cases hx : x = k
    · subst hx
      rw [mfind?_append_right hn]
      simp [mfind?_cons]
    · simp only [if_neg hx]
      rcases h : mfind? m x with _ | w
      · have hkx : ¬ (k : String) = x := fun h' => hx h'.symm
        rw [mfind?_append_right h, mfind?_cons, if_neg hkx, mfind?_nil]
      · exact mfind?_append_left h

theorem mfind?_mset_self {α : Type} (m : List (String × α)) (k : String) (v : α) :
    mfind? (mset m k v) k = some v := by
  simp [mfind?_mset]

theorem mfind?_mset_ne {α : Type} (m : List (String × α)) {k x : String} (v : α)
    (h : x ≠ k) : mfind? (mset m k v) x = mfind? m x := by
  simp [mfind?_mset, h]

theorem mhas_mset {α : Type} (m : List (String × α)) (k x : String) (v : α) :
    mhas (mset m k v) x = (x == k || mhas m x) := by
  by_cases h : x = k <;> simp [mhas, mfind?_mset, h]

theorem mhas_iff_exists {α : Type} (m : List (String × α)) (k : String) :
    mhas m k = true ↔ ∃ v, mfind? m k = some v := by
  unfold mhas
  cases h : mfind? m k <;> simp

theorem mset_length_ge {α : Type} (m : List (String × α)) (k : String) (v : α) :
    m.length ≤ (mset m k v).length := by
  unfold mset
  split <;> simp

theorem mfind?_isSome_of_key {α : Type} {m : List (String × α)} {k : String} {v : α}
    (h : mfind? m k = some v) : mhas m k = true := by
  simp [mhas, h]

theorem keys_of_mfind? {α : Type} {m : List (String × α)} {k : String} {v : α}
    (h : mfind? m k = some v) : k ∈ m.map Prod.fst := by
  unfold mfind? at h
  rcases hf : m.find? (fun q => q.1 == k) with _ | p
  · rw [hf] at h; simp at h
  · have hp := List.find?_some hf
    have hm := List.mem_of_find?_eq_some hf
    have : p.1 = k := by simpa using hp
    exact this ▸ List.mem_map_of_mem Prod.fst hm

/-! ## Basic lemmas: JavaScript sets -/

theorem shas_iff_mem {s : JSet} {x : String} : shas s x = true ↔ x ∈ s := by
  simp [shas, List.elem_iff]

theorem mem_sadd {s : JSet} {x y : String} : y ∈ sadd s x ↔ y ∈ s ∨ y = x := by
  unfold sadd
  split
  case isTrue h =>
    have := List.elem_iff.mp h
    constructor
    · exact Or.inl
    · rintro (h' | rfl)
      · exact h'
      · exact this
  case isFalse h => simp

theorem sadd_subset {s : JSet} {x : String} : s ⊆ sadd s x := by
  intro y hy; exact mem_sadd.mpr (Or.inl hy)

theorem mem_sadd_self {s : JSet} {x : String} : x ∈ sadd s x :=
  mem_sadd.mpr (Or.inr rfl)

/-! ## Basic lemmas: JNum arithmetic -/

theorem jle_refl (a : JNum) : jle a a = true := by
  cases a <;> simp [jle]

theorem jle_trans {a b c : JNum} (h1 : jle a b = true) (h2 : jle b c = true) :
    jle a c = true := by
  cases a <;> cases b <;> cases c <;> simp_all [jle] <;> omega

theorem jle_total (a b : JNum) : jle a b = true ∨ jle b a = true := by
  cases a <;> cases b <;> simp [jle] <;> omega

theorem jlt_iff_not_jle {a b : JNum} : jlt a b = true ↔ ¬ jle b a = true := by
  cases a <;> cases b <;> simp [jlt, jle] <;> omega

theorem jle_antisymm {a b : JNum} (h1 : jle a b = true) (h2 : jle b a = true) : a = b := by
  cases a <;> cases b <;> simp_all [jle] <;> omega

theorem jle_of_jlt {a b : JNum} (h : jlt a b = true) : jle a b = true := by
  cases a <;> cases b <;> simp_all [jlt, jle] <;> omega

theorem jadd_mono {a b : JNum} (w : Int) (h : jle a b = true) :
    jle (jadd a w) (jadd b w) = true := by
  cases a <;> cases b <;> simp_all [jle, jadd] <;> omega

theorem jle_inf (a : JNum) : jle a jInf = true := by
  cases a <;> simp [jle, jInf]

theorem jadd_inf (w : Int) : jadd jInf w = jInf := rfl

theorem jadd_some (a w : Int) : jadd (some a) w = some (a + w) := rfl

/-! ## Basic lemmas: the stable sort -/

theorem sinsert_perm {α : Type} (le : α → α → Bool) (x : α) (l : List α) :
    (sinsert le x l).Perm (x :: l) := by
  induction l with
  | nil => exact List.Perm.refl _
  | cons y ys ih =>
    unfold sinsert
    split
    · exact List.Perm.refl _
    · exact (List.Perm.cons y ih).trans (List.Perm.swap x y ys)

theorem ssort_perm {α : Type} (le : α → α → Bool) (l : List α) :
    (ssort le l).Perm l := by
  induction l with
  | nil => exact List.Perm.refl _
  | cons x xs ih =>
    exact (sinsert_perm le x (ssort le xs)).trans (List.Perm.cons x ih)

theorem mem_ssort {α : Type} {le : α → α → Bool} {l : List α} {x : α} :
    x ∈ ssort le l ↔ x ∈ l :=
  (ssort_perm le l).mem_iff

theorem sinsert_sorted {α : Type} {le : α → α → Bool}
    (htrans : ∀ a b c, le a b = true → le b c = true → le a c = true)
    (htot : ∀ a b, le a b = true ∨ le b a = true)
    {l : List α} (hl : l.Pairwise (fun a b => le a b = true)) (x : α) :
    (sinsert le x l).Pairwise (fun a b => le a b = true) := by
  induction l with
  | nil => simp [sinsert]
  | cons y ys ih =>
    rw [List.pairwise_cons] at hl
    unfold sinsert
    split
    case isTrue h =>
      rw [List.pairwise_cons]
      refine ⟨?_, List.pairwise_cons.mpr hl⟩
      intro b hb
      rcases List.mem_cons.mp hb with rfl | hb
      · exact h
      · exact htrans x y b h (hl.1 b hb)
    case isFalse h =>
      rw [List.pairwise_cons]
      constructor
      · intro b hb
        rcases List.mem_cons.mp ((sinsert_perm le x ys).mem_iff.mp hb) with hbx | hb
        · rcases htot x y with h' | h'
          · exact absurd h' h
          · exact hbx ▸ h'
        · exact hl.1 b hb
      · exact ih hl.2

theorem ssort_sorted {α : Type} {le : α → α → Bool}
    (htrans : ∀ a b c, le a b = true → le b c = true → le a c = true)
    (htot : ∀ a b, le a b = true ∨ le b a = true) (l : List α) :
    (ssort le l).Pairwise (fun a b => le a b = true) := by
  induction l with
  | nil => simp [ssort]
  | cons x xs ih => exact sinsert_sorted htrans htot ih x

theorem ssort_head_min {α : Type} {le : α → α → Bool}
    (htrans : ∀ a b c, le a b = true → le b c = true → le a c = true)
    (htot : ∀ a b, le a b = true ∨ le b a = true) {l : List α} {h : α} {t : List α}
    (heq : ssort le l = h :: t) : ∀ x ∈ l, le h x = true := by
  intro x hx
  have hperm := ssort_perm le l
  have hmem : x ∈ ssort le l := hperm.mem_iff.mpr hx
  rw [heq] at hmem
  rcases List.mem_cons.mp hmem with rfl | hmem
  · rcases htot x x with h' | h' <;> exact h'
  · have := ssort_sorted htrans htot l
    rw [heq, List.pairwise_cons] at this
    exact this.1 x hmem

/-! ## Parent chains and reconstructPath -/

theorem pchain_getLast {p : PMap} {s v : String} {l : List String}
    (h : PChain p s v l) : l.getLast? = some v := by
  induction h with
  | root _ => rfl
  | step _ _ _ _ _ => simp [List.getLast?_append]

theorem pchain_ne_nil {p : PMap} {s v : String} {l : List String}
    (h : PChain p s v l) : l ≠ [] := by
  induction h with
  | root _ => simp
  | step _ _ _ _ _ => simp

theorem pchain_head {p : PMap} {s v : String} {l : List String}
    (h : PChain p s v l) : l.head? = some s := by
  induction h with
  | root _ => rfl
  | step _ _ _ hc ih =>
    obtain ⟨a, t, h'⟩ := List.exists_cons_of_ne_nil (pchain_ne_nil hc)
    subst h'
    simpa using ih

theorem pchain_unique {p : PMap} {s v : String} {l1 : List String}
    (h1 : PChain p s v l1) : ∀ {l2}, PChain p s v l2 → l1 = l2 := by
  induction h1 with
  | root hs =>
    intro l2 h2
    cases h2 with
    | root _ => rfl
    | step _ hne _ _ => exact absurd rfl hne
  | step hf hne hu hc ih =>
    intro l2 h2
    cases h2 with
    | root _ => exact absurd rfl hne
    | step hf2 hne2 hu2 hc2 =>
      have heq := hf.symm.trans hf2
      have hueq := Option.some.inj (Option.some.inj heq)
      rw [ih (hueq ▸ hc2)]

theorem pchain_keys {p : PMap} {s v : String} {l : List String}
    (h : PChain p s v l) : ∀ x ∈ l, mhas p x = true := by
  induction h with
  | root hs => intro x hx; simp at hx; subst hx; simp [mhas, hs]
  | step hf _ _ _ ih =>
    intro x hx
    rcases List.mem_append.mp hx with hx | hx
    · exact ih x hx
    · simp at hx; subst hx; simp [mhas, hf]

theorem pchain_sub {p : PMap} {s v : String} {l : List String}
    (h : PChain p s v l) : ∀ x ∈ l, ∃ lx, PChain p s x lx ∧ lx.length ≤ l.length := by
  induction h with
  | root hs =>
    intro x hx
    have hx' : s = x := Eq.symm (by simpa using hx)
    subst hx'
    exact ⟨[s], PChain.root hs, le_refl _⟩
  | step hf hne hu hc ih =>
    intro x hx
    rcases List.mem_append.mp hx with hx | hx
    · obtain ⟨lx, hlx, hlen⟩ := ih x hx
      exact ⟨lx, hlx, by simpa using Nat.le_succ_of_le hlen⟩
    · simp at hx; subst hx
      exact ⟨_, PChain.step hf hne hu hc, le_refl _⟩

theorem pchain_nodup {p : PMap} {s v : String} {l : List String}
    (h : PChain p s v l) : l.Nodup := by
  induction h with
  | root _ => simp
  | step hf hne hu hc ih =>
    rename_i v' u l'
    rw [List.nodup_append]
    refine ⟨ih, by simp, ?_⟩
    intro x hx hx'
    simp at hx'
    subst hx'
    obtain ⟨lx, hlx, hlen⟩ := pchain_sub hc x hx
    have := pchain_unique hlx (PChain.step hf hne hu hc)
    rw [this] at hlen
    simp at hlen

theorem pchain_length_le {p : PMap} {s v : String} {l : List String}
    (h : PChain p s v l) : l.length ≤ p.length + 1 := by
  have hsub : l ⊆ p.map Prod.fst := by
    intro x hx
    have := pchain_keys h x hx
    rw [mhas_iff_exists] at this
    obtain ⟨w, hw⟩ := this
    exact keys_of_mfind? hw
  have := List.Subperm.length_le (List.subperm_of_subset (pchain_nodup h) hsub)
  simpa using Nat.le_succ_of_le this

theorem reconstructPathGo_succ (p : PMap) (f : Nat) (acc : List String) (current : String) :
    reconstructPathGo p (f + 1) acc current =
      match jsGetParent p current with
      | none => some (current :: acc)
      | some q => reconstructPathGo p f (current :: acc) q := rfl

theorem reconstructPathGo_eq {p : PMap} {s v : String} {l : List String}
    (hc : PChain p s v l) :
    ∀ fuel acc, l.length ≤ fuel → reconstructPathGo p fuel acc v = some (l ++ acc) := by
  induction hc with
  | root hs =>
    intro fuel acc hlen
    cases fuel with
    | zero => simp at hlen
    | succ f =>
      rw [reconstructPathGo_succ]
      simp [jsGetParent, hs]
  | step hf hne hu hc ih =>
    intro fuel acc hlen
    rename_i v' u l'
    cases fuel with
    | zero => simp at hlen
    | succ f =>
      have hj : jsGetParent p v' = some u := by simp [jsGetParent, hf, hu]
      have hf' : l'.length ≤ f := by simp at hlen; omega
      have harr : (l' ++ [v']) ++ acc = l' ++ (v' :: acc) := by simp
      rw [reconstructPathGo_succ, hj, harr]
      exact ih f (v' :: acc) hf'

theorem reconstructPath_eq {p : PMap} {s v : String} {l : List String}
    (hc : PChain p s v l) : reconstructPath p v = some l := by
  unfold reconstructPath
  rw [reconstructPathGo_eq hc (p.length + 1) [] (pchain_length_le hc)]
  simp

theorem depthOf_eq {p : PMap} {s v : String} {l : List String}
    (hc : PChain p s v l) : depthOf p v = l.length - 1 := by
  unfold depthOf
  rw [reconstructPath_eq hc]
  rfl

theorem reconstructPath_absent {p : PMap} {v : String}
    (h : mfind? p v = none) : reconstructPath p v = some [v] := by
  unfold reconstructPath reconstructPathGo
  simp [jsGetParent, h]

/-! ## Walk utilities -/

theorem cwalk_snoc {g : Graph} {s u v : String} {c w : Int} {k : Nat}
    (hw : CWalk g s u c k) (ha : wadjOn g u v w) : CWalk g s v (c + w) (k + 1) := by
  induction hw with
  | nil x => simpa using CWalk.cons ha (CWalk.nil v)
  | cons ha' hw' ih =>
    rename_i u' v' t' w' c' k'
    have := CWalk.cons ha' (ih ha)
    have harr : w' + (c' + w) = w' + c' + w := by ring
    rw [harr] at this
    simpa using this

theorem cwalk_append {g : Graph} {s u v : String} {c1 c2 : Int} {k1 k2 : Nat}
    (h1 : CWalk g s u c1 k1) (h2 : CWalk g u v c2 k2) :
    CWalk g s v (c1 + c2) (k1 + k2) := by
  induction h1 with
  | nil x => simpa using h2
  | cons ha hw ih =>
    rename_i u' v' t' w' c' k'
    have := CWalk.cons ha (ih h2)
    have harr : w' + (c' + c2) = w' + c' + c2 := by ring
    rw [harr] at this
    have harr2 : k' + 1 + k2 = k' + k2 + 1 := by omega
    rw [harr2]
    exact this

theorem cwalk_cost_nonneg {g : Graph} (hn : NonnegW g) {s v : String} {c : Int} {k : Nat}
    (h : CWalk g s v c k) : 0 ≤ c := by
  induction h with
  | nil _ => exact le_refl 0
  | cons ha hw ih =>
    obtain ⟨e, he, _, hw'⟩ := ha
    have := hn e he
    omega

theorem wadjOn_target_mem {g : Graph} (href : EdgesRefNodes g) {u v : String} {w : Int}
    (h : wadjOn g u v w) : v ∈ nodeIds g := by
  obtain ⟨e, he, hcase, _⟩ := h
  rcases hcase with ⟨_, ht⟩ | ⟨_, hs, _⟩
  · exact ht ▸ (href e he).2
  · exact hs ▸ (href e he).1

theorem wadjOn_source_mem {g : Graph} (href : EdgesRefNodes g) {u v : String} {w : Int}
    (h : wadjOn g u v w) : u ∈ nodeIds g := by
  obtain ⟨e, he, hcase, _⟩ := h
  rcases hcase with ⟨hs, _⟩ | ⟨_, _, ht⟩
  · exact hs ▸ (href e he).1
  · exact ht ▸ (href e he).2

theorem cwalk_end_mem {g : Graph} (href : EdgesRefNodes g) {s v : String} {c : Int} {k : Nat}
    (h : CWalk g s v c k) : v = s ∨ v ∈ nodeIds g := by
  induction h with
  | nil _ => exact Or.inl rfl
  | cons ha hw ih =>
    rcases ih with rfl | hv
    · exact Or.inr (wadjOn_target_mem href ha)
    · exact Or.inr hv

/-! ## getNodeById and getNeighbors bridge -/

theorem getNodeById_of_mem {g : Graph} {v : String} (h : v ∈ nodeIds g) :
    ∃ n, getNodeById g v = some n ∧ n.id = v ∧ n ∈ g.nodes := by
  unfold getNodeById
  rcases hf : g.nodes.find? (fun n => n.id == v) with _ | n
  · exfalso
    obtain ⟨n, hn, hid⟩ := List.mem_map.mp h
    have := List.find?_eq_none.mp hf n hn
    simp [hid] at this
  · have hp := List.find?_some hf
    have hm := List.mem_of_find?_eq_some hf
    exact ⟨n, hf, by simpa using hp, hm⟩

theorem getNodeById_sound {g : Graph} {v : String} {n : Node}
    (h : getNodeById g v = some n) : n.id = v ∧ n ∈ g.nodes := by
  unfold getNodeById at h
  have hp := List.find?_some h
  have hm := List.mem_of_find?_eq_some h
  exact ⟨by simpa using hp, hm⟩

theorem getNeighbors_sound {g : Graph} {u : String} {node : Node} {e : Edge} {w : Int}
    (h : (node, e, w) ∈ getNeighbors g u) :
    wadjOn g u node.id w ∧ getNodeById g node.id = some node ∧ node.id ≠ "" ∧
    e ∈ g.edges := by
  unfold getNeighbors at h
  obtain ⟨e', he', hentry⟩ := List.mem_filterMap.mp h
  replace hentry :
      (match (if e'.source == u then some e'.target
              else if !g.isDirected && e'.target == u then some e'.source
              else none) with
        | none => none
        | some nid =>
          if nid == "" then none
          else match getNodeById g nid with
            | some nd => some (nd, e', e'.weight)
            | none => none) = some (node, e, w) := hentry
  by_cases hsrc : (e'.source == u) = true
  · rw [if_pos hsrc] at hentry
    replace hentry :
        (if e'.target == "" then none
         else match getNodeById g e'.target with
           | some nd => some (nd, e', e'.weight)
           | none => none) = some (node, e, w) := hentry
    by_cases htgt : (e'.target == "") = true
    · rw [if_pos htgt] at hentry; exact absurd hentry (by simp)
    · rw [if_neg htgt] at hentry
      rcases hg : getNodeById g e'.target with _ | nd
      · rw [hg] at hentry; exact absurd hentry (by simp)
      · rw [hg] at hentry
        replace hentry : some (nd, e', e'.weight) = some (node, e, w) := hentry
        obtain ⟨hnd, he2, hw2⟩ : nd = node ∧ e' = e ∧ e'.weight = w := by
          simpa [Prod.ext_iff] using hentry
        have hid : node.id = e'.target := by rw [← hnd]; exact (getNodeById_sound hg).1
        refine ⟨⟨e', he', Or.inl ⟨by simpa using hsrc, hid.symm⟩, hw2⟩, ?_, ?_, he2 ▸ he'⟩
        · rw [hid, hg, hnd]
        · rw [hid]; simpa using htgt
  · rw [if_neg hsrc] at hentry
    by_cases hdir : (!g.isDirected && e'.target == u) = true
    · rw [if_pos hdir] at hentry
      replace hentry :
          (if e'.source == "" then none
           else match getNodeById g e'.source with
             | some nd => some (nd, e', e'.weight)
             | none => none) = some (node, e, w) := hentry
      by_cases hsrc0 : (e'.source == "") = true
      · rw [if_pos hsrc0] at hentry; exact absurd hentry (by simp)
      · rw [if_neg hsrc0] at hentry
        rcases hg : getNodeById g e'.source with _ | nd
        · rw [hg] at hentry; exact absurd hentry (by simp)
        · rw [hg] at hentry
          replace hentry : some (nd, e', e'.weight) = some (node, e, w) := hentry
          obtain ⟨hnd, he2, hw2⟩ : nd = node ∧ e' = e ∧ e'.weight = w := by
            simpa [Prod.ext_iff] using hentry
          have hid : node.id = e'.source := by rw [← hnd]; exact (getNodeById_sound hg).1
          simp only [Bool.and_eq_true, Bool.not_eq_true', beq_iff_eq] at hdir
          refine ⟨⟨e', he', Or.inr ⟨hdir.1, hid.symm, hdir.2⟩, hw2⟩, ?_, ?_, he2 ▸ he'⟩
          · rw [hid, hg, hnd]
          · rw [hid]; simpa using hsrc0
    · rw [if_neg hdir] at hentry
      exact absurd hentry (by simp)

theorem getNeighbors_complete {g : Graph} (hwf : WellFormed g) {u v : String} {w : Int}
    (h : wadjOn g u v w) :
    ∃ node e, (node, e, w) ∈ getNeighbors g u ∧ node.id = v := by
  obtain ⟨⟨href, hself, _⟩, _, hne⟩ := hwf
  obtain ⟨e, he, hcase, hw⟩ := h
  have hvmem : v ∈ nodeIds g := wadjOn_target_mem href ⟨e, he, hcase, hw⟩
  obtain ⟨node, hnode, hid, hmem⟩ := getNodeById_of_mem hvmem
  have hvne : v ≠ "" := by
    obtain ⟨n, hn, hid'⟩ := List.mem_map.mp hvmem
    exact hid' ▸ hne n hn
  refine ⟨node, e, ?_, hid⟩
  unfold getNeighbors
  apply List.mem_filterMap.mpr
  refine ⟨e, he, ?_⟩
  unfold neighborEntry
  rcases hcase with ⟨hs, ht⟩ | ⟨hd, hs, ht⟩
  · rw [if_pos (by simp [hs]), ht]
    show (if (v == "") = true then none
          else match getNodeById g v with
            | some nd => some (nd, e, e.weight)
            | none => none) = some (node, e, w)
    rw [if_neg (by simpa using hvne), hnode, hw]
  · have hsu : ¬ (e.source == u) = true := by
      simp only [beq_iff_eq, hs]
      intro hvu
      exact hself e he (by rw [hs, ht, hvu])
    rw [if_neg hsu, if_pos (by simp [hd, ht]), hs]
    show (if (v == "") = true then none
          else match getNodeById g v with
            | some nd => some (nd, e, e.weight)
            | none => none) = some (node, e, w)
    rw [if_neg (by simpa using hvne), hnode, hw]

theorem getNeighbors_length_le (g : Graph) (u : String) :
    (getNeighbors g u).length ≤ g.edges.length :=
  List.length_filterMap_le _ _

/-! ## Walk inversion lemmas -/

theorem cwalk_zero {g : Graph} {s v : String} {c : Int} (h : CWalk g s v c 0) :
    v = s ∧ c = 0 := by
  cases h with
  | nil => exact ⟨rfl, rfl⟩

theorem cwalk_snoc_inv {g : Graph} {s v : String} {c : Int} {k : Nat}
    (h : CWalk g s v c (k + 1)) :
    ∃ y w c', CWalk g s y c' k ∧ wadjOn g y v w ∧ c = c' + w := by
  induction k generalizing s c with
  | zero =>
    cases h with
    | cons ha hw =>
      rename_i m w c'
      obtain ⟨hv, hc⟩ := cwalk_zero hw
      subst hv
      subst hc
      exact ⟨s, w, 0, CWalk.nil s, ha, by ring⟩
  | succ k ih =>
    cases h with
    | cons ha hw =>
      rename_i m w c'
      obtain ⟨y, w'', c'', hw'', ha'', hc⟩ := ih hw
      exact ⟨y, w'', w + c'', CWalk.cons ha hw'', ha'', by rw [hc]; ring⟩

/-! ## Parent-map extension and chains as graph paths -/

theorem pchain_extend {p : PMap} {s x k : String} {l : List String} (v : Option String)
    (hc : PChain p s x l) (hk : mhas p k = false) :
    PChain (mset p k v) s x l := by
  induction hc with
  | root hs =>
    refine PChain.root ?_
    have hne : s ≠ k := by
      intro h
      rw [h] at hs
      simp [mhas, hs] at hk
    rw [mfind?_mset, if_neg hne]
    exact hs
  | step hf hne hu hc ih =>
    rename_i v' u l'
    refine PChain.step ?_ hne hu ih
    have hvk : v' ≠ k := by
      intro h
      rw [h] at hf
      simp [mhas, hf] at hk
    rw [mfind?_mset, if_neg hvk]
    exact hf

theorem depthOf_extend {p : PMap} {s x k : String} {l : List String} {v : Option String}
    (hc : PChain p s x l) (hk : mhas p k = false) :
    depthOf (mset p k v) x = depthOf p x := by
  rw [depthOf_eq hc, depthOf_eq (pchain_extend v hc hk)]

theorem pchain_isPathList {g : Graph} {p : PMap} {s v : String} {l : List String}
    (hedges : ∀ v' u, mfind? p v' = some (some u) → adjOn g u v')
    (hc : PChain p s v l) : IsPathList g s v l := by
  refine ⟨pchain_head hc, pchain_getLast hc, ?_⟩
  induction hc with
  | root _ => simp
  | step hf hne hu hc ih =>
    rename_i v' u l'
    rw [List.chain'_append]
    refine ⟨ih, by simp, ?_⟩
    intro x hx y hy
    simp only [List.head?_cons, Option.mem_def, Option.some.injEq] at hy
    subst hy
    rw [pchain_getLast hc] at hx
    simp only [Option.mem_def, Option.some.injEq] at hx
    subst hx
    exact hedges v' u hf

theorem chainList_reachN {g : Graph} : ∀ (q : List String) (s e : String),
    q.head? = some s → q.getLast? = some e → List.Chain' (adjOn g) q →
    ReachN g s e (q.length - 1) := by
  intro q
  induction q with
  | nil => intro s e hh _ _; simp at hh
  | cons a t ih =>
    intro s e hh hl hchain
    simp only [List.head?_cons, Option.some.injEq] at hh
    subst hh
    cases t with
    | nil =>
      simp only [List.getLast?_singleton, Option.some.injEq] at hl
      rw [← hl]
      exact ⟨0, CWalk.nil a⟩
    | cons b t' =>
      rw [List.chain'_cons] at hchain
      have hlast : (b :: t').getLast? = some e := by
        simpa [List.getLast?_cons_cons] using hl
      obtain ⟨c', hcw⟩ := ih b e rfl hlast hchain.2
      obtain ⟨w, hadj⟩ := hchain.1
      exact ⟨w + c', CWalk.cons hadj hcw⟩

theorem isPathList_reachN {g : Graph} {s e : String} {q : List String}
    (h : IsPathList g s e q) : ReachN g s e (q.length - 1) :=
  chainList_reachN q s e h.1 h.2.1 h.2.2

theorem chain'_head_le {l : List String} {f : String → Nat}
    (h : List.Chain' (fun a b => f a ≤ f b) l) {hd : String} (hhd : l.head? = some hd) :
    ∀ x ∈ l, f hd ≤ f x := by
  have htr : IsTrans String (fun a b => f a ≤ f b) := ⟨fun _ _ _ => Nat.le_trans⟩
  have hp : l.Pairwise (fun a b => f a ≤ f b) :=
    (List.chain'_iff_pairwise.mp h)
  intro x hx
  cases l with
  | nil => simp at hx
  | cons a t =>
    simp only [List.head?_cons, Option.some.injEq] at hhd
    subst hhd
    rcases List.mem_cons.mp hx with rfl | hx
    · exact le_refl _
    · exact (List.pairwise_cons.mp hp).1 x hx

theorem sadd_of_not_mem {s : JSet} {x : String} (h : x ∉ s) : sadd s x = s ++ [x] := by
  unfold sadd
  rw [if_neg (fun hc => h (List.elem_iff.mp hc))]

/-! ## BFS: depth optimality and exhaustion arguments -/

theorem bfs_depth_min {g : Graph} {s : String} {p : PMap} {vis : JSet} {c : String}
    {rest : List String}
    (hroot : mfind? p s = some none)
    (hcover : ∀ v, mhas p v = true → v ∈ vis ∨ v ∈ c :: rest)
    (hclosed : ∀ u ∈ vis, ∀ v, adjOn g u v →
      mhas p v = true ∧ depthOf p v ≤ depthOf p u + 1)
    (hqlow : ∀ w ∈ c :: rest, depthOf p c ≤ depthOf p w) :
    ∀ k x (cst : Int), CWalk g s x cst k →
      (mhas p x = true ∧ depthOf p x ≤ k) ∨ depthOf p c ≤ k := by
  intro k
  induction k with
  | zero =>
    intro x cst hw
    obtain ⟨rfl, _⟩ := cwalk_zero hw
    left
    refine ⟨by simp [mhas, hroot], ?_⟩
    rw [depthOf_eq (PChain.root hroot)]
    simp
  | succ k ih =>
    intro x cst hw
    obtain ⟨y, w, c', hw', ha, _⟩ := cwalk_snoc_inv hw
    rcases ih y c' hw' with ⟨hky, hdy⟩ | hD
    · rcases hcover y hky with hyv | hyq
      · obtain ⟨hkx, hdx⟩ := hclosed y hyv x ⟨w, ha⟩
        left
        exact ⟨hkx, by omega⟩
      · right
        have := hqlow y hyq
        omega
    · right
      omega

theorem bfs_exhaust {g : Graph} {s : String} {p : PMap} {vis : JSet}
    (hroot : mfind? p s = some none)
    (hcover : ∀ v, mhas p v = true → v ∈ vis)
    (hclosed : ∀ u ∈ vis, ∀ v, adjOn g u v → mhas p v = true) :
    ∀ k x (cst : Int), CWalk g s x cst k → mhas p x = true := by
  intro k
  induction k with
  | zero =>
    intro x cst hw
    obtain ⟨rfl, _⟩ := cwalk_zero hw
    simp [mhas, hroot]
  | succ k ih =>
    intro x cst hw
    obtain ⟨y, w, c', hw', ha, _⟩ := cwalk_snoc_inv hw
    exact hclosed y (hcover y (ih y c' hw')) x ⟨w, ha⟩

/-! ## Counting lemmas for the fuel bounds -/

theorem length_filter_mono {α : Type} {pq pp : α → Bool} (l : List α)
    (himp : ∀ x, pq x = true → pp x = true) :
    (l.filter pq).length ≤ (l.filter pp).length := by
  induction l with
  | nil => simp
  | cons x t ih =>
    by_cases hq : pq x = true
    · rw [List.filter_cons_of_pos hq, List.filter_cons_of_pos (himp x hq)]
      simpa using ih
    · rw [List.filter_cons_of_neg (by simpa using hq)]
      by_cases hp : pp x = true
      · rw [List.filter_cons_of_pos hp]
        exact ih.trans (by simp)
      · rw [List.filter_cons_of_neg (by simpa using hp)]
        exact ih

theorem length_filter_lt {α : Type} {pq pp : α → Bool} {l : List α}
    (himp : ∀ x, pq x = true → pp x = true) {a : α} (ha : a ∈ l)
    (hpa : pp a = true) (hqa : pq a = false) :
    (l.filter pq).length < (l.filter pp).length := by
  induction l with
  | nil => simp at ha
  | cons x t ih =>
    rcases List.mem_cons.mp ha with rfl | hat
    · rw [List.filter_cons_of_neg (by simp [hqa]), List.filter_cons_of_pos hpa]
      exact Nat.lt_succ_of_le (length_filter_mono t himp)
    · by_cases hq : pq x = true
      · rw [List.filter_cons_of_pos hq, List.filter_cons_of_pos (himp x hq)]
        simpa using ih hat
      · rw [List.filter_cons_of_neg (by simpa using hq)]
        by_cases hp : pp x = true
        · rw [List.filter_cons_of_pos hp]
          exact (ih hat).trans (by simp)
        · rw [List.filter_cons_of_neg (by simpa using hp)]
          exact ih hat

theorem undiscovered_mset_fresh {g : Graph} {p : PMap} {a : String} (v : Option String)
    (hfresh : mhas p a = false) {nd : Node} (hnd : nd ∈ g.nodes) (hid : nd.id = a) :
    undiscovered g (mset p a v) + 1 ≤ undiscovered g p := by
  unfold undiscovered
  have hlt : ((g.nodes.filter (fun n => !(mhas (mset p a v) n.id))).length <
      (g.nodes.filter (fun n => !(mhas p n.id))).length) := by
    refine length_filter_lt (fun x hx => ?_) hnd ?_ ?_
    · simp only [Bool.not_eq_true', mhas_mset] at hx ⊢
      rcases Bool.or_eq_false_iff.mp hx with ⟨_, h2⟩
      exact h2
    · simp [hfresh, hid]
    · simp [mhas_mset, hid]
  omega

theorem undiscovered_le_nodes (g : Graph) (p : PMap) :
    undiscovered g p ≤ g.nodes.length := by
  unfold undiscovered
  simpa using List.length_filter_le _ g.nodes

/-! ## The BFS neighbour loop satisfies its contract -/

theorem bfsExplore_cons_skip {c : String} {vis : JSet} {node : Node} {edge : Edge} {w : Int}
    {rest : List (Node × Edge × Int)} {st : BfsSt} (h : shas vis node.id = true) :
    bfsExplore c vis ((node, edge, w) :: rest) st = bfsExplore c vis rest st := by
  simp [bfsExplore, h]

theorem bfsExplore_cons_seen {c : String} {vis : JSet} {node : Node} {edge : Edge} {w : Int}
    {rest : List (Node × Edge × Int)} {st : BfsSt}
    (h1 : shas vis node.id = false) (h2 : mhas st.parents node.id = true) :
    bfsExplore c vis ((node, edge, w) :: rest) st =
      bfsExplore c vis rest { st with steps := st.steps ++
        [{ type := .explore, nodeId := some node.id, edgeId := some edge.id,
           message := "Exploring edge to " ++ node.label,
           visited := some vis, queue := some (st.queue ++ [node.id]) }] } := by
  simp [bfsExplore, h1, h2]

theorem bfsExplore_cons_push {c : String} {vis : JSet} {node : Node} {edge : Edge} {w : Int}
    {rest : List (Node × Edge × Int)} {st : BfsSt}
    (h1 : shas vis node.id = false) (h2 : mhas st.parents node.id = false) :
    bfsExplore c vis ((node, edge, w) :: rest) st =
      bfsExplore c vis rest
        { steps := st.steps ++
            [{ type := .explore, nodeId := some node.id, edgeId := some edge.id,
               message := "Exploring edge to " ++ node.label,
               visited := some vis, queue := some (st.queue ++ [node.id]) }],
          visited := st.visited,
          parents := mset st.parents node.id (some c),
          queue := st.queue ++ [node.id] } := by
  simp [bfsExplore, h1, h2]

theorem bfsExplore_spec (g : Graph) (c : String) (vis : JSet) :
    ∀ (ns : List (Node × Edge × Int)) (st : BfsSt),
    (∀ t ∈ ns, t ∈ getNeighbors g c) →
    ∃ added, BfsExploreOut g c vis st (bfsExplore c vis ns st) added ∧
      ∀ t ∈ ns, shas vis t.1.id = true ∨ mhas (bfsExplore c vis ns st).parents t.1.id = true := by
  intro ns
  induction ns with
  | nil =>
    intro st _
    refine ⟨[], ⟨by simp [bfsExplore], rfl, ⟨[], by simp [bfsExplore]⟩,
      fun x _ => rfl, by simp, fun x h => Or.inl h, by simp, by simp [bfsExplore]⟩, by simp⟩
  | cons t rest ih =>
    intro st hns
    obtain ⟨node, edge, w⟩ := t
    have hmem : (node, edge, w) ∈ getNeighbors g c := hns _ (List.mem_cons_self _ _)
    obtain ⟨hadj, hnodeby, hidne, _⟩ := getNeighbors_sound hmem
    have hrest : ∀ t' ∈ rest, t' ∈ getNeighbors g c :=
      fun t' ht' => hns t' (List.mem_cons_of_mem _ ht')
    by_cases hskip : shas vis node.id = true
    · rw [bfsExplore_cons_skip hskip]
      obtain ⟨added, hout, hguar⟩ := ih st hrest
      exact ⟨added, hout, fun t' ht' => by
        rcases List.mem_cons.mp ht' with rfl | ht''
        · exact Or.inl hskip
        · exact hguar t' ht''⟩
    · have hskip' : shas vis node.id = false := by simpa using hskip
      by_cases hseen : mhas st.parents node.id = true
      · rw [bfsExplore_cons_seen hskip' hseen]
        obtain ⟨added, hout, hguar⟩ := ih _ hrest
        refine ⟨added, ⟨hout.queue_eq, hout.vis_eq, ?_, hout.old_keys, hout.new_keys,
          hout.keys_sub, hout.added_nodup, hout.undisc⟩, ?_⟩
        · obtain ⟨tail, htail⟩ := hout.steps_pre
          exact ⟨_, by rw [htail]; rw [List.append_assoc]⟩
        · intro t' ht'
          rcases List.mem_cons.mp ht' with rfl | ht''
          · refine Or.inr ?_
            obtain ⟨v, hv⟩ := (mhas_iff_exists _ _).mp hseen
            have := hout.old_keys node.id hseen
            simp [mhas, this, hv]
          · exact hguar t' ht''
      · have hseen' : mhas st.parents node.id = false := by simpa using hseen
        rw [bfsExplore_cons_push hskip' hseen']
        obtain ⟨added2, hout, hguar⟩ := ih
          { steps := st.steps ++
              [{ type := .explore, nodeId := some node.id, edgeId := some edge.id,
                 message := "Exploring edge to " ++ node.label,
                 visited := some vis, queue := some (st.queue ++ [node.id]) }],
            visited := st.visited,
            parents := mset st.parents node.id (some c),
            queue := st.queue ++ [node.id] } hrest
        have hfreshmem : mhas (mset st.parents node.id (some c)) node.id = true := by
          simp [mhas, mfind?_mset_self]
        have hnewfind := (hout.old_keys node.id hfreshmem).trans
          (mfind?_mset_self st.parents node.id (some c))
        obtain ⟨nodemem⟩ : node ∈ g.nodes ∧ True := ⟨(getNodeById_sound hnodeby).2, trivial⟩
        refine ⟨node.id :: added2, ⟨?_, hout.vis_eq, ?_, ?_, ?_, ?_, ?_, ?_⟩, ?_⟩
        · rw [hout.queue_eq]
          simp
        · obtain ⟨tail, htail⟩ := hout.steps_pre
          exact ⟨_, by rw [htail]; rw [List.append_assoc]⟩
        · intro x hx
          have hxne : x ≠ node.id := by
            intro h
            rw [h] at hx
            rw [hx] at hseen'
            exact absurd hseen' (by simp)
          have hx2 : mhas (mset st.parents node.id (some c)) x = true := by
            rw [mhas_mset]
            simp [hx]
          rw [hout.old_keys x hx2, mfind?_mset, if_neg hxne]
        · intro a ha
          rcases List.mem_cons.mp ha with rfl | ha2
          · exact ⟨hnewfind, hseen', hidne, ⟨node, nodemem, rfl⟩,
              ⟨w, hadj⟩, hskip'⟩
          · obtain ⟨hfind, hnot2, hne, hnd, hadj2, hvis⟩ := hout.new_keys a ha2
            refine ⟨hfind, ?_, hne, hnd, hadj2, hvis⟩
            rw [mhas_mset] at hnot2
            rcases Bool.or_eq_false_iff.mp hnot2 with ⟨_, h2⟩
            exact h2
        · intro x hx
          rcases hout.keys_sub x hx with hx2 | hx2
          · rw [mhas_mset] at hx2
            rcases Bool.or_eq_true_iff.mp hx2 with h2 | h2
            · simp only [beq_iff_eq] at h2
              exact Or.inr (by rw [h2]; exact List.mem_cons_self _ _)
            · exact Or.inl h2
          · exact Or.inr (List.mem_cons_of_mem _ hx2)
        · refine List.nodup_cons.mpr ⟨?_, hout.added_nodup⟩
          intro hmem2
          have := (hout.new_keys node.id hmem2).2.1
          rw [mhas_mset] at this
          simp at this
        · have h1 : undiscovered g (bfsExplore c vis rest _).parents + added2.length ≤
              undiscovered g (mset st.parents node.id (some c)) := hout.undisc
          have h2 := undiscovered_mset_fresh (some c) hseen' nodemem rfl
          simp only [List.length_cons]
          omega
        · intro t' ht'
          rcases List.mem_cons.mp ht' with rfl | ht''
          · exact Or.inr (by simp [mhas, hnewfind])
          · exact hguar t' ht''

/-! ## BFS loop equations and small helpers -/

theorem bfsLoop_queue_nil {g : Graph} {endId? : Option String} {fuel : Nat} {st : BfsSt}
    (h : st.queue = []) :
    bfsLoop g endId? (fuel + 1) st = some { steps := st.steps ++
      [{ type := .complete,
         message := match endId? with
           | some _ => "Target node not reachable from start"
           | none => "BFS traversal complete",
         visited := some st.visited }] } := by
  simp [bfsLoop, h]

theorem bfsLoop_endhit {g : Graph} {endId? : Option String} {fuel : Nat} {st : BfsSt}
    {c : String} {rest : List String} {path : List String}
    (hq : st.queue = c :: rest) (hskip : shas st.visited c = false)
    (hend : isEndHit endId? c = true) (hrp : reconstructPath st.parents c = some path) :
    bfsLoop g endId? (fuel + 1) st = some
      { steps := (st.steps ++
          [{ type := .visit, nodeId := some c,
             message := "Visiting node " ++ optLabel (getNodeById g c),
             visited := some (sadd st.visited c), queue := some rest }]) ++
          [{ type := .complete,
             message := "Found target node " ++ optLabel (getNodeById g c) ++
               "! Path length: " ++ toString (path.length - 1),
             currentPath := some path, visited := some (sadd st.visited c) }],
        shortestPath := some path } := by
  simp [bfsLoop, hq, hskip, hend, hrp]

theorem bfsLoop_visit {g : Graph} {endId? : Option String} {fuel : Nat} {st : BfsSt}
    {c : String} {rest : List String}
    (hq : st.queue = c :: rest) (hskip : shas st.visited c = false)
    (hend : isEndHit endId? c = false) :
    bfsLoop g endId? (fuel + 1) st =
      bfsLoop g endId? fuel (bfsExplore c (sadd st.visited c) (getNeighbors g c)
        { steps := st.steps ++
            [{ type := .visit, nodeId := some c,
               message := "Visiting node " ++ optLabel (getNodeById g c),
               visited := some (sadd st.visited c), queue := some rest }],
          visited := sadd st.visited c, parents := st.parents, queue := rest }) := by
  simp [bfsLoop, hq, hskip, hend]

theorem chain'_const {l : List String} {f : String → Nat} {d : Nat}
    (h : ∀ x ∈ l, f x = d) : List.Chain' (fun a b => f a ≤ f b) l := by
  induction l with
  | nil => simp
  | cons a t ih =>
    cases t with
    | nil => simp
    | cons b t' =>
      rw [List.chain'_cons]
      refine ⟨?_, ih (fun x hx => h x (List.mem_cons_of_mem _ hx))⟩
      rw [h a (by simp), h b (by simp)]

theorem chain'_depth_transfer {l : List String} {f f' : String → Nat}
    (heq : ∀ x ∈ l, f' x = f x)
    (h : List.Chain' (fun a b => f a ≤ f b) l) :
    List.Chain' (fun a b => f' a ≤ f' b) l := by
  induction l with
  | nil => simp
  | cons a t ih =>
    cases t with
    | nil => simp
    | cons b t' =>
      rw [List.chain'_cons] at h ⊢
      refine ⟨?_, ih (fun x hx => heq x (List.mem_cons_of_mem _ hx)) h.2⟩
      rw [heq a (by simp), heq b (by simp [List.mem_cons])]
      exact h.1

theorem pchain_preserve {p p' : PMap} {s x : String} {l : List String}
    (hagree : ∀ y, mhas p y = true → mfind? p' y = mfind? p y)
    (hc : PChain p s x l) : PChain p' s x l := by
  induction hc with
  | root hs =>
    refine PChain.root ?_
    rw [hagree s (by simp [mhas, hs])]
    exact hs
  | step hf hne hu hc ih =>
    refine PChain.step ?_ hne hu ih
    rw [hagree _ (by simp [mhas, hf])]
    exact hf

theorem getLast?_append_pair {α : Type} (l : List α) (a b : α) :
    (l ++ [a, b]).getLast? = some b := by
  rw [show l ++ [a, b] = (l ++ [a]) ++ [b] by simp, List.getLast?_concat]

/-! ## BFS invariant preservation through one visit -/

theorem bfsInv_step {g : Graph} {s : String} {endId? : Option String} (hwf : WellFormed g)
    {st : BfsSt} (hinv : BfsInv g s endId? st) {c : String} {rest : List String}
    (hq : st.queue = c :: rest) (hend : isEndHit endId? c = false)
    (steps' : List AlgorithmStep) :
    ∀ st', st' = bfsExplore c (sadd st.visited c) (getNeighbors g c)
      { steps := steps', visited := sadd st.visited c,
        parents := st.parents, queue := rest } →
    BfsInv g s endId? st' ∧
      st'.queue.length + undiscovered g st'.parents ≤
        rest.length + undiscovered g st.parents := by
  intro st' hst'
  obtain ⟨added, hout, hguar⟩ := bfsExplore_spec g c (sadd st.visited c) (getNeighbors g c)
    { steps := steps', visited := sadd st.visited c,
      parents := st.parents, queue := rest } (fun t ht => ht)
  rw [← hst'] at hout hguar
  have hcq : c ∈ st.queue := by rw [hq]; exact List.mem_cons_self _ _
  have hcnotvis : c ∉ st.visited := hinv.qnotvis c hcq
  have hck : mhas st.parents c = true := hinv.queueKeys c hcq
  obtain ⟨lc, hlc⟩ := hinv.chains c hck
  have hsk : mhas st.parents s = true := by simp [mhas, hinv.root]
  -- old keys keep their bindings, chains and depths
  have hold : ∀ x, mhas st.parents x = true → mfind? st'.parents x = mfind? st.parents x :=
    hout.old_keys
  have holdhas : ∀ x, mhas st.parents x = true → mhas st'.parents x = true := by
    intro x hx
    obtain ⟨v, hv⟩ := (mhas_iff_exists _ _).mp hx
    simp [mhas, hold x hx, hv]
  have hchainpres : ∀ {x l}, PChain st.parents s x l → PChain st'.parents s x l :=
    fun hc => pchain_preserve hold hc
  have hdeq : ∀ x, mhas st.parents x = true → depthOf st'.parents x = depthOf st.parents x := by
    intro x hx
    obtain ⟨l, hl⟩ := hinv.chains x hx
    rw [depthOf_eq hl, depthOf_eq (hchainpres hl)]
  -- facts about the added nodes
  have hcne : c ≠ "" := hinv.keysNe c hck
  have haddchain : ∀ a ∈ added, PChain st'.parents s a (lc ++ [a]) := by
    intro a ha
    obtain ⟨hfind, hfresh, hane, _, _, _⟩ := hout.new_keys a ha
    have hanes : a ≠ s := by
      intro h
      rw [h] at hfresh
      rw [hsk] at hfresh
      exact absurd hfresh (by simp)
    exact PChain.step hfind hanes hcne (hchainpres hlc)
  have hadddepth : ∀ a ∈ added,
      depthOf st'.parents a = depthOf st.parents c + 1 := by
    intro a ha
    rw [depthOf_eq (haddchain a ha), depthOf_eq hlc]
    have := pchain_ne_nil hlc
    have hlen : 1 ≤ lc.length := by
      cases lc with
      | nil => exact absurd rfl this
      | cons _ _ => simp
    simp only [List.length_append, List.length_singleton]
    omega
  have haddfresh : ∀ a ∈ added, mhas st.parents a = false :=
    fun a ha => (hout.new_keys a ha).2.1
  have haddhas : ∀ a ∈ added, mhas st'.parents a = true := by
    intro a ha
    simp [mhas, (hout.new_keys a ha).1]
  -- queue facts in the old state
  have hqlow : ∀ w ∈ st.queue, depthOf st.parents c ≤ depthOf st.parents w := by
    intro w hw
    refine chain'_head_le hinv.qmono ?_ w hw
    rw [hq]
    rfl
  have hqhigh : ∀ w ∈ st.queue, depthOf st.parents w ≤ depthOf st.parents c + 1 := by
    intro w hw
    refine hinv.qspread c ?_ w hw
    rw [hq]
    rfl
  have hrestq : ∀ w ∈ rest, w ∈ st.queue := by
    intro w hw; rw [hq]; exact List.mem_cons_of_mem _ hw
  have hrestkeys : ∀ w ∈ rest, mhas st.parents w = true :=
    fun w hw => hinv.queueKeys w (hrestq w hw)
  have hvize : st'.visited = sadd st.visited c := hout.vis_eq
  have hqueue' : st'.queue = rest ++ added := hout.queue_eq
  -- closedness of the new visited set
  have hclosed' : ∀ u, u ∈ sadd st.visited c → ∀ v, adjOn g u v →
      mhas st'.parents v = true ∧
      depthOf st'.parents v ≤ depthOf st'.parents u + 1 := by
    intro u hu v hadj
    rcases mem_sadd.mp hu with hu | rfl
    · obtain ⟨hv1, hv2⟩ := hinv.closed u hu v hadj
      rw [hdeq v hv1, hdeq u (hinv.visKeys u hu)]
      exact ⟨holdhas v hv1, hv2⟩
    · obtain ⟨w, hadjw⟩ := hadj
      obtain ⟨node, e, hmem, hid⟩ := getNeighbors_complete hwf hadjw
      rcases hguar (node, e, w) hmem with hvis | hkey
    -- target already visited (or the current node itself)
      · simp only at hvis
        rcases mem_sadd.mp (shas_iff_mem.mp (hid ▸ hvis)) with hv | rfl
        · have hkv := hinv.visKeys v hv
          rw [hdeq v hkv, hdeq u hck]
          exact ⟨holdhas v hkv, le_trans (hinv.visq v hv u hcq) (by omega)⟩
        · rw [hdeq v hck]
          exact ⟨holdhas v hck, by omega⟩
      · simp only at hkey
        rw [hid] at hkey
        rcases hout.keys_sub v hkey with hv | hv
        · rcases hinv.cover v hv with hvv | hvq
          · have hkv := hinv.visKeys v hvv
            rw [hdeq v hkv, hdeq u hck]
            exact ⟨holdhas v hkv, le_trans (hinv.visq v hvv u hcq) (by omega)⟩
          · rw [hdeq v hv, hdeq u hck]
            exact ⟨holdhas v hv, hqhigh v hvq⟩
        · rw [hadddepth v hv, hdeq u hck]
          exact ⟨haddhas v hv, le_refl _⟩
  constructor
  · refine
      { root := ?_, edges := ?_, chains := ?_, keysNe := ?_, queueKeys := ?_,
        visKeys := ?_, cover := ?_, qmono := ?_, qspread := ?_, visq := ?_,
        closed := ?_, reach := ?_, novisend := ?_, qnodup := ?_, qnotvis := ?_ }
    · rw [hold s hsk]
      exact hinv.root
    · intro v u hf
      have hv : mhas st'.parents v = true := by simp [mhas, hf]
      rcases hout.keys_sub v hv with hvold | hvadd
      · rw [hold v hvold] at hf
        obtain ⟨h1, h2, h3, h4⟩ := hinv.edges v u hf
        exact ⟨h1, h2, holdhas u h3, h4⟩
      · have hfc := (hout.new_keys v hvadd).1
        rw [hfc] at hf
        have hcu : c = u := Option.some.inj (Option.some.inj hf)
        rw [← hcu]
        refine ⟨(hout.new_keys v hvadd).2.2.2.2.1, hcne, holdhas c hck, ?_⟩
        intro h
        rw [h] at hvadd
        rw [haddfresh s hvadd] at hsk
        exact absurd hsk (by simp)
    · intro v hv
      rcases hout.keys_sub v hv with hvold | hvadd
      · obtain ⟨l, hl⟩ := hinv.chains v hvold
        exact ⟨l, hchainpres hl⟩
      · exact ⟨lc ++ [v], haddchain v hvadd⟩
    · intro v hv
      rcases hout.keys_sub v hv with hvold | hvadd
      · exact hinv.keysNe v hvold
      · exact (hout.new_keys v hvadd).2.2.1
    · intro v hv
      rw [hqueue'] at hv
      rcases List.mem_append.mp hv with hv | hv
      · exact holdhas v (hrestkeys v hv)
      · exact haddhas v hv
    · intro v hv
      rw [hvize] at hv
      rcases mem_sadd.mp hv with hv | hvc
      · exact holdhas v (hinv.visKeys v hv)
      · rw [hvc]
        exact holdhas c hck
    · intro v hv
      rcases hout.keys_sub v hv with hvold | hvadd
      · rcases hinv.cover v hvold with hvv | hvq
        · left
          rw [hvize]
          exact sadd_subset hvv
        · rw [hq] at hvq
          rcases List.mem_cons.mp hvq with rfl | hvr
          · left
            rw [hvize]
            exact mem_sadd_self
          · right
            rw [hqueue']
            exact List.mem_append_left _ hvr
      · right
        rw [hqueue']
        exact List.mem_append_right _ hvadd
    · rw [hqueue']
      rw [List.chain'_append]
      refine ⟨?_, ?_, ?_⟩
      · refine chain'_depth_transfer (fun x hx => hdeq x (hrestkeys x hx)) ?_
        have := hinv.qmono
        rw [hq] at this
        exact this.tail
      · exact chain'_const (fun x hx => hadddepth x hx)
      · intro x hx y hy
        have hxr : x ∈ rest := List.mem_of_mem_getLast? hx
        have hya : y ∈ added := List.mem_of_mem_head? hy
        rw [hdeq x (hrestkeys x hxr), hadddepth y hya]
        exact hqhigh x (hrestq x hxr)
    · intro hd hhd w hw
      rw [hqueue'] at hhd hw
      have hDhd : depthOf st.parents c ≤ depthOf st'.parents hd := by
        cases hr : rest with
        | nil =>
          rw [hr] at hhd
          simp only [List.nil_append] at hhd
          have : hd ∈ added := List.mem_of_mem_head? hhd
          rw [hadddepth hd this]
          omega
        | cons r0 rt =>
          rw [hr] at hhd
          simp only [List.cons_append, List.head?_cons, Option.some.injEq] at hhd
          rw [← hhd]
          have hr0 : r0 ∈ rest := by rw [hr]; exact List.mem_cons_self _ _
          rw [hdeq r0 (hrestkeys r0 hr0)]
          exact hqlow r0 (hrestq r0 hr0)
      rcases List.mem_append.mp hw with hwr | hwa
      · rw [hdeq w (hrestkeys w hwr)]
        have := hqhigh w (hrestq w hwr)
        omega
      · rw [hadddepth w hwa]
        omega
    · intro u hu w hw
      rw [hvize] at hu
      rw [hqueue'] at hw
      have hud : depthOf st'.parents u ≤ depthOf st.parents c := by
        rcases mem_sadd.mp hu with hu | huc
        · rw [hdeq u (hinv.visKeys u hu)]
          exact hinv.visq u hu c hcq
        · rw [huc, hdeq c hck]
      rcases List.mem_append.mp hw with hwr | hwa
      · rw [hdeq w (hrestkeys w hwr)]
        exact le_trans hud (hqlow w (hrestq w hwr))
      · rw [hadddepth w hwa]
        omega
    · intro u hu v hadj
      rw [hvize] at hu
      exact hclosed' u hu v hadj
    · intro v hv
      rcases hout.keys_sub v hv with hvold | hvadd
      · rw [hdeq v hvold]
        exact hinv.reach v hvold
      · rw [hadddepth v hvadd]
        obtain ⟨cst, hwalk⟩ := hinv.reach c hck
        obtain ⟨w, hadjw⟩ := (hout.new_keys v hvadd).2.2.2.2.1
        exact ⟨cst + w, cwalk_snoc hwalk hadjw⟩
    · intro v hv
      rw [hvize] at hv
      rcases mem_sadd.mp hv with hv | hvc
      · exact hinv.novisend v hv
      · rw [hvc]
        exact hend
    · rw [hqueue']
      rw [List.nodup_append]
      refine ⟨?_, hout.added_nodup, ?_⟩
      · have := hinv.qnodup
        rw [hq] at this
        exact (List.nodup_cons.mp this).2
      · intro x hxr hxa
        have h1 := hrestkeys x hxr
        rw [haddfresh x hxa] at h1
        simp at h1
    · intro v hv hvis
      rw [hqueue'] at hv
      rw [hvize] at hvis
      rcases List.mem_append.mp hv with hvr | hva
      · rcases mem_sadd.mp hvis with hvis | hvc
        · exact hinv.qnotvis v (hrestq v hvr) hvis
        · have h1 := hinv.qnodup
          rw [hq] at h1
          rw [hvc] at hvr
          exact (List.nodup_cons.mp h1).1 hvr
      · rcases mem_sadd.mp hvis with hvis | hvc
        · exact absurd (hinv.visKeys v hvis) (by simp [haddfresh v hva])
        · rw [hvc] at hva
          exact absurd hck (by simp [haddfresh c hva])
  · rw [hqueue']
    have h1 : undiscovered g st'.parents + added.length ≤ undiscovered g st.parents :=
      hout.undisc
    simp only [List.length_append]
    omega

/-! ## BFS master loop lemma -/

theorem bfsLoop_master {g : Graph} {s : String} {endId? : Option String}
    (hwf : WellFormed g) :
    ∀ fuel (st : BfsSt), BfsInv g s endId? st →
      st.queue.length + undiscovered g st.parents < fuel →
      ∃ r, bfsLoop g endId? fuel st = some r ∧
        r.steps ≠ [] ∧
        (r.steps.getLast?).map AlgorithmStep.type = some StepType.complete ∧
        (endId? = none → r.shortestPath = none) ∧
        (∀ e p, endId? = some e → r.shortestPath = some p →
          IsPathList g s e p ∧
          (r.steps.getLast?).map AlgorithmStep.currentPath = some (some p) ∧
          ∀ k, ReachN g s e k → p.length - 1 ≤ k) ∧
        (∀ e, endId? = some e → e ≠ "" → Reachable g s e →
          ∃ p, r.shortestPath = some p) := by
  intro fuel
  induction fuel with
  | zero => intro st _ hlt; omega
  | succ fuel ih =>
    intro st hinv hlt
    match hq : st.queue with
    | [] =>
      rw [bfsLoop_queue_nil hq]
      refine ⟨_, rfl, by simp, ?_, fun _ => rfl, ?_, ?_⟩
      · simp only [List.getLast?_concat]
        rfl
      · intro e p _ hp
        simp at hp
      · intro e he hene hreach
        exfalso
        obtain ⟨cst, k, hwalk⟩ := hreach
        have hcov : ∀ v, mhas st.parents v = true → v ∈ st.visited := by
          intro v hv
          rcases hinv.cover v hv with h | h
          · exact h
          · rw [hq] at h; simp at h
        have hkey := bfs_exhaust hinv.root hcov
          (fun u hu v hadj => (hinv.closed u hu v hadj).1) k e cst hwalk
        have hvis := hcov e hkey
        have := hinv.novisend e hvis
        rw [he] at this
        simp [isEndHit, hene] at this
    | c :: rest =>
      have hcq : c ∈ st.queue := by rw [hq]; exact List.mem_cons_self _ _
      have hcnotvis : c ∉ st.visited := hinv.qnotvis c hcq
      have hskip : shas st.visited c = false := by
        rcases h : shas st.visited c with _ | _
        · rfl
        · exact absurd (shas_iff_mem.mp h) hcnotvis
      by_cases hend : isEndHit endId? c = true
      · obtain ⟨lc, hlc⟩ := hinv.chains c (hinv.queueKeys c hcq)
        rw [bfsLoop_endhit hq hskip hend (reconstructPath_eq hlc)]
        obtain ⟨e, he⟩ : ∃ e, endId? = some e := by
          cases hE : endId? with
          | none => rw [hE] at hend; simp [isEndHit] at hend
          | some e => exact ⟨e, rfl⟩
        have hce : c = e := by
          rw [he] at hend
          simp only [isEndHit, Bool.and_eq_true, beq_iff_eq] at hend
          exact hend.2
        refine ⟨_, rfl, by simp, ?_, ?_, ?_, ?_⟩
        · simp only [List.getLast?_concat]
          rfl
        · intro hnone
          rw [hnone] at he
          exact absurd he (by simp)
        · intro e' p he' hp
          have hee : e = e' := by rw [he] at he'; exact Option.some.inj he'
          simp only [Option.some.injEq] at hp
          subst hp
          have hadjE : ∀ v' u, mfind? st.parents v' = some (some u) → adjOn g u v' :=
            fun v' u hf => (hinv.edges v' u hf).1
          refine ⟨?_, ?_, ?_⟩
          · rw [← hee, ← hce]
            exact pchain_isPathList hadjE hlc
          · simp only [List.getLast?_concat]
            rfl
          · intro k hk
            obtain ⟨cst, hwalk⟩ := hk
            rw [← hee, ← hce] at hwalk
            have hmin := bfs_depth_min hinv.root
              (fun v hv => by rw [← hq]; exact hinv.cover v hv)
              hinv.closed
              (fun w hw => by
                refine chain'_head_le hinv.qmono ?_ w ?_
                · rw [hq]; rfl
                · rw [hq]; exact hw)
              k c cst hwalk
            rw [depthOf_eq hlc] at hmin
            rcases hmin with ⟨_, hle⟩ | hle
            · exact hle
            · exact hle
        · intro e' he' _ _
          exact ⟨lc, rfl⟩
      · have hend' : isEndHit endId? c = false := by simpa using hend
        rw [bfsLoop_visit hq hskip hend']
        obtain ⟨hinv', hmeas⟩ := bfsInv_step hwf hinv hq hend'
          (st.steps ++
            [{ type := .visit, nodeId := some c,
               message := "Visiting node " ++ optLabel (getNodeById g c),
               visited := some (sadd st.visited c), queue := some rest }]) _ rfl
        refine ih _ hinv' ?_
        rw [hq] at hlt
        simp only [List.length_cons] at hlt
        omega

/-! ## BFS entry point -/

theorem bfs_master {g : Graph} {s : String} {endId? : Option String}
    (hwf : WellFormed g) (hs : s ∈ nodeIds g) :
    ∃ r, bfs g s endId? = some r ∧
      r.steps ≠ [] ∧
      (r.steps.getLast?).map AlgorithmStep.type = some StepType.complete ∧
      (endId? = none → r.shortestPath = none) ∧
      (∀ e p, endId? = some e → r.shortestPath = some p →
        IsPathList g s e p ∧
        (r.steps.getLast?).map AlgorithmStep.currentPath = some (some p) ∧
        ∀ k, ReachN g s e k → p.length - 1 ≤ k) ∧
      (∀ e, endId? = some e → e ≠ "" → Reachable g s e →
        ∃ p, r.shortestPath = some p) := by
  have hsne : s ≠ "" := by
    obtain ⟨n, hn, hid⟩ := List.mem_map.mp hs
    exact hid ▸ hwf.2.2 n hn
  have hroot0 : mfind? (mset ([] : PMap) s none) s = some none := mfind?_mset_self _ _ _
  have hkey0 : ∀ v, mhas (mset ([] : PMap) s none) v = true → v = s := by
    intro v hv
    rw [mhas_mset] at hv
    rcases Bool.or_eq_true_iff.mp hv with h | h
    · simpa using h
    · simp [mhas, mfind?_nil] at h
  have hinit : BfsInv g s endId?
      { steps :=
          [{ type := .visit, nodeId := some s,
             message := "Starting BFS from node " ++ optLabel (getNodeById g s),
             visited := some [], queue := some [s] }],
        visited := [], parents := mset [] s none, queue := [s] } := by
    refine
      { root := hroot0, edges := ?_, chains := ?_, keysNe := ?_, queueKeys := ?_,
        visKeys := ?_, cover := ?_, qmono := ?_, qspread := ?_, visq := ?_,
        closed := ?_, reach := ?_, novisend := ?_, qnodup := ?_, qnotvis := ?_ }
    · intro v u hf
      have hv : v = s := hkey0 v (by simp [mhas, hf])
      rw [hv, hroot0] at hf
      exact absurd hf (by simp)
    · intro v hv
      rw [hkey0 v hv]
      exact ⟨[s], PChain.root hroot0⟩
    · intro v hv
      rw [hkey0 v hv]
      exact hsne
    · intro v hv
      simp only [List.mem_singleton] at hv
      rw [hv]
      simp [mhas, hroot0]
    · intro v hv
      simp at hv
    · intro v hv
      right
      rw [hkey0 v hv]
      exact List.mem_singleton.mpr rfl
    · simp
    · intro hd hhd w hw
      simp only [List.head?_cons, Option.some.injEq] at hhd
      simp only [List.mem_singleton] at hw
      rw [hw, ← hhd]
      omega
    · intro u hu
      simp at hu
    · intro u hu
      simp at hu
    · intro v hv
      rw [hkey0 v hv, depthOf_eq (PChain.root hroot0)]
      exact ⟨0, CWalk.nil s⟩
    · intro v hv
      simp at hv
    · simp
    · intro v hv
      simp
  have hmeas : ([s] : List String).length + undiscovered g (mset [] s none) < bfsFuel g := by
    have := undiscovered_le_nodes g (mset ([] : PMap) s none)
    unfold bfsFuel
    simp only [List.length_singleton]
    omega
  exact bfsLoop_master hwf (bfsFuel g) _ hinit hmeas

/-! ## Claim C1: BFS shortest path -/

/-- C1: for every well-formed graph and every end node reachable from the
start node, BFS returns a `shortestPath` (also recorded as the final
`complete` step's `currentPath`) that is a genuine start-to-end node sequence
respecting directedness, and whose edge count is minimal among all such
node sequences. -/
theorem C1_bfs_shortest (g : Graph) (s e : String) (hwf : WellFormed g)
    (hs : s ∈ nodeIds g) (hreach : Reachable g s e) :
    ∃ r p, bfs g s (some e) = some r ∧ r.shortestPath = some p ∧
      (r.steps.getLast?).map AlgorithmStep.currentPath = some (some p) ∧
      IsPathList g s e p ∧
      ∀ q, IsPathList g s e q → p.length ≤ q.length := by
  have hene : e ≠ "" := by
    obtain ⟨cst, k, hwalk⟩ := hreach
    rcases cwalk_end_mem hwf.1.1 hwalk with rfl | hmem
    · obtain ⟨n, hn, hid⟩ := List.mem_map.mp hs
      exact hid ▸ hwf.2.2 n hn
    · obtain ⟨n, hn, hid⟩ := List.mem_map.mp hmem
      exact hid ▸ hwf.2.2 n hn
  obtain ⟨r, hr, _, _, _, hP2, hP3⟩ := @bfs_master g s (some e) hwf hs
  obtain ⟨p, hp⟩ := hP3 e rfl hene hreach
  obtain ⟨hpath, hcur, hmin⟩ := hP2 e p rfl hp
  refine ⟨r, p, hr, hp, hcur, hpath, ?_⟩
  intro q hq
  have hq1 : 1 ≤ q.length := by
    obtain ⟨hh, _, _⟩ := hq
    cases q with
    | nil => simp at hh
    | cons _ _ => simp
  have hp1 : 1 ≤ p.length := by
    obtain ⟨hh, _, _⟩ := hpath
    cases p with
    | nil => simp at hh
    | cons _ _ => simp
  have := hmin (q.length - 1) (isPathList_reachN hq)
  omega

/-- Witness for C1 on the concrete directed path graph `s → e → x`. -/
theorem C1_bfs_shortest_witness :
    ∃ r p, bfs lineGraph "s" (some "x") = some r ∧ r.shortestPath = some p ∧
      (r.steps.getLast?).map AlgorithmStep.currentPath = some (some p) ∧
      IsPathList lineGraph "s" "x" p ∧
      ∀ q, IsPathList lineGraph "s" "x" q → p.length ≤ q.length := by
  refine C1_bfs_shortest lineGraph "s" "x" (by decide) (by decide) ⟨2, 2, ?_⟩
  have h1 : wadjOn lineGraph "s" "e" 1 := by
    refine ⟨{ id := "e1", source := "s", target := "e", weight := 1 }, by decide, ?_, rfl⟩
    exact Or.inl ⟨rfl, rfl⟩
  have h2 : wadjOn lineGraph "e" "x" 1 := by
    refine ⟨{ id := "e2", source := "e", target := "x", weight := 1 }, by decide, ?_, rfl⟩
    exact Or.inl ⟨rfl, rfl⟩
  exact CWalk.cons h1 (CWalk.cons h2 (CWalk.nil "x"))

/-! ## Additional small lemmas: JNum, maps, lists -/

theorem jadd_zero (a : JNum) : jadd a 0 = a := by
  cases a <;> simp [jadd]

theorem jadd_jadd (a : JNum) (w c : Int) : jadd (jadd a w) c = jadd a (w + c) := by
  cases a <;> simp [jadd] <;> ring

theorem jle_some_iff {a b : Int} : jle (some a) (some b) = true ↔ a ≤ b := by
  simp [jle]

theorem jle_fin_of_le {a : JNum} {b : Int} (h : jle a (some b) = true) :
    ∃ i, a = some i ∧ i ≤ b := by
  cases a with
  | none => simp [jle] at h
  | some i => exact ⟨i, rfl, by simpa [jle] using h⟩

theorem jlt_fin_left {a : JNum} {b : Int} (h : jlt (some b) a = true → True) : True := trivial

theorem mhas_eq_false_iff {α : Type} {m : List (String × α)} {k : String} :
    mhas m k = false ↔ mfind? m k = none := by
  unfold mhas
  cases h : mfind? m k <;> simp

theorem mhas_mset_mono {α : Type} {m : List (String × α)} {x : String} (k : String) (v : α)
    (h : mhas m x = true) : mhas (mset m k v) x = true := by
  rw [mhas_mset]
  rw [h]
  simp

theorem mhas_of_mfind? {α : Type} {m : List (String × α)} {k : String} {v : α}
    (h : mfind? m k = some v) : mhas m k = true := by
  simp [mhas, h]

theorem indexOf_append_left {x : String} : ∀ {l : List String} (l' : List String),
    x ∈ l → (l ++ l').indexOf x = l.indexOf x := by
  intro l
  induction l with
  | nil => intro l' hx; simp at hx
  | cons a t ih =>
    intro l' hx
    by_cases hax : a = x
    · subst hax
      simp [List.indexOf_cons_self]
    · have hxt : x ∈ t := by
        rcases List.mem_cons.mp hx with h | h
        · exact absurd h.symm hax
        · exact h
      have hne : (a == x) = false := by simpa using hax
      simp only [List.cons_append, List.indexOf_cons, hne]
      rw [ih l' hxt]

theorem indexOf_append_self {x : String} : ∀ {l : List String},
    x ∉ l → (l ++ [x]).indexOf x = l.length := by
  intro l
  induction l with
  | nil => intro _; simp
  | cons a t ih =>
    intro hx
    have hax : (a == x) = false := by
      simp only [beq_eq_false_iff_ne, ne_eq]
      intro h
      exact hx (h ▸ List.mem_cons_self a t)
    simp only [List.cons_append, List.indexOf_cons, hax, Bool.cond_false]
    rw [ih (fun h => hx (List.mem_cons_of_mem a h))]
    rfl

theorem indexOf_lt_length_of_mem {x : String} {l : List String} (h : x ∈ l) :
    l.indexOf x < l.length :=
  List.indexOf_lt_length.mpr h

/-! ## Adjacency uniqueness and edge directions -/

theorem sameEndpoints_symm {d : Bool} {e1 e2 : Edge} (h : sameEndpoints d e1 e2) :
    sameEndpoints d e2 e1 := by
  rcases h with ⟨h1, h2⟩ | ⟨hd, h1, h2⟩
  · exact Or.inl ⟨h1.symm, h2.symm⟩
  · exact Or.inr ⟨hd, h2.symm, h1.symm⟩

theorem wadjOn_unique {g : Graph} (hwf : WellFormed g) {u v : String} {w w' : Int}
    (h1 : wadjOn g u v w) (h2 : wadjOn g u v w') : w = w' := by
  obtain ⟨e1, he1, hc1, hw1⟩ := h1
  obtain ⟨e2, he2, hc2, hw2⟩ := h2
  by_cases heq : e1 = e2
  · rw [← hw1, ← hw2, heq]
  · exfalso
    have hnd := hwf.1.2.2
    have hsym : Symmetric (fun e1 e2 => ¬ sameEndpoints g.isDirected e1 e2) := by
      intro a b hab hba
      exact hab (sameEndpoints_symm hba)
    have := List.Pairwise.forall hsym hnd he1 he2 heq
    apply this
    rcases hc1 with ⟨hs1, ht1⟩ | ⟨hd1, hs1, ht1⟩ <;>
      rcases hc2 with ⟨hs2, ht2⟩ | ⟨hd2, hs2, ht2⟩
    · exact Or.inl ⟨hs1.trans hs2.symm, ht1.trans ht2.symm⟩
    · exact Or.inr ⟨hd2, hs1.trans ht2.symm, ht1.trans hs2.symm⟩
    · exact Or.inr ⟨hd1, hs1.trans ht2.symm, ht1.trans hs2.symm⟩
    · exact Or.inl ⟨hs1.trans hs2.symm, ht1.trans ht2.symm⟩

theorem wadjOn_ne {g : Graph} (hwf : WellFormed g) {u v : String} {w : Int}
    (h : wadjOn g u v w) : u ≠ v := by
  obtain ⟨e, he, hc, _⟩ := h
  have hself := hwf.1.2.1 e he
  intro huv
  rcases hc with ⟨hs, ht⟩ | ⟨_, hs, ht⟩
  · exact hself (by rw [hs, ht, huv])
  · exact hself (by rw [hs, ht, huv])

theorem edgeDirections_wadj {g : Graph} {e : Edge} {u v : String}
    (he : e ∈ g.edges) (h : (u, v) ∈ edgeDirections g e) : wadjOn g u v e.weight := by
  unfold edgeDirections at h
  by_cases hd : g.isDirected
  · rw [if_pos hd] at h
    simp only [List.mem_singleton, Prod.mk.injEq] at h
    exact ⟨e, he, Or.inl ⟨h.1.symm, h.2.symm⟩, rfl⟩
  · rw [if_neg hd] at h
    rcases List.mem_cons.mp h with h' | h'
    · simp only [Prod.mk.injEq] at h'
      exact ⟨e, he, Or.inl ⟨h'.1.symm, h'.2.symm⟩, rfl⟩
    · simp only [List.mem_singleton, Prod.mk.injEq] at h'
      exact ⟨e, he, Or.inr ⟨by simpa using hd, h'.2.symm, h'.1.symm⟩, rfl⟩

theorem wadj_edgeDirections {g : Graph} {u v : String} {w : Int}
    (h : wadjOn g u v w) :
    ∃ e ∈ g.edges, (u, v) ∈ edgeDirections g e ∧ e.weight = w := by
  obtain ⟨e, he, hc, hw⟩ := h
  refine ⟨e, he, ?_, hw⟩
  unfold edgeDirections
  rcases hc with ⟨hs, ht⟩ | ⟨hd, hs, ht⟩
  · split
    · simp [hs, ht]
    · simp [hs, ht]
  · rw [if_neg (by simp [hd])]
    simp [hs, ht]

/-! ## The shared distance-map initialisation -/

theorem initd_go {vf : String → JNum} : ∀ (ns : List Node) (d0 : DMap),
    (∀ v, v ∈ ns.map Node.id →
      mfind? (ns.foldl (fun d nd => mset d nd.id (vf nd.id)) d0) v = some (vf v)) ∧
    (∀ v, v ∉ ns.map Node.id →
      mfind? (ns.foldl (fun d nd => mset d nd.id (vf nd.id)) d0) v = mfind? d0 v) := by
  intro ns
  induction ns with
  | nil => intro d0; exact ⟨fun v hv => by simp at hv, fun v _ => rfl⟩
  | cons n0 rest ih =>
    intro d0
    have hfold : (n0 :: rest).foldl (fun d nd => mset d nd.id (vf nd.id)) d0 =
        rest.foldl (fun d nd => mset d nd.id (vf nd.id)) (mset d0 n0.id (vf n0.id)) := rfl
    constructor
    · intro v hv
      rw [hfold]
      by_cases hr : v ∈ rest.map Node.id
      · exact (ih (mset d0 n0.id (vf n0.id))).1 v hr
      · have hv0 : v = n0.id := by
          rcases (by simpa using hv : v = n0.id ∨ ∃ a ∈ rest, a.id = v) with h | ⟨a, ha, hai⟩
          · exact h
          · exact absurd (List.mem_map.mpr ⟨a, ha, hai⟩) hr
        rw [(ih (mset d0 n0.id (vf n0.id))).2 v hr, hv0, mfind?_mset_self]
    · intro v hv
      rw [hfold]
      have hr : v ∉ rest.map Node.id := fun h => hv (by simp [h])
      have hv0 : v ≠ n0.id := fun h => hv (by simp [h])
      rw [(ih (mset d0 n0.id (vf n0.id))).2 v hr]
      exact mfind?_mset_ne _ _ hv0

theorem initd_mem {g : Graph} {vf : String → JNum} {v : String} (hv : v ∈ nodeIds g) :
    mfind? (g.nodes.foldl (fun d nd => mset d nd.id (vf nd.id)) []) v = some (vf v) :=
  (initd_go g.nodes []).1 v hv

theorem initd_not_mem {g : Graph} {vf : String → JNum} {v : String} (hv : v ∉ nodeIds g) :
    mfind? (g.nodes.foldl (fun d nd => mset d nd.id (vf nd.id)) []) v = none :=
  (initd_go g.nodes []).2 v hv

theorem initd_keys {g : Graph} {vf : String → JNum} (v : String) :
    mhas (g.nodes.foldl (fun d nd => mset d nd.id (vf nd.id)) []) v = true ↔
      v ∈ nodeIds g := by
  constructor
  · intro h
    by_contra hv
    rw [mhas, initd_not_mem hv] at h
    simp at h
  · intro hv
    rw [mhas, initd_mem hv]
    simp

/-! ## Walk traces and cycle cutting -/

theorem twalk_of_cwalk {g : Graph} {s v : String} {c : Int} {k : Nat}
    (h : CWalk g s v c k) : ∃ tr, tr.length = k ∧ TWalk g s v c tr := by
  induction h with
  | nil v => exact ⟨[], rfl, TWalk.nil v⟩
  | cons ha _ ih =>
    obtain ⟨tr, hlen, htw⟩ := ih
    exact ⟨_ :: tr, by simp [hlen], TWalk.cons ha htw⟩

theorem cwalk_of_twalk {g : Graph} {s v : String} {c : Int} {tr : List String}
    (h : TWalk g s v c tr) : CWalk g s v c tr.length := by
  induction h with
  | nil v => exact CWalk.nil v
  | cons ha _ ih => exact CWalk.cons ha ih

theorem twalk_append {g : Graph} {a b e : String} {c1 c2 : Int} {t1 t2 : List String}
    (h1 : TWalk g a b c1 t1) (h2 : TWalk g b e c2 t2) :
    TWalk g a e (c1 + c2) (t1 ++ t2) := by
  induction h1 generalizing e c2 t2 with
  | nil v => simpa using h2
  | cons ha _ ih =>
    have h4 := TWalk.cons ha (ih h2)
    simpa [Int.add_assoc] using h4

theorem twalk_mem_ids {g : Graph} (href : EdgesRefNodes g) {s v : String} {c : Int}
    {tr : List String} (h : TWalk g s v c tr) : ∀ x ∈ tr, x ∈ nodeIds g := by
  induction h with
  | nil v => intro x hx; simp at hx
  | cons ha _ ih =>
    intro x hx
    rcases List.mem_cons.mp hx with rfl | hx
    · exact wadjOn_target_mem href ha
    · exact ih x hx

theorem twalk_getLast {g : Graph} {s v : String} {c : Int} {tr : List String}
    (h : TWalk g s v c tr) : tr = [] ∨ tr.getLast? = some v := by
  induction h with
  | nil v => exact Or.inl rfl
  | cons ha htw ih =>
    rename_i u v' t w c' tr'
    right
    rcases ih with rfl | hl
    · obtain ⟨hv, _⟩ := cwalk_zero (cwalk_of_twalk htw)
      rw [hv]
      rfl
    · cases tr' with
      | nil => simp at hl
      | cons a t' =>
        rw [List.getLast?_cons_cons]
        exact hl

theorem twalk_split {g : Graph} {v : String} : ∀ (t1 : List String)
    {s : String} {c : Int} {t2 : List String}, TWalk g s v c (t1 ++ t2) →
    ∃ mid c1 c2, TWalk g s mid c1 t1 ∧ TWalk g mid v c2 t2 ∧ c = c1 + c2 := by
  intro t1
  induction t1 with
  | nil =>
    intro s c t2 h
    exact ⟨s, 0, c, TWalk.nil s, by simpa using h, by ring⟩
  | cons x t1' ih =>
    intro s c t2 h
    cases h with
    | cons ha htw =>
      rename_i w c'
      obtain ⟨mid, c1, c2, h1, h2, hc⟩ := ih htw
      exact ⟨mid, w + c1, c2, TWalk.cons ha h1, h2, by rw [hc]; ring⟩

theorem not_nodup_decomp {l : List String} (h : ¬ l.Nodup) :
    ∃ x l1 l2 l3, l = l1 ++ x :: l2 ++ x :: l3 := by
  induction l with
  | nil => exact absurd List.nodup_nil h
  | cons a t ih =>
    by_cases hat : a ∈ t
    · obtain ⟨l2, l3, hsplit⟩ := List.append_of_mem hat
      exact ⟨a, [], l2, l3, by rw [hsplit]; rfl⟩
    · have hnt : ¬ t.Nodup := by
        intro hn
        exact h (List.nodup_cons.mpr ⟨hat, hn⟩)
      obtain ⟨x, l1, l2, l3, hsplit⟩ := ih hnt
      exact ⟨x, a :: l1, l2, l3, by rw [hsplit]; rfl⟩

theorem twalk_cut {g : Graph} {s : String} (hwf : WellFormed g) (hs : s ∈ nodeIds g)
    (hneg : ¬ NegCycleFrom g s) : ∀ (n : Nat) {v : String} {c : Int} {tr : List String},
    tr.length ≤ n → TWalk g s v c tr →
    ∃ c' tr', TWalk g s v c' tr' ∧ tr'.length + 1 ≤ g.nodes.length ∧ c' ≤ c := by
  intro n
  induction n with
  | zero =>
    intro v c tr hlen htw
    have : tr = [] := List.length_eq_zero.mp (Nat.le_zero.mp hlen)
    subst this
    have hn : 1 ≤ g.nodes.length := by
      have := List.length_pos_of_mem hs
      simpa [nodeIds] using this
    exact ⟨c, [], htw, by simpa using hn, le_refl c⟩
  | succ n ih =>
    intro v c tr hlen htw
    by_cases hsh : tr.length + 1 ≤ g.nodes.length
    · exact ⟨c, tr, htw, hsh, le_refl c⟩
    · have hmem : ∀ x ∈ s :: tr, x ∈ nodeIds g := by
        intro x hx
        rcases List.mem_cons.mp hx with rfl | hx
        · exact hs
        · exact twalk_mem_ids hwf.1.1 htw x hx
      have hnodup : ¬ (s :: tr).Nodup := by
        intro hnd
        have hsub : (s :: tr) ⊆ nodeIds g := hmem
        have := List.Subperm.length_le (List.subperm_of_subset hnd hsub)
        simp only [List.length_cons, nodeIds, List.length_map] at this
        omega
      obtain ⟨x, l1, l2, l3, hsplit⟩ := not_nodup_decomp hnodup
      cases l1 with
      | nil =>
        rw [List.nil_append] at hsplit
        injection hsplit with hx htr0
        have htr : tr = l2 ++ s :: l3 := by rw [hx]; exact htr0
        subst htr
        have htw' : TWalk g s v c ((l2 ++ [s]) ++ l3) := by
          simpa using htw
        obtain ⟨mid, c1, c2, h1, h2, hc⟩ := twalk_split (l2 ++ [s]) htw'
        have hmid : mid = s := by
          rcases twalk_getLast h1 with h' | h'
          · simp at h'
          · rw [List.getLast?_concat] at h'
            exact (Option.some.inj h').symm
        rw [hmid] at h1 h2
        have hc1 : 0 ≤ c1 := by
          by_contra hlt
          exact hneg ⟨s, c1, (l2 ++ [s]).length, ⟨0, 0, CWalk.nil s⟩,
            cwalk_of_twalk h1, by simp, by omega⟩
        have hlen3 : l3.length ≤ n := by
          simp at hlen
          omega
        obtain ⟨c', tr', h', hlen', hle'⟩ := ih hlen3 h2
        exact ⟨c', tr', h', hlen', by omega⟩
      | cons a l1' =>
        rw [List.cons_append] at hsplit
        injection hsplit with ha htr
        subst htr
        have htw' : TWalk g s v c ((l1' ++ [x]) ++ (l2 ++ x :: l3)) := by
          simpa using htw
        obtain ⟨mid, c1, crest, h1, hrest, hc⟩ := twalk_split (l1' ++ [x]) htw'
        have hmid : mid = x := by
          rcases twalk_getLast h1 with h' | h'
          · simp at h'
          · rw [List.getLast?_concat] at h'
            exact (Option.some.inj h').symm
        rw [hmid] at h1 hrest
        have hrest' : TWalk g x v crest ((l2 ++ [x]) ++ l3) := by
          simpa using hrest
        obtain ⟨mid2, c2, c3, h2, h3, hcrest⟩ := twalk_split (l2 ++ [x]) hrest'
        have hmid2 : mid2 = x := by
          rcases twalk_getLast h2 with h' | h'
          · simp at h'
          · rw [List.getLast?_concat] at h'
            exact (Option.some.inj h').symm
        rw [hmid2] at h2 h3
        have hc2 : 0 ≤ c2 := by
          by_contra hlt
          refine hneg ⟨x, c2, (l2 ++ [x]).length, ?_, cwalk_of_twalk h2, by simp, by omega⟩
          exact ⟨c1, (l1' ++ [x]).length, cwalk_of_twalk h1⟩
        have hjoin : TWalk g s v (c1 + c3) ((l1' ++ [x]) ++ l3) := twalk_append h1 h3
        have hlenj : ((l1' ++ [x]) ++ l3).length ≤ n := by
          simp at hlen ⊢
          omega
        obtain ⟨c', tr', h', hlen', hle'⟩ := ih hlenj hjoin
        exact ⟨c', tr', h', hlen', by omega⟩

theorem cwalk_shorten {g : Graph} {s v : String} {c : Int} {k : Nat}
    (hwf : WellFormed g) (hs : s ∈ nodeIds g) (hneg : ¬ NegCycleFrom g s)
    (h : CWalk g s v c k) :
    ∃ c' k', CWalk g s v c' k' ∧ k' + 1 ≤ g.nodes.length ∧ c' ≤ c := by
  obtain ⟨tr, hlen, htw⟩ := twalk_of_cwalk h
  obtain ⟨c', tr', h', hlen', hle'⟩ := twalk_cut hwf hs hneg tr.length (le_refl _) htw
  exact ⟨c', tr'.length, cwalk_of_twalk h', hlen', hle'⟩

theorem awb_of_passbound {g : Graph} {s : String} {d : DMap}
    (hwf : WellFormed g) (hs : s ∈ nodeIds g) (hneg : ¬ NegCycleFrom g s)
    (hpb : PassBound g s d (g.nodes.length - 1)) : AllWalkBound g s d := by
  intro v c k h
  obtain ⟨c', k', h', hlen', hle'⟩ := cwalk_shorten hwf hs hneg h
  have hb := hpb v c' k' (by omega) h'
  exact jle_trans hb (jle_some_iff.mpr hle')

/-! ## Stability implies walk bounds and excludes negative cycles -/

theorem stable_rel_bound {g : Graph} {d : DMap} (hst : Stable g d) {a b : String}
    {c : Int} {k : Nat} (h : CWalk g a b c k) :
    jle (dget d b) (jadd (dget d a) c) = true := by
  induction h with
  | nil v => rw [jadd_zero]; exact jle_refl _
  | cons ha hw ih =>
    rename_i u v t w c' k
    have h1 := hst u v w ha
    have h2 := jadd_mono c' h1
    rw [jadd_jadd] at h2
    exact jle_trans ih h2

theorem stable_awb {g : Graph} {s : String} {d : DMap} (hst : Stable g d)
    (hs0 : jle (dget d s) (some 0) = true) : AllWalkBound g s d := by
  intro v c k h
  have hb := stable_rel_bound hst h
  obtain ⟨i, hi, hle⟩ := jle_fin_of_le hs0
  rw [hi] at hb
  rw [jadd_some] at hb
  exact jle_trans hb (jle_some_iff.mpr (by omega))

theorem stable_no_negcycle {g : Graph} {s : String} {d : DMap} (hst : Stable g d)
    (hs0 : jle (dget d s) (some 0) = true) : ¬ NegCycleFrom g s := by
  rintro ⟨x, c, k, ⟨cx, kx, hwx⟩, hcyc, hk, hcneg⟩
  have hfin := stable_awb hst hs0 x cx kx hwx
  obtain ⟨i, hi, _⟩ := jle_fin_of_le hfin
  have hb := stable_rel_bound hst hcyc
  rw [hi, jadd_some] at hb
  have := jle_some_iff.mp hb
  omega

/-! ## Parent-pointer paths -/

theorem ppath_head {p : PMap} {g : Graph} {a b : String} {c : Int} {T : List String}
    (h : PPath p g a b c T) : T.head? = some a := by
  cases h <;> rfl

theorem ppath_key {p : PMap} {g : Graph} {a b : String} {c : Int} {T : List String}
    (h : PPath p g a b c T) : mhas p a = true := by
  cases h with
  | single hf _ => exact mhas_of_mfind? hf
  | cons hf _ _ => exact mhas_of_mfind? hf

theorem ppath_append {p : PMap} {g : Graph} {a b e : String} {c1 c2 : Int}
    {T1 T2 : List String} (h1 : PPath p g a b c1 T1) (h2 : PPath p g b e c2 T2) :
    PPath p g a e (c1 + c2) (T1 ++ T2) := by
  induction h1 generalizing e c2 T2 with
  | single hf hw => exact PPath.cons hf hw h2
  | cons hf hw _ ih =>
    have := PPath.cons hf hw (ih h2)
    simpa [Int.add_assoc] using this

theorem ppath_mset_out {p : PMap} {g : Graph} {k : String} {pv : Option String}
    {a b : String} {c : Int} {T : List String}
    (h : PPath (mset p k pv) g a b c T) (hk : k ∉ T) : PPath p g a b c T := by
  induction h with
  | @single a0 b0 w0 hf hw =>
    have hne : a0 ≠ k := fun he => hk (List.mem_singleton.mpr he.symm)
    rw [mfind?_mset_ne _ _ hne] at hf
    exact PPath.single hf hw
  | @cons a0 u0 b0 w0 c0 T0 hf hw hsub ih =>
    have hne : a0 ≠ k := fun he => hk (List.mem_cons.mpr (Or.inl he.symm))
    rw [mfind?_mset_ne _ _ hne] at hf
    exact PPath.cons hf hw (ih (fun hm => hk (List.mem_cons_of_mem _ hm)))

theorem ppath_split {p : PMap} {g : Graph} {v : String} {a b : String} {c : Int}
    {T : List String} (h : PPath p g a b c T) (hv : v ∈ T) :
    v = a ∨ ∃ c1 c2 T1 T2, PPath p g a v c1 T1 ∧ PPath p g v b c2 T2 ∧
      c = c1 + c2 ∧ T = T1 ++ T2 ∧ T2.length < T.length := by
  induction h with
  | @single a0 b0 w0 hf hw =>
    have hva : v = a0 := by simpa using hv
    exact Or.inl hva
  | @cons a0 u0 b0 w0 c0 T0 hf hw hsub ih =>
    rcases List.mem_cons.mp hv with rfl | hv'
    · exact Or.inl rfl
    · right
      rcases ih hv' with rfl | ⟨c1, c2, T1, T2, h1, h2, hc, hT, hlen⟩
      · refine ⟨w0, c0, [a0], T0, PPath.single hf hw, hsub, rfl, rfl, ?_⟩
        simp only [List.length_cons]
        omega
      · refine ⟨w0 + c1, c2, a0 :: T1, T2, PPath.cons hf hw h1, h2, ?_, ?_, ?_⟩
        · rw [hc]; ring
        · rw [hT]; rfl
        · simp only [List.length_cons]; omega

theorem ppath_stable {g : Graph} {d : DMap} {p : PMap} (hst : Stable g d)
    {a b : String} {c : Int} {T : List String} (h : PPath p g a b c T) :
    jle (dget d a) (jadd (dget d b) c) = true := by
  induction h with
  | single hf hw => exact hst _ _ _ hw
  | @cons a0 u0 b0 w0 c0 T0 hf hw _ ih =>
    have h1 := hst _ _ _ hw
    have h2 := jadd_mono w0 ih
    rw [jadd_jadd] at h2
    have h3 := jle_trans h1 h2
    rw [show c0 + w0 = w0 + c0 by ring] at h3
    exact h3

theorem ppath_bfp {g : Graph} (hwf : WellFormed g) {d : DMap} {p : PMap}
    (hbfp : ∀ v u, mfind? p v = some (some u) →
      ∃ w, wadjOn g u v w ∧ jle (jadd (dget d u) w) (dget d v) = true)
    {a b : String} {c : Int} {T : List String} (h : PPath p g a b c T) :
    jle (jadd (dget d b) c) (dget d a) = true := by
  induction h with
  | @single a0 b0 w0 hf hw =>
    obtain ⟨w', hw', hle⟩ := hbfp _ _ hf
    rwa [wadjOn_unique hwf hw hw']
  | @cons a0 u0 b0 w0 c0 T0 hf hw _ ih =>
    obtain ⟨w', hw', hle⟩ := hbfp _ _ hf
    have hww : w0 = w' := wadjOn_unique hwf hw hw'
    rw [← hww] at hle
    have h2 := jadd_mono w0 ih
    rw [jadd_jadd, show c0 + w0 = w0 + c0 by ring] at h2
    exact jle_trans h2 hle

/-- With every parent closed before its child (in the duplicate-free list
`vis`), the parent graph has no cycles. -/
theorem pord_nocyc {g : Graph} {p : PMap} {vis : List String}
    (hord : ∀ v u, mfind? p v = some (some u) →
      u ∈ vis ∧ (v ∈ vis → vis.indexOf u < vis.indexOf v)) :
    ∀ v c T, ¬ PPath p g v v c T := by
  have key : ∀ {a b : String} {c : Int} {T : List String}, PPath p g a b c T →
      b ∈ vis ∧ (a ∈ vis → vis.indexOf b < vis.indexOf a) := by
    intro a b c T h
    induction h with
    | single hf _ => exact hord _ _ hf
    | cons hf _ _ ih =>
      obtain ⟨hu, hlt⟩ := hord _ _ hf
      exact ⟨ih.1, fun ha => Nat.lt_trans (ih.2 hu) (hlt ha)⟩
  intro v c T h
  obtain ⟨hv, hlt⟩ := key h
  exact Nat.lt_irrefl _ (hlt hv)

/-- The generic chain builder: an acyclic parent map whose only `null`
binding is the root and whose links point at bound nodes has a full chain to
the root for every bound node. -/
theorem chain_exists {g : Graph} {p : PMap} {s : String}
    (hroot : mfind? p s = some none)
    (hnone : ∀ v, mfind? p v = some none → v = s)
    (hvals : ∀ v u, mfind? p v = some (some u) →
      mhas p u = true ∧ u ≠ "" ∧ ∃ w, wadjOn g u v w)
    (hnocyc : ∀ v c T, ¬ PPath p g v v c T) :
    ∀ v, mhas p v = true → ∃ l, PChain p s v l := by
  have aux : ∀ (fuel : Nat) (v : String) (seen : List String),
      p.length + 1 ≤ fuel + seen.length → seen.Nodup →
      (∀ x ∈ seen, mhas p x = true) →
      (∀ x ∈ seen, ∃ c T, PPath p g x v c T) →
      mhas p v = true → ∃ l, PChain p s v l := by
    intro fuel
    induction fuel with
    | zero =>
      intro v seen hcount hnd hkeys _ _
      exfalso
      have hsub : seen ⊆ p.map Prod.fst := by
        intro x hx
        obtain ⟨w, hw⟩ := (mhas_iff_exists p x).mp (hkeys x hx)
        exact keys_of_mfind? hw
      have := List.Subperm.length_le (List.subperm_of_subset hnd hsub)
      simp only [List.length_map] at this
      omega
    | succ fuel ih =>
      intro v seen hcount hnd hkeys hpaths hv
      obtain ⟨val, hval⟩ := (mhas_iff_exists p v).mp hv
      cases val with
      | none =>
        have hvs := hnone v hval
        subst hvs
        exact ⟨[v], PChain.root hval⟩
      | some u =>
        obtain ⟨hu, hune, w, hw⟩ := hvals v u hval
        have hvs : v ≠ s := by
          intro he
          rw [he, hroot] at hval
          exact absurd (Option.some.inj hval) (by simp)
        have hvseen : v ∉ seen := by
          intro hmem
          obtain ⟨c, T, hp⟩ := hpaths v hmem
          exact hnocyc v c T hp
        obtain ⟨l, hl⟩ := ih u (v :: seen)
          (by simp only [List.length_cons]; omega)
          (List.nodup_cons.mpr ⟨hvseen, hnd⟩)
          (by
            intro x hx
            rcases List.mem_cons.mp hx with rfl | hx
            · exact hv
            · exact hkeys x hx)
          (by
            intro x hx
            rcases List.mem_cons.mp hx with rfl | hx
            · exact ⟨w, [x], PPath.single hval hw⟩
            · obtain ⟨c, T, hp⟩ := hpaths x hx
              exact ⟨c + w, T ++ [v], ppath_append hp (PPath.single hval hw)⟩)
          hu
        exact ⟨l ++ [v], PChain.step hval hvs hune hl⟩
  intro v hv
  exact aux (p.length + 1) v [] (by simp) List.nodup_nil
    (by intro x hx; simp at hx) (by intro x hx; simp at hx) hv

/-! ## Counting and stack helpers for the DFS and A* termination arguments -/

theorem unvisited_mono {g : Graph} {vis vis' : JSet} (h : ∀ x ∈ vis, x ∈ vis') :
    unvisited g vis' ≤ unvisited g vis := by
  apply length_filter_mono
  intro n hn
  simp only [Bool.not_eq_true', ← Bool.not_eq_true] at hn ⊢
  intro hmem
  exact hn (shas_iff_mem.mpr (h n.id (shas_iff_mem.mp hmem)))

theorem unvisited_sadd_lt {g : Graph} {vis : JSet} {v : String}
    (hv : v ∈ nodeIds g) (hnv : v ∉ vis) :
    unvisited g (sadd vis v) < unvisited g vis := by
  obtain ⟨n, hn, hid⟩ := List.mem_map.mp hv
  refine length_filter_lt ?_ hn ?_ ?_
  · intro x hx
    simp only [Bool.not_eq_true', ← Bool.not_eq_true] at hx ⊢
    intro hmem
    exact hx (shas_iff_mem.mpr (sadd_subset (shas_iff_mem.mp hmem)))
  · simp only [Bool.not_eq_true']
    rw [← Bool.not_eq_true]
    intro hmem
    exact hnv (hid ▸ shas_iff_mem.mp hmem)
  · have hmem : shas (sadd vis v) n.id = true :=
      shas_iff_mem.mpr (by rw [hid]; exact mem_sadd_self)
    simp [hmem]

theorem unvisited_pos {g : Graph} {vis : JSet} {v : String}
    (hv : v ∈ nodeIds g) (hnv : v ∉ vis) : 1 ≤ unvisited g vis := by
  have := unvisited_sadd_lt hv hnv
  omega

theorem stackParent_append {l : List String} {v : String} :
    stackParent (l ++ [v]) = l.getLast? := by
  unfold stackParent
  rw [List.reverse_append]
  simp [List.head?_reverse]

theorem sdel_append_self {l : JSet} {x : String} (h : x ∉ l) :
    sdel (l ++ [x]) x = l := by
  unfold sdel
  rw [List.filter_append]
  have h1 : l.filter (fun y => y != x) = l := by
    apply List.filter_eq_self.mpr
    intro a ha
    simp only [bne_iff_ne, ne_eq]
    intro he
    exact h (he ▸ ha)
  have h2 : [x].filter (fun y => y != x) = [] := by simp
  rw [h1, h2, List.append_nil]

theorem getNeighbors_node_mem {g : Graph} {u : String} {node : Node} {e : Edge} {w : Int}
    (h : (node, e, w) ∈ getNeighbors g u) : node ∈ g.nodes :=
  (getNodeById_sound (getNeighbors_sound h).2.1).2

theorem backEdgeEvent_not_explore {g : Graph} {stp : AlgorithmStep}
    (h : stp.type ≠ StepType.explore) : ¬ backEdgeEvent g stp :=
  fun hev => h hev.1

theorem backEdgeEvent_explore_iff {g : Graph} {nid eid m : String} {vis stk : List String} :
    backEdgeEvent g
      { type := .explore, nodeId := some nid, edgeId := some eid, message := m,
        visited := some vis, stack := some stk } ↔
      (nid ∈ vis ∧ nid ∈ stk ∧ (g.isDirected = true ∨ some nid ≠ stackParent stk)) := by
  unfold backEdgeEvent
  constructor
  · rintro ⟨_, v', stk', vis', hn, hs, hv, hmem, hstk, hor⟩
    have hv' : nid = v' := by simpa using hn
    have hstk' : stk = stk' := by simpa using hs
    have hvis' : vis = vis' := by simpa using hv
    subst hv'
    subst hstk'
    subst hvis'
    exact ⟨hmem, hstk, hor⟩
  · rintro ⟨hmem, hstk, hor⟩
    exact ⟨rfl, nid, stk, vis, rfl, rfl, rfl, hmem, hstk, hor⟩

/-! ## DFS equation lemmas -/

theorem dfsRec_endhit {g : Graph} {endId? : Option String} {dc : Bool} {fuel : Nat}
    {v : String} {parent : Option String} {st : DfsSt} {path : List String}
    (hend : isEndHit endId? v = true)
    (hrp : reconstructPath (mset st.parents v parent) v = some path) :
    dfsRec g endId? dc (fuel + 1) v parent st = some
      ({ steps := (st.steps ++
            [{ type := .visit, nodeId := some v,
               message := "Visiting node " ++ optLabel (getNodeById g v),
               visited := some (sadd st.visited v), stack := some (sadd st.recStack v) }]) ++
            [{ type := .complete,
               message := "Found target node " ++ optLabel (getNodeById g v) ++
                 "! Path length: " ++ toString (path.length - 1),
               currentPath := some path, visited := some (sadd st.visited v) }],
         visited := sadd st.visited v, recStack := sadd st.recStack v,
         parents := mset st.parents v parent, hasCycle := st.hasCycle,
         foundEnd := true }, true) := by
  simp [dfsRec, hend, hrp]

theorem dfsRec_go {g : Graph} {endId? : Option String} {dc : Bool} {fuel : Nat}
    {v : String} {parent : Option String} {st : DfsSt}
    (hend : isEndHit endId? v = false) :
    dfsRec g endId? dc (fuel + 1) v parent st =
      match dfsNeighbors g endId? dc fuel v parent (getNeighbors g v)
        { steps := st.steps ++
            [{ type := .visit, nodeId := some v,
               message := "Visiting node " ++ optLabel (getNodeById g v),
               visited := some (sadd st.visited v), stack := some (sadd st.recStack v) }],
          visited := sadd st.visited v, recStack := sadd st.recStack v,
          parents := mset st.parents v parent, hasCycle := st.hasCycle,
          foundEnd := st.foundEnd } with
      | none => none
      | some (st', true) => some (st', true)
      | some (st', false) => some ({ st' with recStack := sdel st'.recStack v }, false) := by
  simp [dfsRec, hend]

theorem dfsNeighbors_nil {g : Graph} {endId? : Option String} {dc : Bool} {fuel : Nat}
    {nodeId : String} {parentId : Option String} {st : DfsSt} :
    dfsNeighbors g endId? dc (fuel + 1) nodeId parentId [] st = some (st, false) := rfl

theorem dfsNeighbors_cons_rec {g : Graph} {endId? : Option String} {dc : Bool} {fuel : Nat}
    {nodeId : String} {parentId : Option String} {st : DfsSt}
    {neighbor : Node} {edge : Edge} {w : Int} {rest : List (Node × Edge × Int)}
    (hvis : shas st.visited neighbor.id = false) :
    dfsNeighbors g endId? dc (fuel + 1) nodeId parentId ((neighbor, edge, w) :: rest) st =
      match dfsRec g endId? dc fuel neighbor.id (some nodeId)
        { st with steps := st.steps ++
            [{ type := .explore, nodeId := some neighbor.id, edgeId := some edge.id,
               message := "Exploring edge to " ++ neighbor.label,
               visited := some st.visited, stack := some st.recStack }] } with
      | none => none
      | some (st', true) => some (st', true)
      | some (st', false) => dfsNeighbors g endId? dc fuel nodeId parentId rest st' := by
  simp [dfsNeighbors, hvis]

theorem dfsNeighbors_cons_cyc {g : Graph} {endId? : Option String} {fuel : Nat}
    {nodeId : String} {parentId : Option String} {st : DfsSt}
    {neighbor : Node} {edge : Edge} {w : Int} {rest : List (Node × Edge × Int)}
    (hvis : shas st.visited neighbor.id = true)
    (hcyc : (shas st.recStack neighbor.id &&
      (g.isDirected || !(some neighbor.id == parentId))) = true) :
    dfsNeighbors g endId? true (fuel + 1) nodeId parentId ((neighbor, edge, w) :: rest) st =
      dfsNeighbors g endId? true fuel nodeId parentId rest
        { st with hasCycle := true, steps := (st.steps ++
            [{ type := .explore, nodeId := some neighbor.id, edgeId := some edge.id,
               message := "Exploring edge to " ++ neighbor.label,
               visited := some st.visited, stack := some st.recStack }]) ++
            [{ type := .cycleDetected, nodeId := some neighbor.id, edgeId := some edge.id,
               message := "Cycle detected! Back edge to " ++ neighbor.label,
               visited := some st.visited }] } := by
  rw [Bool.and_eq_true] at hcyc
  simp [dfsNeighbors, hvis, hcyc.1, hcyc.2]

theorem dfsNeighbors_cons_skip {g : Graph} {endId? : Option String} {fuel : Nat}
    {nodeId : String} {parentId : Option String} {st : DfsSt}
    {neighbor : Node} {edge : Edge} {w : Int} {rest : List (Node × Edge × Int)}
    (hvis : shas st.visited neighbor.id = true)
    (hcyc : (shas st.recStack neighbor.id &&
      (g.isDirected || !(some neighbor.id == parentId))) = false) :
    dfsNeighbors g endId? true (fuel + 1) nodeId parentId ((neighbor, edge, w) :: rest) st =
      dfsNeighbors g endId? true fuel nodeId parentId rest
        { st with steps := st.steps ++
            [{ type := .explore, nodeId := some neighbor.id, edgeId := some edge.id,
               message := "Exploring edge to " ++ neighbor.label,
               visited := some st.visited, stack := some st.recStack }] } := by
  rcases Bool.and_eq_false_iff.mp hcyc with h | h
  · simp [dfsNeighbors, hvis, h]
  · simp [dfsNeighbors, hvis, h]

/-! ## DfsOut building blocks -/

theorem dfsout_refl {g : Graph} {s : String} {st : DfsSt}
    (hinv : DfsInv s st) (hsvis : s ∈ st.visited) : DfsOut g s st st false := by
  refine
    { inv := hinv, visMono := fun x hx => hx, sVis := hsvis,
      keysMono := fun k hk => hk, unvisLe := le_refl _,
      trace := ⟨[], by simp, ?_, ?_⟩,
      cycMono := fun h => h, foundEq := by simp,
      lastDone := by intro h; simp at h, stackEq := fun _ => rfl }
  · intro stp hstp
    simp at hstp
  · intro h
    exact Or.inl h

theorem dfsout_trans {g : Graph} {s : String} {st1 st2 st3 : DfsSt} {b : Bool}
    (h12 : DfsOut g s st1 st2 false) (h23 : DfsOut g s st2 st3 b) :
    DfsOut g s st1 st3 b := by
  obtain ⟨t12, ht12, hev12, hcy12⟩ := h12.trace
  obtain ⟨t23, ht23, hev23, hcy23⟩ := h23.trace
  refine
    { inv := h23.inv, visMono := fun x hx => h23.visMono x (h12.visMono x hx),
      sVis := h23.sVis, keysMono := fun k hk => h23.keysMono k (h12.keysMono k hk),
      unvisLe := le_trans h23.unvisLe h12.unvisLe,
      trace := ⟨t12 ++ t23, by rw [ht23, ht12, List.append_assoc], ?_, ?_⟩,
      cycMono := fun h => h23.cycMono (h12.cycMono h),
      foundEq := by rw [h23.foundEq, h12.foundEq]; simp,
      lastDone := h23.lastDone,
      stackEq := ?_ }
  · intro stp hstp hev
    rcases List.mem_append.mp hstp with hm | hm
    · exact h23.cycMono (hev12 stp hm hev)
    · exact hev23 stp hm hev
  · intro h
    rcases hcy23 h with h2 | ⟨stp, hm, hev⟩
    · rcases hcy12 h2 with h1 | ⟨stp, hm, hev⟩
      · exact Or.inl h1
      · exact Or.inr ⟨stp, List.mem_append.mpr (Or.inl hm), hev⟩
    · exact Or.inr ⟨stp, List.mem_append.mpr (Or.inr hm), hev⟩
  · intro hb
    rw [h23.stackEq hb, h12.stackEq rfl]

theorem dfsout_step {g : Graph} {s : String} {st : DfsSt} {stp : AlgorithmStep}
    (hinv : DfsInv s st) (hsvis : s ∈ st.visited) (hnoev : ¬ backEdgeEvent g stp) :
    DfsOut g s st { st with steps := st.steps ++ [stp] } false := by
  refine
    { inv := ⟨hinv.chains, hinv.keysVis, hinv.stackVis⟩,
      visMono := fun x hx => hx, sVis := hsvis,
      keysMono := fun k hk => hk, unvisLe := le_refl _,
      trace := ⟨[stp], rfl, ?_, fun h => Or.inl h⟩,
      cycMono := fun h => h, foundEq := by simp,
      lastDone := by intro h; simp at h, stackEq := fun _ => rfl }
  intro stp' hstp' hev
  rw [List.mem_singleton.mp hstp'] at hev
  exact absurd hev hnoev

theorem dfsout_cyc2 {g : Graph} {s : String} {st : DfsSt} {stp1 stp2 : AlgorithmStep}
    (hinv : DfsInv s st) (hsvis : s ∈ st.visited) (hev : backEdgeEvent g stp1) :
    DfsOut g s st
      { st with hasCycle := true, steps := (st.steps ++ [stp1]) ++ [stp2] } false := by
  refine
    { inv := ⟨hinv.chains, hinv.keysVis, hinv.stackVis⟩,
      visMono := fun x hx => hx, sVis := hsvis,
      keysMono := fun k hk => hk, unvisLe := le_refl _,
      trace := ⟨[stp1, stp2], by simp, fun _ _ _ => rfl, ?_⟩,
      cycMono := fun _ => rfl, foundEq := by simp,
      lastDone := by intro h; simp at h, stackEq := fun _ => rfl }
  intro _
  exact Or.inr ⟨stp1, by simp, hev⟩

theorem mset_fixed {α : Type} (s : String) (v : α) : mset [(s, v)] s v = [(s, v)] := by
  simp [mset, List.find?]

theorem sdel_subset {l : JSet} {x y : String} (h : y ∈ sdel l x) : y ∈ l :=
  List.mem_of_mem_filter h

/-! ## Visit-transition composition for the DFS recursion -/

theorem dfsout_after_visit_true {g : Graph} {s v : String} {parent : Option String}
    {st st2 : DfsSt} {vs : AlgorithmStep} (hvstype : vs.type ≠ StepType.explore)
    (hout2 : DfsOut g s
      { steps := st.steps ++ [vs], visited := sadd st.visited v,
        recStack := sadd st.recStack v, parents := mset st.parents v parent,
        hasCycle := st.hasCycle, foundEnd := st.foundEnd } st2 true) :
    DfsOut g s st st2 true := by
  obtain ⟨t2, ht2, hev2, hcy2⟩ := hout2.trace
  refine
    { inv := hout2.inv,
      visMono := fun x hx => hout2.visMono x (mem_sadd.mpr (Or.inl hx)),
      sVis := hout2.sVis,
      keysMono := fun k hk => hout2.keysMono k (mhas_mset_mono v parent hk),
      unvisLe := le_trans hout2.unvisLe (unvisited_mono (fun x hx => mem_sadd.mpr (Or.inl hx))),
      trace := ⟨vs :: t2, by rw [ht2]; simp, ?_, ?_⟩,
      cycMono := fun h => hout2.cycMono h,
      foundEq := hout2.foundEq,
      lastDone := hout2.lastDone,
      stackEq := fun h => by simp at h }
  · intro stp hstp hev
    rcases List.mem_cons.mp hstp with rfl | hstp
    · exact absurd hev (backEdgeEvent_not_explore hvstype)
    · exact hev2 stp hstp hev
  · intro h
    rcases hcy2 h with h1 | ⟨stp, hm, hev⟩
    · exact Or.inl h1
    · exact Or.inr ⟨stp, List.mem_cons_of_mem _ hm, hev⟩

theorem dfsout_after_visit_false {g : Graph} {s v : String} {parent : Option String}
    {st st2 : DfsSt} {vs : AlgorithmStep} (hvstype : vs.type ≠ StepType.explore)
    (hvstk : v ∉ st.recStack)
    (hout2 : DfsOut g s
      { steps := st.steps ++ [vs], visited := sadd st.visited v,
        recStack := sadd st.recStack v, parents := mset st.parents v parent,
        hasCycle := st.hasCycle, foundEnd := st.foundEnd } st2 false) :
    DfsOut g s st { st2 with recStack := sdel st2.recStack v } false := by
  obtain ⟨t2, ht2, hev2, hcy2⟩ := hout2.trace
  refine
    { inv := ⟨hout2.inv.chains, hout2.inv.keysVis,
        fun x hx => hout2.inv.stackVis x (sdel_subset hx)⟩,
      visMono := fun x hx => hout2.visMono x (mem_sadd.mpr (Or.inl hx)),
      sVis := hout2.sVis,
      keysMono := fun k hk => hout2.keysMono k (mhas_mset_mono v parent hk),
      unvisLe := le_trans hout2.unvisLe (unvisited_mono (fun x hx => mem_sadd.mpr (Or.inl hx))),
      trace := ⟨vs :: t2, by rw [show ({ st2 with recStack := sdel st2.recStack v } : DfsSt).steps = st2.steps from rfl, ht2]; simp, ?_, ?_⟩,
      cycMono := fun h => hout2.cycMono h,
      foundEq := by have h := hout2.foundEq; simpa using h,
      lastDone := fun h => by simp at h,
      stackEq := ?_ }
  · intro stp hstp hev
    rcases List.mem_cons.mp hstp with rfl | hstp
    · exact absurd hev (backEdgeEvent_not_explore hvstype)
    · exact hev2 stp hstp hev
  · intro h
    rcases hcy2 h with h1 | ⟨stp, hm, hev⟩
    · exact Or.inl h1
    · exact Or.inr ⟨stp, List.mem_cons_of_mem _ hm, hev⟩
  · intro _
    show sdel st2.recStack v = st.recStack
    rw [hout2.stackEq rfl]
    show sdel (sadd st.recStack v) v = st.recStack
    rw [sadd_of_not_mem hvstk]
    exact sdel_append_self hvstk

/-! ## The DFS master lemma: fuel sufficiency, trace and flag characterisation -/

theorem dfs_master {g : Graph} {s : String} (endId? : Option String) (hwf : WellFormed g) :
    ∀ fuel : Nat,
    (∀ v parent st, DfsInv s st →
      v ∈ nodeIds g → v ∉ st.visited →
      st.recStack.getLast? = parent →
      ((v = s ∧ parent = none ∧ st.parents = [(s, none)]) ∨
       (∃ u, parent = some u ∧ u ∈ st.visited ∧ mhas st.parents u = true ∧
         u ∈ nodeIds g ∧ s ∈ st.visited)) →
      unvisited g st.visited * (g.edges.length + 2) ≤ fuel →
      ∃ st' b, dfsRec g endId? true fuel v parent st = some (st', b) ∧
        DfsOut g s st st' b ∧ v ∈ st'.visited ∧
        unvisited g st'.visited < unvisited g st.visited) ∧
    (∀ (l : List (Node × Edge × Int)) nodeId parentId st, DfsInv s st →
      (∀ x ∈ l, x.1 ∈ g.nodes) →
      nodeId ∈ nodeIds g → nodeId ∈ st.visited → mhas st.parents nodeId = true →
      s ∈ st.visited →
      st.recStack.getLast? = some nodeId →
      stackParent st.recStack = parentId →
      l.length + 1 + unvisited g st.visited * (g.edges.length + 2) ≤ fuel →
      ∃ st' b, dfsNeighbors g endId? true fuel nodeId parentId l st = some (st', b) ∧
        DfsOut g s st st' b) := by
  intro fuel
  induction fuel with
  | zero =>
    constructor
    · intro v parent st _ hvid hvnv _ _ hfuel
      exfalso
      have h1 := unvisited_pos hvid hvnv
      have h2 : 1 * (g.edges.length + 2) ≤ unvisited g st.visited * (g.edges.length + 2) :=
        Nat.mul_le_mul_right _ h1
      omega
    · intro l nodeId parentId st _ _ _ _ _ _ _ _ hfuel
      exfalso
      omega
  | succ fuel ih =>
    obtain ⟨ihP, ihQ⟩ := ih
    constructor
    · -- dfsRec
      intro v parent st hinv hvid hvnv hstack hcase hfuel
      have hvne : v ≠ "" := by
        obtain ⟨n, hn, hid⟩ := List.mem_map.mp hvid
        exact hid ▸ hwf.2.2 n hn
      have hvstk : v ∉ st.recStack := fun hm => hvnv (hinv.stackVis v hm)
      have hchains1 : ∀ k, mhas (mset st.parents v parent) k = true →
          ∃ lk, PChain (mset st.parents v parent) s k lk := by
        rcases hcase with ⟨hveq, hpeq, hps⟩ | ⟨u, hpeq, huvis, hukey, huid, hsvis⟩
        · have hpsame : mset st.parents v parent = st.parents := by
            rw [hps, hveq, hpeq]
            exact mset_fixed s none
          rw [hpsame]
          exact hinv.chains
        · have hvs : v ≠ s := fun he => hvnv (he ▸ hsvis)
          have hkv : mhas st.parents v = false := by
            cases hk : mhas st.parents v
            · rfl
            · rcases hinv.keysVis v hk with hmem | heq
              · exact absurd hmem hvnv
              · exact absurd heq hvs
          intro k hk
          rw [mhas_mset] at hk
          rcases Bool.or_eq_true_iff.mp hk with hk | hk
          · have hkv' : k = v := by simpa using hk
            obtain ⟨lu, hlu⟩ := hinv.chains u hukey
            have hlu' := pchain_extend parent hlu hkv
            have hune : u ≠ "" := by
              obtain ⟨n, hn, hid⟩ := List.mem_map.mp huid
              exact hid ▸ hwf.2.2 n hn
            have hfv : mfind? (mset st.parents v parent) v = some (some u) := by
              rw [mfind?_mset_self, hpeq]
            rw [hkv']
            exact ⟨lu ++ [v], PChain.step hfv hvs hune hlu'⟩
          · obtain ⟨lk, hlk⟩ := hinv.chains k hk
            exact ⟨lk, pchain_extend parent hlk hkv⟩
      have hsvis1 : s ∈ sadd st.visited v := by
        rcases hcase with ⟨hveq, _, _⟩ | ⟨u, _, _, _, _, hsvis⟩
        · rw [← hveq]; exact mem_sadd_self
        · exact mem_sadd.mpr (Or.inl hsvis)
      have hkeys1 : ∀ k, mhas (mset st.parents v parent) k = true →
          k ∈ sadd st.visited v ∨ k = s := by
        intro k hk
        rw [mhas_mset] at hk
        rcases Bool.or_eq_true_iff.mp hk with hk | hk
        · have hkv' : k = v := by simpa using hk
          exact Or.inl (hkv' ▸ mem_sadd_self)
        · rcases hinv.keysVis k hk with hmem | heq
          · exact Or.inl (mem_sadd.mpr (Or.inl hmem))
          · exact Or.inr heq
      have hstk1 : ∀ x ∈ sadd st.recStack v, x ∈ sadd st.visited v := by
        intro x hx
        rcases mem_sadd.mp hx with hx | hx
        · exact mem_sadd.mpr (Or.inl (hinv.stackVis x hx))
        · exact mem_sadd.mpr (Or.inr hx)
      have hvkey1 : mhas (mset st.parents v parent) v = true := by
        rw [mhas_mset]; simp
      have hltvis : unvisited g (sadd st.visited v) < unvisited g st.visited :=
        unvisited_sadd_lt hvid hvnv
      cases hend : isEndHit endId? v
      case true =>
        obtain ⟨lv, hlv⟩ := hchains1 v hvkey1
        have hrp := reconstructPath_eq hlv
        refine ⟨_, true, dfsRec_endhit hend hrp, ?_, mem_sadd_self, hltvis⟩
        refine
          { inv := ⟨hchains1, hkeys1, hstk1⟩,
            visMono := fun x hx => mem_sadd.mpr (Or.inl hx),
            sVis := hsvis1,
            keysMono := fun k hk => mhas_mset_mono v parent hk,
            unvisLe := le_of_lt hltvis,
            trace := ⟨_, by rw [List.append_assoc], ?_, fun h => Or.inl h⟩,
            cycMono := fun h => h,
            foundEq := by simp,
            lastDone := fun _ => ⟨_, _, rfl, rfl⟩,
            stackEq := fun h => by simp at h }
        intro stp hstp hev
        rcases List.mem_cons.mp hstp with rfl | hstp
        · exact absurd hev (backEdgeEvent_not_explore (by simp))
        · rw [List.mem_singleton.mp hstp] at hev
          exact absurd hev (backEdgeEvent_not_explore (by simp))
      case false =>
        rw [dfsRec_go hend]
        have hv1 : v ∈ sadd st.visited v := mem_sadd_self
        have hrs1 : sadd st.recStack v = st.recStack ++ [v] := sadd_of_not_mem hvstk
        obtain ⟨st2, b2, heq2, hout2⟩ := ihQ (getNeighbors g v) v parent
          { steps := st.steps ++
              [{ type := .visit, nodeId := some v,
                 message := "Visiting node " ++ optLabel (getNodeById g v),
                 visited := some (sadd st.visited v), stack := some (sadd st.recStack v) }],
            visited := sadd st.visited v, recStack := sadd st.recStack v,
            parents := mset st.parents v parent, hasCycle := st.hasCycle,
            foundEnd := st.foundEnd }
          ⟨hchains1, hkeys1, hstk1⟩
          (fun x hx => by
            obtain ⟨nd, e0, w0⟩ := x
            exact getNeighbors_node_mem hx)
          hvid hv1 hvkey1 hsvis1
          (by
            show (sadd st.recStack v).getLast? = some v
            rw [hrs1, List.getLast?_concat])
          (by
            show stackParent (sadd st.recStack v) = parent
            rw [hrs1, stackParent_append]
            exact hstack)
          (by
            show (getNeighbors g v).length + 1 +
              unvisited g (sadd st.visited v) * (g.edges.length + 2) ≤ fuel
            have hL := getNeighbors_length_le g v
            have hmul : (unvisited g (sadd st.visited v) + 1) * (g.edges.length + 2) ≤
                unvisited g st.visited * (g.edges.length + 2) :=
              Nat.mul_le_mul_right _ (by omega)
            rw [Nat.succ_mul] at hmul
            omega)
        cases b2
        case true =>
          refine ⟨st2, true, by rw [heq2], ?_, hout2.visMono v hv1,
            Nat.lt_of_le_of_lt hout2.unvisLe hltvis⟩
          exact dfsout_after_visit_true (by simp) hout2
        case false =>
          refine ⟨{ st2 with recStack := sdel st2.recStack v }, false, ?_,
            dfsout_after_visit_false (by simp) hvstk hout2, hout2.visMono v hv1,
            Nat.lt_of_le_of_lt hout2.unvisLe hltvis⟩
          rw [heq2]
    · -- dfsNeighbors
      intro l nodeId parentId st hinv hl hnid hnvis hnkey hsvis hlast hsp hfuel
      cases l with
      | nil => exact ⟨st, false, dfsNeighbors_nil, dfsout_refl hinv hsvis⟩
      | cons hd rest =>
        obtain ⟨neighbor, edge, w⟩ := hd
        have hlrest : ∀ x ∈ rest, x.1 ∈ g.nodes :=
          fun x hx => hl x (List.mem_cons_of_mem _ hx)
        cases hvisn : shas st.visited neighbor.id
        case false =>
          rw [dfsNeighbors_cons_rec hvisn]
          have hnbid : neighbor.id ∈ nodeIds g :=
            List.mem_map.mpr ⟨neighbor, hl (neighbor, edge, w) (List.mem_cons_self _ _), rfl⟩
          have hnbnv : neighbor.id ∉ st.visited :=
            fun hm => by rw [shas_iff_mem.mpr hm] at hvisn; exact absurd hvisn (by simp)
          have hnoev : ¬ backEdgeEvent g
              { type := .explore, nodeId := some neighbor.id, edgeId := some edge.id,
                message := "Exploring edge to " ++ neighbor.label,
                visited := some st.visited, stack := some st.recStack } := by
            intro hev
            exact hnbnv (backEdgeEvent_explore_iff.mp hev).1
          have houtExp : DfsOut g s st
              { st with steps := st.steps ++
                  [{ type := .explore, nodeId := some neighbor.id, edgeId := some edge.id,
                     message := "Exploring edge to " ++ neighbor.label,
                     visited := some st.visited, stack := some st.recStack }] } false :=
            dfsout_step hinv hsvis hnoev
          obtain ⟨st2, b2, heq2, hout2, hvin2, hlt2⟩ := ihP neighbor.id (some nodeId)
            { st with steps := st.steps ++
                [{ type := .explore, nodeId := some neighbor.id, edgeId := some edge.id,
                   message := "Exploring edge to " ++ neighbor.label,
                   visited := some st.visited, stack := some st.recStack }] }
            ⟨hinv.chains, hinv.keysVis, hinv.stackVis⟩
            hnbid hnbnv hlast
            (Or.inr ⟨nodeId, rfl, hnvis, hnkey, hnid, hsvis⟩)
            (by
              show unvisited g st.visited * (g.edges.length + 2) ≤ fuel
              simp only [List.length_cons] at hfuel
              omega)
          cases b2
          case true =>
            refine ⟨st2, true, ?_, dfsout_trans houtExp hout2⟩
            rw [heq2]
          case false =>
            obtain ⟨st3, b3, heq3, hout3⟩ := ihQ rest nodeId parentId st2
              hout2.inv hlrest hnid
              (hout2.visMono nodeId hnvis)
              (hout2.keysMono nodeId hnkey)
              hout2.sVis
              (by rw [hout2.stackEq rfl]; exact hlast)
              (by rw [hout2.stackEq rfl]; exact hsp)
              (by
                show rest.length + 1 + unvisited g st2.visited * (g.edges.length + 2) ≤ fuel
                have hlt2' : unvisited g st2.visited < unvisited g st.visited := hlt2
                have hmul : (unvisited g st2.visited + 1) * (g.edges.length + 2) ≤
                    unvisited g st.visited * (g.edges.length + 2) :=
                  Nat.mul_le_mul_right _ (by omega)
                rw [Nat.succ_mul] at hmul
                simp only [List.length_cons] at hfuel
                omega)
            refine ⟨st3, b3, ?_, dfsout_trans houtExp (dfsout_trans hout2 hout3)⟩
            rw [heq2]
            show dfsNeighbors g endId? true fuel nodeId parentId rest st2 = some (st3, b3)
            exact heq3
        case true =>
          have hnbv : neighbor.id ∈ st.visited := shas_iff_mem.mp hvisn
          cases hcyc : shas st.recStack neighbor.id &&
              (g.isDirected || !(some neighbor.id == parentId))
          case true =>
            rw [dfsNeighbors_cons_cyc hvisn hcyc]
            rw [Bool.and_eq_true] at hcyc
            have hev : backEdgeEvent g
                { type := .explore, nodeId := some neighbor.id, edgeId := some edge.id,
                  message := "Exploring edge to " ++ neighbor.label,
                  visited := some st.visited, stack := some st.recStack } := by
              refine backEdgeEvent_explore_iff.mpr ⟨hnbv, shas_iff_mem.mp hcyc.1, ?_⟩
              rcases Bool.or_eq_true_iff.mp hcyc.2 with hd | hb
              · exact Or.inl hd
              · right
                rw [hsp]
                have : (some neighbor.id == parentId) = false := by simpa using hb
                exact beq_eq_false_iff_ne.mp this
            obtain ⟨st3, b3, heq3, hout3⟩ := ihQ rest nodeId parentId
              { st with hasCycle := true, steps := (st.steps ++
                  [{ type := .explore, nodeId := some neighbor.id, edgeId := some edge.id,
                     message := "Exploring edge to " ++ neighbor.label,
                     visited := some st.visited, stack := some st.recStack }]) ++
                  [{ type := .cycleDetected, nodeId := some neighbor.id,
                     edgeId := some edge.id,
                     message := "Cycle detected! Back edge to " ++ neighbor.label,
                     visited := some st.visited }] }
              ⟨hinv.chains, hinv.keysVis, hinv.stackVis⟩
              hlrest hnid hnvis hnkey hsvis hlast hsp
              (by
                show rest.length + 1 + unvisited g st.visited * (g.edges.length + 2) ≤ fuel
                simp only [List.length_cons] at hfuel
                omega)
            exact ⟨st3, b3, heq3, dfsout_trans (dfsout_cyc2 hinv hsvis hev) hout3⟩
          case false =>
            rw [dfsNeighbors_cons_skip hvisn hcyc]
            have hnoev : ¬ backEdgeEvent g
                { type := .explore, nodeId := some neighbor.id, edgeId := some edge.id,
                  message := "Exploring edge to " ++ neighbor.label,
                  visited := some st.visited, stack := some st.recStack } := by
              intro hev
              obtain ⟨_, hmemstk, hor⟩ := backEdgeEvent_explore_iff.mp hev
              have h1 : shas st.recStack neighbor.id = true := shas_iff_mem.mpr hmemstk
              have h2 : (g.isDirected || !(some neighbor.id == parentId)) = true := by
                rcases hor with hd | hne
                · rw [hd]; simp
                · rw [hsp] at hne
                  have : (some neighbor.id == parentId) = false :=
                    beq_eq_false_iff_ne.mpr hne
                  rw [this]
                  simp
              rw [h1, h2] at hcyc
              simp at hcyc
            obtain ⟨st3, b3, heq3, hout3⟩ := ihQ rest nodeId parentId
              { st with steps := st.steps ++
                  [{ type := .explore, nodeId := some neighbor.id, edgeId := some edge.id,
                     message := "Exploring edge to " ++ neighbor.label,
                     visited := some st.visited, stack := some st.recStack }] }
              ⟨hinv.chains, hinv.keysVis, hinv.stackVis⟩
              hlrest hnid hnvis hnkey hsvis hlast hsp
              (by
                show rest.length + 1 + unvisited g st.visited * (g.edges.length + 2) ≤ fuel
                simp only [List.length_cons] at hfuel
                omega)
            exact ⟨st3, b3, heq3, dfsout_trans (dfsout_step hinv hsvis hnoev) hout3⟩

theorem endsComplete_intro {r : AlgorithmResult} {pre : List AlgorithmStep}
    {stp : AlgorithmStep} (h : r.steps = pre ++ [stp])
    (ht : stp.type = StepType.complete) : endsComplete r = true := by
  unfold endsComplete
  rw [h, List.getLast?_concat]
  simp [ht]

/-! ## The DFS entry point -/

theorem dfs_run {g : Graph} {s : String} (endId? : Option String) (hwf : WellFormed g)
    (hs : s ∈ nodeIds g) :
    ∃ r, dfs g s endId? true = some r ∧
      (∃ pre stp, r.steps = pre ++ [stp] ∧ stp.type = StepType.complete) ∧
      r.shortestPath = none ∧
      ∃ hc, r.hasCycle = some hc ∧ (hc = true ↔ BackEdgeInTrace g r.steps) := by
  have hkey0 : ∀ v, mhas (mset ([] : PMap) s none) v = true → v = s := by
    intro v hv
    rw [mhas_mset] at hv
    rcases Bool.or_eq_true_iff.mp hv with h | h
    · simpa using h
    · simp [mhas, mfind?_nil] at h
  have hinv0 : DfsInv s
      { steps := [], visited := [], recStack := [],
        parents := mset [] s none, hasCycle := false, foundEnd := false } := by
    refine ⟨?_, ?_, ?_⟩
    · intro k hk
      rw [hkey0 k hk]
      refine ⟨[s], PChain.root ?_⟩
      show mfind? (mset ([] : PMap) s none) s = some none
      exact mfind?_mset_self _ _ _
    · intro k hk
      exact Or.inr (hkey0 k hk)
    · intro x hx
      simp at hx
  have hfuel : unvisited g ([] : JSet) * (g.edges.length + 2) ≤ dfsFuel g := by
    have hU : unvisited g ([] : JSet) ≤ g.nodes.length := List.length_filter_le _ _
    unfold dfsFuel
    exact Nat.mul_le_mul_right _ (by omega)
  obtain ⟨st', b, heq, hout, _, _⟩ := (dfs_master endId? hwf (dfsFuel g)).1 s none
    { steps := [], visited := [], recStack := [],
      parents := mset [] s none, hasCycle := false, foundEnd := false }
    hinv0 hs (by simp) rfl (Or.inl ⟨rfl, rfl, rfl⟩) hfuel
  obtain ⟨tail, htail, hev, hcy⟩ := hout.trace
  have htail' : st'.steps = tail := by simpa using htail
  cases b
  case true =>
    have hfe : st'.foundEnd = true := by rw [hout.foundEq]; simp
    obtain ⟨pre, stp, hpre, hstp⟩ := hout.lastDone rfl
    refine ⟨{ steps := st'.steps, hasCycle := some st'.hasCycle }, ?_, ?_, rfl,
      st'.hasCycle, rfl, ?_, ?_⟩
    · simp [dfs, heq, hfe]
    · exact ⟨pre, stp, hpre, hstp⟩
    · intro h
      rcases hcy h with h0 | ⟨stp', hm, hev'⟩
      · simp at h0
      · exact ⟨stp', by rw [htail']; exact hm, hev'⟩
    · rintro ⟨stp', hm, hev'⟩
      rw [htail'] at hm
      exact hev stp' hm hev'
  case false =>
    have hfe : st'.foundEnd = false := by rw [hout.foundEq]; simp
    refine ⟨{ steps := st'.steps ++
        [{ type := .complete,
           message :=
             if st'.hasCycle then "DFS complete - Cycle detected!"
             else if strTruthy endId? then "DFS complete - Target node not reachable"
             else "DFS traversal complete - No cycle found",
           visited := some st'.visited }], hasCycle := some st'.hasCycle }, ?_, ?_, rfl,
      st'.hasCycle, rfl, ?_, ?_⟩
    · simp [dfs, heq, hfe]
    · exact ⟨st'.steps, _, rfl, rfl⟩
    · intro h
      rcases hcy h with h0 | ⟨stp', hm, hev'⟩
      · simp at h0
      · refine ⟨stp', ?_, hev'⟩
        show stp' ∈ _ ++ _
        exact List.mem_append.mpr (Or.inl (by rw [htail']; exact hm))
    · rintro ⟨stp', hm, hev'⟩
      rcases List.mem_append.mp hm with hm | hm
      · rw [htail'] at hm
        exact hev stp' hm hev'
      · rw [List.mem_singleton.mp hm] at hev'
        exact absurd hev' (backEdgeEvent_not_explore (by simp))

/-! ## The A* neighbour loop satisfies its contract -/

theorem aStarExpOut_refl {g : Graph} {c : String} {st : AStarSt} :
    AStarExpOut g c st st :=
  { closedEq := rfl, steps := ⟨[], by simp⟩, pchg := fun x => Or.inl rfl,
    keysMono := fun x hx => hx, openApp := ⟨[], by simp, by intro x hx; simp at hx⟩,
    openNodupP := fun h => h }

theorem aStarExpOut_trans {g : Graph} {c : String} {st1 st2 st3 : AStarSt}
    (h12 : AStarExpOut g c st1 st2) (h23 : AStarExpOut g c st2 st3) :
    AStarExpOut g c st1 st3 := by
  obtain ⟨t12, ht12⟩ := h12.steps
  obtain ⟨t23, ht23⟩ := h23.steps
  obtain ⟨a12, ha12, hp12⟩ := h12.openApp
  obtain ⟨a23, ha23, hp23⟩ := h23.openApp
  refine
    { closedEq := by rw [h23.closedEq, h12.closedEq],
      steps := ⟨t12 ++ t23, by rw [ht23, ht12, List.append_assoc]⟩,
      pchg := ?_,
      keysMono := fun x hx => h23.keysMono x (h12.keysMono x hx),
      openApp := ⟨a12 ++ a23, by rw [ha23, ha12, List.append_assoc], ?_⟩,
      openNodupP := fun h => h23.openNodupP (h12.openNodupP h) }
  · intro x
    rcases h23.pchg x with hx | hx
    · rw [hx]
      exact h12.pchg x
    · right
      obtain ⟨he, hc, hn, hw, hi⟩ := hx
      rw [h12.closedEq] at hc
      exact ⟨he, hc, hn, hw, hi⟩
  · intro x hx
    rcases List.mem_append.mp hx with hx | hx
    · obtain ⟨hi, hc, hk⟩ := hp12 x hx
      exact ⟨hi, hc, h23.keysMono x hk⟩
    · obtain ⟨hi, hc, hk⟩ := hp23 x hx
      rw [h12.closedEq] at hc
      exact ⟨hi, hc, hk⟩

theorem aStarExpOut_steps_only {g : Graph} {c : String} {st : AStarSt}
    (stp : AlgorithmStep) :
    AStarExpOut g c st { st with steps := st.steps ++ [stp] } :=
  { closedEq := rfl, steps := ⟨[stp], rfl⟩, pchg := fun _ => Or.inl rfl,
    keysMono := fun _ hx => hx, openApp := ⟨[], by simp, by intro x hx; simp at hx⟩,
    openNodupP := fun h => h }

theorem aStarExpOut_relax {g : Graph} {c : String} {st : AStarSt} {nid : String}
    (gv fv : JNum) (stp1 stp2 : AlgorithmStep)
    (hnotc : nid ∉ st.closedSet) (hne : nid ≠ "") (hadj : ∃ w, wadjOn g c nid w)
    (hnid : nid ∈ nodeIds g) :
    AStarExpOut g c st
      { st with
        gScore := mset st.gScore nid gv, fScore := mset st.fScore nid fv,
        parents := mset st.parents nid (some c),
        openSet := if st.openSet.contains nid then st.openSet else st.openSet ++ [nid],
        steps := (st.steps ++ [stp1]) ++ [stp2] } := by
  refine
    { closedEq := rfl, steps := ⟨[stp1, stp2], by simp⟩, pchg := ?_,
      keysMono := fun x hx => mhas_mset_mono _ _ hx, openApp := ?_, openNodupP := ?_ }
  · intro x
    by_cases hxid : x = nid
    · right
      subst hxid
      exact ⟨mfind?_mset_self _ _ _, hnotc, hne, hadj, hnid⟩
    · left
      exact mfind?_mset_ne _ _ hxid
  · by_cases hcont : st.openSet.contains nid = true
    · refine ⟨[], ?_, by intro x hx; simp at hx⟩
      show (if st.openSet.contains nid then st.openSet else st.openSet ++ [nid]) =
        st.openSet ++ []
      rw [if_pos hcont, List.append_nil]
    · refine ⟨[nid], ?_, ?_⟩
      · show (if st.openSet.contains nid then st.openSet else st.openSet ++ [nid]) =
          st.openSet ++ [nid]
        rw [if_neg hcont]
      · intro x hx
        rw [List.mem_singleton.mp hx]
        exact ⟨hnid, hnotc, by rw [mhas_mset]; simp⟩
  · intro hnd
    show (if st.openSet.contains nid then st.openSet else st.openSet ++ [nid]).Nodup
    by_cases hcont : st.openSet.contains nid = true
    · rw [if_pos hcont]
      exact hnd
    · have hnm : nid ∉ st.openSet := fun hm => hcont (List.elem_iff.mpr hm)
      rw [if_neg hcont, List.nodup_append]
      refine ⟨hnd, List.nodup_singleton _, ?_⟩
      intro y hy hy2
      rw [List.mem_singleton.mp hy2] at hy
      exact hnm hy

theorem aStarExplore_spec {g : Graph} {hfun : String → Int} {c : String} :
    ∀ (l : List (Node × Edge × Int)) (st : AStarSt),
    (∀ x ∈ l, wadjOn g c x.1.id x.2.2 ∧ x.1.id ≠ "" ∧ x.1 ∈ g.nodes) →
    AStarExpOut g c st (aStarExplore hfun c l st) := by
  intro l
  induction l with
  | nil => intro st _; exact aStarExpOut_refl
  | cons hd rest ih =>
    intro st hl
    obtain ⟨node, edge, w⟩ := hd
    obtain ⟨hadj, hne, hmem⟩ := hl (node, edge, w) (List.mem_cons_self _ _)
    have hlrest := fun x hx => hl x (List.mem_cons_of_mem _ hx)
    have hnid : node.id ∈ nodeIds g := List.mem_map.mpr ⟨node, hmem, rfl⟩
    cases hclosed : shas st.closedSet node.id
    case true =>
      rw [show aStarExplore hfun c ((node, edge, w) :: rest) st =
        aStarExplore hfun c rest st from by simp [aStarExplore, hclosed]]
      exact ih st hlrest
    case false =>
      have hnotc : node.id ∉ st.closedSet :=
        fun hm => by rw [shas_iff_mem.mpr hm] at hclosed; exact absurd hclosed (by simp)
      cases hguard : jlt (jadd (jsOrZero (mfind? st.gScore c)) w)
          (jsOrInf (mfind? st.gScore node.id))
      case false =>
        have hre : aStarExplore hfun c ((node, edge, w) :: rest) st =
            aStarExplore hfun c rest
              { st with steps := st.steps ++
                  [{ type := .explore, nodeId := some node.id, edgeId := some edge.id,
                     message := "Exploring " ++ node.label ++ ": g=" ++
                       jstr (jadd (jsOrZero (mfind? st.gScore c)) w) ++
                       ", h=" ++ toString (hfun node.id),
                     distances := some st.gScore }] } := by
          simp [aStarExplore, hclosed, hguard]
        rw [hre]
        exact aStarExpOut_trans (aStarExpOut_steps_only _) (ih _ hlrest)
      case true =>
        have hre : aStarExplore hfun c ((node, edge, w) :: rest) st =
            aStarExplore hfun c rest
              { st with
                gScore := mset st.gScore node.id
                  (jadd (jsOrZero (mfind? st.gScore c)) w),
                fScore := mset st.fScore node.id
                  (jadd (jadd (jsOrZero (mfind? st.gScore c)) w) (hfun node.id)),
                parents := mset st.parents node.id (some c),
                openSet := if st.openSet.contains node.id then st.openSet
                  else st.openSet ++ [node.id],
                steps := (st.steps ++
                  [{ type := .explore, nodeId := some node.id, edgeId := some edge.id,
                     message := "Exploring " ++ node.label ++ ": g=" ++
                       jstr (jadd (jsOrZero (mfind? st.gScore c)) w) ++
                       ", h=" ++ toString (hfun node.id),
                     distances := some st.gScore }]) ++
                  [{ type := .relax, nodeId := some node.id, edgeId := some edge.id,
                     message := "Updated " ++ node.label ++ ": g=" ++
                       jstr (jadd (jsOrZero (mfind? st.gScore c)) w) ++ ", f=" ++
                       oldDistStr (mfind? (mset st.fScore node.id
                         (jadd (jadd (jsOrZero (mfind? st.gScore c)) w)
                           (hfun node.id))) node.id),
                     distances := some (mset st.gScore node.id
                       (jadd (jsOrZero (mfind? st.gScore c)) w)) }] } := by
          simp [aStarExplore, hclosed, hguard]
        rw [hre]
        exact aStarExpOut_trans
          (aStarExpOut_relax _ _ _ _ hnotc hne ⟨w, hadj⟩ hnid) (ih _ hlrest)

/-! ## A* loop equation lemmas -/

theorem aStarLoop_empty {g : Graph} {endId : String} {hfun : String → Int} {fuel : Nat}
    {st : AStarSt} (hsort : ssort (fLe st.fScore) st.openSet = []) :
    aStarLoop g endId hfun (fuel + 1) st = some
      { steps := st.steps ++
          [{ type := .complete, message := "No path exists between start and end nodes",
             distances := some st.gScore }] } := by
  simp [aStarLoop, hsort]

theorem aStarLoop_endhit {g : Graph} {endId : String} {hfun : String → Int} {fuel : Nat}
    {st : AStarSt} {c : String} {rest : List String} {path : List String}
    (hsort : ssort (fLe st.fScore) st.openSet = c :: rest)
    (hend : (c == endId) = true) (hrp : reconstructPath st.parents endId = some path) :
    aStarLoop g endId hfun (fuel + 1) st = some
      { steps := (st.steps ++
          [{ type := .visit, nodeId := some c,
             message := "Processing " ++ optLabel (getNodeById g c) ++
               " (g=" ++ oldDistStr (mfind? st.gScore c) ++
               ", f=" ++ oldDistStr (mfind? st.fScore c) ++ ")",
             distances := some st.gScore, visited := some st.closedSet }]) ++
          [{ type := .complete,
             message := "Path found! Distance: " ++ oldDistStr (mfind? st.gScore endId),
             currentPath := some path, distances := some st.gScore }],
        shortestPath := some path, distances := some st.gScore } := by
  simp [aStarLoop, hsort, hend, hrp]

theorem aStarLoop_step {g : Graph} {endId : String} {hfun : String → Int} {fuel : Nat}
    {st : AStarSt} {c : String} {rest : List String}
    (hsort : ssort (fLe st.fScore) st.openSet = c :: rest)
    (hend : (c == endId) = false) :
    aStarLoop g endId hfun (fuel + 1) st =
      aStarLoop g endId hfun fuel (aStarExplore hfun c (getNeighbors g c)
        { st with
          openSet := rest,
          steps := st.steps ++
            [{ type := .visit, nodeId := some c,
               message := "Processing " ++ optLabel (getNodeById g c) ++
                 " (g=" ++ oldDistStr (mfind? st.gScore c) ++
                 ", f=" ++ oldDistStr (mfind? st.fScore c) ++ ")",
               distances := some st.gScore, visited := some st.closedSet }],
          closedSet := sadd st.closedSet c }) := by
  simp [aStarLoop, hsort, hend]

theorem steps_shape1 {base : List AlgorithmStep} {s1 : AlgorithmStep}
    (h : s1.type = StepType.complete) :
    ∃ pre stp, base ++ [s1] = base ++ (pre ++ [stp]) ∧
      stp.type = StepType.complete :=
  ⟨[], s1, by simp, h⟩

theorem steps_shape2 {base : List AlgorithmStep} {s1 s2 : AlgorithmStep}
    (h : s2.type = StepType.complete) :
    ∃ pre stp, (base ++ [s1]) ++ [s2] = base ++ (pre ++ [stp]) ∧
      stp.type = StepType.complete :=
  ⟨[s1], s2, by simp, h⟩

theorem steps_shape_entry {r : List AlgorithmStep} {x stp : AlgorithmStep}
    {mid : List AlgorithmStep}
    (h : r = [x] ++ (mid ++ [stp])) (ht : stp.type = StepType.complete) :
    ∃ pre s2, r = pre ++ [s2] ∧ s2.type = StepType.complete :=
  ⟨x :: mid, stp, by rw [h]; simp, ht⟩

/-! ## The A* master loop lemma -/

theorem aStarLoop_master {g : Graph} {s endId : String} {hfun : String → Int}
    (hwf : WellFormed g) :
    ∀ (fuel : Nat) (st : AStarSt), AStarInv g s st →
    unvisited g st.closedSet < fuel →
    ∃ r, aStarLoop g endId hfun fuel st = some r ∧
      (∃ pre stp, r.steps = st.steps ++ (pre ++ [stp]) ∧
        stp.type = StepType.complete) ∧
      (∀ p, r.shortestPath = some p → IsPathList g s endId p) := by
  intro fuel
  induction fuel with
  | zero => intro st _ hm; omega
  | succ fuel ih =>
    intro st hinv hm
    cases hsort : ssort (fLe st.fScore) st.openSet with
    | nil =>
      refine ⟨_, aStarLoop_empty hsort, steps_shape1 rfl, ?_⟩
      intro p hp
      simp at hp
    | cons c rest =>
      have hsortnd : (c :: rest).Nodup := by
        rw [← hsort]
        exact ((ssort_perm (fLe st.fScore) st.openSet).nodup_iff).mpr hinv.openNodup
      have hcrest : c ∉ rest := (List.nodup_cons.mp hsortnd).1
      have hcmem : c ∈ st.openSet := by
        rw [← (ssort_perm (fLe st.fScore) st.openSet).mem_iff, hsort]
        exact List.mem_cons_self _ _
      have hrest_sub : ∀ x ∈ rest, x ∈ st.openSet := by
        intro x hx
        rw [← (ssort_perm (fLe st.fScore) st.openSet).mem_iff, hsort]
        exact List.mem_cons_of_mem _ hx
      have hcid := hinv.openIds c hcmem
      have hcnotc := hinv.openNotClosed c hcmem
      have hckey := hinv.openKeys c hcmem
      cases hend : c == endId with
      | true =>
        have hceq : c = endId := by simpa using hend
        obtain ⟨l, hl⟩ := chain_exists hinv.root hinv.noneRoot hinv.pvals
          (pord_nocyc hinv.pord) c hckey
        rw [hceq] at hl
        have hrp := reconstructPath_eq hl
        refine ⟨_, aStarLoop_endhit hsort hend hrp, steps_shape2 rfl, ?_⟩
        intro p hp
        have hpl : p = l := by
          have : some l = some p := hp
          exact (Option.some.inj this).symm
        rw [hpl]
        refine pchain_isPathList ?_ hl
        intro v' u hf
        obtain ⟨_, _, w, hw⟩ := hinv.pvals v' u hf
        exact ⟨w, hw⟩
      | false =>
        have hexp := @aStarExplore_spec g hfun c (getNeighbors g c)
          { st with
            openSet := rest,
            steps := st.steps ++
              [{ type := .visit, nodeId := some c,
                 message := "Processing " ++ optLabel (getNodeById g c) ++
                   " (g=" ++ oldDistStr (mfind? st.gScore c) ++
                   ", f=" ++ oldDistStr (mfind? st.fScore c) ++ ")",
                 distances := some st.gScore, visited := some st.closedSet }],
            closedSet := sadd st.closedSet c }
          (by
            intro x hx
            obtain ⟨nd, e0, w0⟩ := x
            obtain ⟨hadj, _, hne0, _⟩ := getNeighbors_sound hx
            exact ⟨hadj, hne0, getNeighbors_node_mem hx⟩)
        obtain ⟨tail, htail⟩ := hexp.steps
        obtain ⟨add, hadd, haddp⟩ := hexp.openApp
        have hclosed3 := hexp.closedEq
        have hsaddeq : sadd st.closedSet c = st.closedSet ++ [c] :=
          sadd_of_not_mem hcnotc
        have hs2closed : s ∈ sadd st.closedSet c := by
          by_cases hstc : st.closedSet = []
          · have hop := hinv.emptyClosed hstc
            rw [hop] at hcmem
            rw [← List.mem_singleton.mp hcmem]
            exact mem_sadd_self
          · exact mem_sadd.mpr (Or.inl (hinv.sClosed hstc))
        have hinv3 : AStarInv g s (aStarExplore hfun c (getNeighbors g c)
            { st with
              openSet := rest,
              steps := st.steps ++
                [{ type := .visit, nodeId := some c,
                   message := "Processing " ++ optLabel (getNodeById g c) ++
                     " (g=" ++ oldDistStr (mfind? st.gScore c) ++
                     ", f=" ++ oldDistStr (mfind? st.fScore c) ++ ")",
                   distances := some st.gScore, visited := some st.closedSet }],
              closedSet := sadd st.closedSet c }) := by
          refine
            { root := ?_, noneRoot := ?_, pvals := ?_, pord := ?_, closedNodup := ?_,
              openIds := ?_, openKeys := ?_, openNotClosed := ?_, openNodup := ?_,
              emptyClosed := ?_, sClosed := ?_ }
          · rcases hexp.pchg s with hx | hx
            · rw [hx]; exact hinv.root
            · exact absurd hs2closed hx.2.1
          · intro v hv
            rcases hexp.pchg v with hx | hx
            · rw [hx] at hv
              exact hinv.noneRoot v hv
            · rw [hx.1] at hv
              exact absurd (Option.some.inj hv) (by simp)
          · intro v u hf
            rcases hexp.pchg v with hx | hx
            · rw [hx] at hf
              obtain ⟨hk, hn, w, hw⟩ := hinv.pvals v u hf
              exact ⟨hexp.keysMono u hk, hn, w, hw⟩
            · rw [hx.1] at hf
              have huc : u = c := (Option.some.inj (Option.some.inj hf)).symm
              subst huc
              refine ⟨hexp.keysMono u hckey, ?_, hx.2.2.2.1⟩
              obtain ⟨n, hn, hid⟩ := List.mem_map.mp hcid
              exact hid ▸ hwf.2.2 n hn
          · intro v u hf
            rw [hclosed3, hsaddeq]
            rcases hexp.pchg v with hx | hx
            · rw [hx] at hf
              obtain ⟨hu, hlt⟩ := hinv.pord v u hf
              refine ⟨List.mem_append.mpr (Or.inl hu), ?_⟩
              intro hv
              rcases List.mem_append.mp hv with hv | hv
              · rw [indexOf_append_left _ hu, indexOf_append_left _ hv]
                exact hlt hv
              · rw [List.mem_singleton.mp hv]
                rw [indexOf_append_left _ hu, indexOf_append_self hcnotc]
                exact indexOf_lt_length_of_mem hu
            · have huc : u = c := by
                rw [hx.1] at hf
                exact (Option.some.inj (Option.some.inj hf)).symm
              subst huc
              refine ⟨List.mem_append.mpr (Or.inr (List.mem_singleton.mpr rfl)), ?_⟩
              intro hv
              exfalso
              apply hx.2.1
              rw [hsaddeq]
              exact hv
          · rw [hclosed3, hsaddeq, List.nodup_append]
            refine ⟨hinv.closedNodup, List.nodup_singleton _, ?_⟩
            intro y hy hy2
            rw [List.mem_singleton.mp hy2] at hy
            exact hcnotc hy
          · intro x hx
            rw [hadd] at hx
            rcases List.mem_append.mp hx with hx | hx
            · exact hinv.openIds x (hrest_sub x hx)
            · exact (haddp x hx).1
          · intro x hx
            rw [hadd] at hx
            rcases List.mem_append.mp hx with hx | hx
            · exact hexp.keysMono x (hinv.openKeys x (hrest_sub x hx))
            · exact (haddp x hx).2.2
          · intro x hx
            rw [hclosed3]
            rw [hadd] at hx
            rcases List.mem_append.mp hx with hx | hx
            · intro hmem
              rcases mem_sadd.mp hmem with hmem | hmem
              · exact hinv.openNotClosed x (hrest_sub x hx) hmem
              · rw [hmem] at hx
                exact hcrest hx
            · exact (haddp x hx).2.1
          · exact hexp.openNodupP (List.nodup_cons.mp hsortnd).2
          · intro h
            exfalso
            rw [hclosed3, hsaddeq] at h
            simp at h
          · intro _
            rw [hclosed3]
            exact hs2closed
        have hmeas3 : unvisited g (aStarExplore hfun c (getNeighbors g c)
            { st with
              openSet := rest,
              steps := st.steps ++
                [{ type := .visit, nodeId := some c,
                   message := "Processing " ++ optLabel (getNodeById g c) ++
                     " (g=" ++ oldDistStr (mfind? st.gScore c) ++
                     ", f=" ++ oldDistStr (mfind? st.fScore c) ++ ")",
                   distances := some st.gScore, visited := some st.closedSet }],
              closedSet := sadd st.closedSet c }).closedSet < fuel := by
          rw [hclosed3]
          have := unvisited_sadd_lt hcid hcnotc
          show unvisited g (sadd st.closedSet c) < fuel
          omega
        obtain ⟨r, hr, ⟨pre, stp, hsteps, hstp⟩, hpath⟩ := ih _ hinv3 hmeas3
        refine ⟨r, ?_,
          ⟨{ type := .visit, nodeId := some c,
             message := "Processing " ++ optLabel (getNodeById g c) ++
               " (g=" ++ oldDistStr (mfind? st.gScore c) ++
               ", f=" ++ oldDistStr (mfind? st.fScore c) ++ ")",
             distances := some st.gScore,
             visited := some st.closedSet } :: (tail ++ pre), stp, ?_, hstp⟩, hpath⟩
        · rw [aStarLoop_step hsort hend]
          exact hr
        · rw [hsteps, htail]
          simp

/-! ## The A* entry point -/

theorem aStar_run {g : Graph} {s e : String} (hfun : String → Int) (hwf : WellFormed g)
    (hs : s ∈ nodeIds g) (he : e ∈ nodeIds g) :
    ∃ r, aStar g s e hfun = .ok (some r) ∧
      (∃ pre stp, r.steps = pre ++ [stp] ∧ stp.type = StepType.complete) ∧
      (∀ p, r.shortestPath = some p → IsPathList g s e p) := by
  obtain ⟨ns, hns, _, _⟩ := getNodeById_of_mem hs
  obtain ⟨nend, hnend, _, _⟩ := getNodeById_of_mem he
  have hkey0 : ∀ v, mhas (mset ([] : PMap) s none) v = true → v = s := by
    intro v hv
    rw [mhas_mset] at hv
    rcases Bool.or_eq_true_iff.mp hv with h | h
    · simpa using h
    · simp [mhas, mfind?_nil] at h
  have hroot0 : mfind? (mset ([] : PMap) s none) s = some none := mfind?_mset_self _ _ _
  have hnosome : ∀ v u, mfind? (mset ([] : PMap) s none) v = some (some u) → False := by
    intro v u hf
    have hv := hkey0 v (mhas_of_mfind? hf)
    rw [hv, hroot0] at hf
    exact absurd (Option.some.inj hf) (by simp)
  have hinv0 : AStarInv g s
      { steps :=
          [{ type := .visit, nodeId := some s,
             message := "Starting A* from " ++ ns.label ++ " to " ++ nend.label,
             distances := some (g.nodes.foldl (fun d nd =>
               mset d nd.id (if nd.id == s then some 0 else jInf)) []) }],
        gScore := g.nodes.foldl (fun d nd =>
          mset d nd.id (if nd.id == s then some 0 else jInf)) [],
        fScore := g.nodes.foldl (fun d nd =>
          mset d nd.id (if nd.id == s then some (hfun s) else jInf)) [],
        parents := mset [] s none, openSet := [s], closedSet := [] } := by
    refine
      { root := hroot0, noneRoot := fun v hv => hkey0 v (mhas_of_mfind? hv),
        pvals := fun v u hf => absurd (hnosome v u hf) (fun h => h),
        pord := fun v u hf => absurd (hnosome v u hf) (fun h => h),
        closedNodup := List.nodup_nil,
        openIds := ?_, openKeys := ?_, openNotClosed := ?_,
        openNodup := List.nodup_singleton _,
        emptyClosed := fun _ => rfl, sClosed := fun h => absurd rfl h }
    · intro x hx
      rw [List.mem_singleton.mp hx]
      exact hs
    · intro x hx
      rw [List.mem_singleton.mp hx]
      rw [mhas_mset]
      simp
    · intro x _ hx
      simp at hx
  have hfuel : unvisited g ([] : JSet) < aStarFuel g := by
    have hU : unvisited g ([] : JSet) ≤ g.nodes.length := List.length_filter_le _ _
    unfold aStarFuel
    omega
  obtain ⟨r, hr, ⟨pre, stp, hsteps, hstp⟩, hpath⟩ :=
    @aStarLoop_master g s e hfun hwf (aStarFuel g) _ hinv0 hfuel
  refine ⟨r, ?_, steps_shape_entry hsteps hstp, hpath⟩
  show aStar g s e hfun = Except.ok (some r)
  rw [show aStar g s e hfun = Except.ok (aStarLoop g e hfun (aStarFuel g)
      { steps :=
          [{ type := .visit, nodeId := some s,
             message := "Starting A* from " ++ ns.label ++ " to " ++ nend.label,
             distances := some (g.nodes.foldl (fun d nd =>
               mset d nd.id (if nd.id == s then some 0 else jInf)) []) }],
        gScore := g.nodes.foldl (fun d nd =>
          mset d nd.id (if nd.id == s then some 0 else jInf)) [],
        fScore := g.nodes.foldl (fun d nd =>
          mset d nd.id (if nd.id == s then some (hfun s) else jInf)) [],
        parents := mset [] s none, openSet := [s], closedSet := [] })
      from by simp [aStar, hns, hnend]]
  rw [hr]

/-! ## Dijkstra: small order lemmas -/

theorem jle_of_not_jlt {a b : JNum} (h : jlt a b = false) : jle b a = true := by
  by_contra hc
  have h2 : jlt a b = true := jlt_iff_not_jle.mpr hc
  rw [h2] at h
  cases h

theorem jadd_le_self {a : JNum} {w : Int} (hw : 0 ≤ w) : jle a (jadd a w) = true := by
  cases a with
  | none => rfl
  | some v => simp [jle, jadd]; omega

theorem wadj_weight_nonneg {g : Graph} (hn : NonnegW g) {u v : String} {w : Int}
    (h : wadjOn g u v w) : 0 ≤ w := by
  obtain ⟨e, he, _, hw⟩ := h
  have := hn e he
  omega

theorem nonneg_no_negcycle {g : Graph} (hn : NonnegW g) (s : String) :
    ¬ NegCycleFrom g s := by
  rintro ⟨v, c, k, _, hcyc, _, hneg⟩
  have := cwalk_cost_nonneg hn hcyc
  omega

theorem dget_eq_of_mfind? {d : DMap} {v : String} {j : JNum}
    (h : mfind? d v = some j) : dget d v = j := by
  simp [dget, h]

theorem dget_not_key {d : DMap} {v : String} (h : mhas d v = false) :
    dget d v = jInf := by
  rw [mhas_eq_false_iff] at h
  simp [dget, h]

theorem jsLtOpt_true_elim {nd : JNum} {o : Option JNum} (h : jsLtOpt nd o = true) :
    ∃ old, o = some old ∧ jlt nd old = true := by
  cases o with
  | none => cases h
  | some old => exact ⟨old, rfl, h⟩

/-! ## Dijkstra: equation lemmas of the neighbour loop -/

theorem dijExplore_nil (c : String) (cd : JNum) (st : DijSt) :
    dijkstraExplore c cd [] st = st := rfl

theorem dijExplore_cons_skip {c : String} {cd : JNum} {node : Node} {edge : Edge}
    {w : Int} {rest : List (Node × Edge × Int)} {st : DijSt}
    (h : shas st.visited node.id = true) :
    dijkstraExplore c cd ((node, edge, w) :: rest) st = dijkstraExplore c cd rest st := by
  simp [dijkstraExplore, h]

theorem dijExplore_cons_relax {c : String} {cd : JNum} {node : Node} {edge : Edge}
    {w : Int} {rest : List (Node × Edge × Int)} {st : DijSt}
    (h1 : shas st.visited node.id = false)
    (h2 : jsLtOpt (jadd cd w) (mfind? st.distances node.id) = true) :
    dijkstraExplore c cd ((node, edge, w) :: rest) st = dijkstraExplore c cd rest
      { st with
        distances := mset st.distances node.id (jadd cd w),
        parents := mset st.parents node.id (some c),
        pq := st.pq ++ [(node.id, jadd cd w)],
        steps := (st.steps ++
          [{ type := .explore, nodeId := some node.id, edgeId := some edge.id,
             message := "Checking " ++ node.label ++ ": current=" ++
               oldDistStr (mfind? st.distances node.id) ++ ", new=" ++ jstr (jadd cd w),
             distances := some st.distances }]) ++
          [{ type := .relax, nodeId := some node.id, edgeId := some edge.id,
             message := "Updated distance to " ++ node.label ++ ": " ++ jstr (jadd cd w),
             distances := some (mset st.distances node.id (jadd cd w)) }] } := by
  simp [dijkstraExplore, h1, h2]

theorem dijExplore_cons_norelax {c : String} {cd : JNum} {node : Node} {edge : Edge}
    {w : Int} {rest : List (Node × Edge × Int)} {st : DijSt}
    (h1 : shas st.visited node.id = false)
    (h2 : jsLtOpt (jadd cd w) (mfind? st.distances node.id) = false) :
    dijkstraExplore c cd ((node, edge, w) :: rest) st = dijkstraExplore c cd rest
      { st with
        steps := st.steps ++
          [{ type := .explore, nodeId := some node.id, edgeId := some edge.id,
             message := "Checking " ++ node.label ++ ": current=" ++
               oldDistStr (mfind? st.distances node.id) ++ ", new=" ++ jstr (jadd cd w),
             distances := some st.distances }] } := by
  simp [dijkstraExplore, h1, h2]

/-! ## Dijkstra: explore contract builders -/

theorem dijExpOut_trans {g : Graph} {c : String} {cd : JNum} {st1 st2 st3 : DijSt}
    (h1 : DijExpOut g c cd st1 st2) (h2 : DijExpOut g c cd st2 st3) :
    DijExpOut g c cd st1 st3 := by
  obtain ⟨t1, ht1⟩ := h1.steps
  obtain ⟨t2, ht2⟩ := h2.steps
  obtain ⟨a1, ha1, ha1p⟩ := h1.pqApp
  obtain ⟨a2, ha2, ha2p⟩ := h2.pqApp
  refine ⟨?_, ⟨t1 ++ t2, ?_⟩, ?_, ?_, ?_, ?_, ?_⟩
  · rw [h2.visitedEq, h1.visitedEq]
  · rw [ht2, ht1, List.append_assoc]
  · intro x
    exact jle_trans (h2.dmono x) (h1.dmono x)
  · intro x
    rw [h2.dkeysEq, h1.dkeysEq]
  · intro x
    rcases h2.chg x with ⟨hd2, hp2⟩ | ⟨hv2, hid2, hne2, hp2, w2, hw2, hd2, hpq2⟩
    · rcases h1.chg x with ⟨hd1, hp1⟩ | ⟨hv1, hid1, hne1, hp1, w1, hw1, hd1, hpq1⟩
      · exact Or.inl ⟨hd2.trans hd1, hp2.trans hp1⟩
      · refine Or.inr ⟨hv1, hid1, hne1, hp2.trans hp1, w1, hw1, hd2.trans hd1, ?_⟩
        rw [ha2]
        exact List.mem_append.mpr (Or.inl hpq1)
    · refine Or.inr ⟨?_, hid2, hne2, hp2, w2, hw2, hd2, hpq2⟩
      rw [← h1.visitedEq]
      exact hv2
  · intro x hx
    exact h2.pkeysMono x (h1.pkeysMono x hx)
  · refine ⟨a1 ++ a2, ?_, ?_⟩
    · rw [ha2, ha1, List.append_assoc]
    · intro y hy
      rcases List.mem_append.mp hy with hy | hy
      · obtain ⟨hv, hid, hpk, hle, w, hw, hval⟩ := ha1p y hy
        exact ⟨hv, hid, h2.pkeysMono _ hpk, jle_trans (h2.dmono _) hle, w, hw, hval⟩
      · obtain ⟨hv, hid, hpk, hle, w, hw, hval⟩ := ha2p y hy
        refine ⟨?_, hid, hpk, hle, w, hw, hval⟩
        rw [← h1.visitedEq]
        exact hv

theorem dijExpOut_refl {g : Graph} {c : String} {cd : JNum} {st : DijSt} :
    DijExpOut g c cd st st := by
  refine ⟨rfl, ⟨[], by simp⟩, fun x => jle_refl _, fun x => rfl,
    fun x => Or.inl ⟨rfl, rfl⟩, fun x hx => hx, ⟨[], by simp, ?_⟩⟩
  intro y hy
  simp at hy

theorem dijExpOut_steps {g : Graph} {c : String} {cd : JNum} {st : DijSt}
    (tail : List AlgorithmStep) :
    DijExpOut g c cd st { st with steps := st.steps ++ tail } := by
  refine ⟨rfl, ⟨tail, rfl⟩, fun x => jle_refl _, fun x => rfl,
    fun x => Or.inl ⟨rfl, rfl⟩, fun x hx => hx, ⟨[], by simp, ?_⟩⟩
  intro y hy
  simp at hy

theorem dijExpOut_relax {g : Graph} {c : String} {cd : JNum} {st : DijSt}
    {nid : String} {w : Int} (tail : List AlgorithmStep)
    (hvis : shas st.visited nid = false) (hid : nid ∈ nodeIds g) (hne : nid ≠ "")
    (hw : wadjOn g c nid w)
    (hlt : jsLtOpt (jadd cd w) (mfind? st.distances nid) = true) :
    DijExpOut g c cd st
      { st with
        distances := mset st.distances nid (jadd cd w),
        parents := mset st.parents nid (some c),
        pq := st.pq ++ [(nid, jadd cd w)],
        steps := st.steps ++ tail } := by
  obtain ⟨old, hold, holdlt⟩ := jsLtOpt_true_elim hlt
  refine ⟨rfl, ⟨tail, rfl⟩, ?_, ?_, ?_, ?_, ?_⟩
  · intro x
    by_cases hx : x = nid
    · subst hx
      rw [show dget (mset st.distances x (jadd cd w)) x = jadd cd w from
        dget_eq_of_mfind? (mfind?_mset_self _ _ _)]
      rw [dget_eq_of_mfind? hold]
      exact jle_of_jlt holdlt
    · rw [show dget (mset st.distances nid (jadd cd w)) x = dget st.distances x from by
        simp [dget, mfind?_mset_ne _ _ hx]]
      exact jle_refl _
  · intro x
    rw [mhas_mset]
    by_cases hx : x = nid
    · subst hx
      simp [mhas, hold]
    · simp [hx]
  · intro x
    by_cases hx : x = nid
    · subst hx
      refine Or.inr ⟨hvis, hid, hne, mfind?_mset_self _ _ _, w, hw,
        mfind?_mset_self _ _ _, ?_⟩
      exact List.mem_append.mpr (Or.inr (List.mem_singleton.mpr rfl))
    · exact Or.inl ⟨mfind?_mset_ne _ _ hx, mfind?_mset_ne _ _ hx⟩
  · intro x hx
    exact mhas_mset_mono _ _ hx
  · refine ⟨[(nid, jadd cd w)], rfl, ?_⟩
    intro y hy
    rw [List.mem_singleton.mp hy]
    refine ⟨hvis, hid, ?_, ?_, w, hw, rfl⟩
    · exact mhas_of_mfind? (mfind?_mset_self _ _ _)
    · rw [show dget (mset st.distances nid (jadd cd w)) nid = jadd cd w from
        dget_eq_of_mfind? (mfind?_mset_self _ _ _)]
      exact jle_refl _

/-! ## Dijkstra: the neighbour-loop contract -/

theorem dijkstraExplore_spec {g : Graph} {c : String} {cd : JNum} :
    ∀ (ns : List (Node × Edge × Int)) (st : DijSt),
    (∀ x ∈ ns, wadjOn g c x.1.id x.2.2 ∧ x.1.id ≠ "" ∧ x.1.id ∈ nodeIds g ∧
      mhas st.distances x.1.id = true) →
    DijExpOut g c cd st (dijkstraExplore c cd ns st) ∧
    (∀ x ∈ ns, shas st.visited x.1.id = true ∨
      jle (dget (dijkstraExplore c cd ns st).distances x.1.id) (jadd cd x.2.2) = true) ∧
    (dijkstraExplore c cd ns st).pq.length ≤ st.pq.length + ns.length := by
  intro ns
  induction ns with
  | nil =>
    intro st _
    refine ⟨?_, ?_, ?_⟩
    · rw [dijExplore_nil]
      exact dijExpOut_refl
    · intro x hx
      simp at hx
    · rw [dijExplore_nil]
      simp
  | cons hd rest ih =>
    intro st hpre
    obtain ⟨node, edge, w⟩ := hd
    obtain ⟨hadj, hne, hid, hdk⟩ := hpre (node, edge, w) (List.mem_cons_self _ _)
    have hprerest : ∀ x ∈ rest, wadjOn g c x.1.id x.2.2 ∧ x.1.id ≠ "" ∧
        x.1.id ∈ nodeIds g ∧ mhas st.distances x.1.id = true :=
      fun x hx => hpre x (List.mem_cons_of_mem _ hx)
    cases hvis : shas st.visited node.id with
    | true =>
      obtain ⟨hexp, hstab, hlen⟩ := ih st hprerest
      rw [dijExplore_cons_skip hvis]
      refine ⟨hexp, ?_, by simpa using Nat.le_succ_of_le hlen⟩
      intro x hx
      rcases List.mem_cons.mp hx with rfl | hx
      · exact Or.inl hvis
      · exact hstab x hx
    | false =>
      cases hrel : jsLtOpt (jadd cd w) (mfind? st.distances node.id) with
      | true =>
        rw [dijExplore_cons_relax hvis hrel]
        set st1 : DijSt :=
          { st with
            distances := mset st.distances node.id (jadd cd w),
            parents := mset st.parents node.id (some c),
            pq := st.pq ++ [(node.id, jadd cd w)],
            steps := (st.steps ++
              [{ type := .explore, nodeId := some node.id, edgeId := some edge.id,
                 message := "Checking " ++ node.label ++ ": current=" ++
                   oldDistStr (mfind? st.distances node.id) ++ ", new=" ++
                   jstr (jadd cd w),
                 distances := some st.distances }]) ++
              [{ type := .relax, nodeId := some node.id, edgeId := some edge.id,
                 message := "Updated distance to " ++ node.label ++ ": " ++
                   jstr (jadd cd w),
                 distances := some (mset st.distances node.id (jadd cd w)) }] }
          with hst1
        have hstep : DijExpOut g c cd st st1 := by
          rw [hst1]
          rw [show (st.steps ++ _) ++ _ = st.steps ++ _ from List.append_assoc _ _ _]
          exact dijExpOut_relax _ hvis hid hne hadj hrel
        have hprerest1 : ∀ x ∈ rest, wadjOn g c x.1.id x.2.2 ∧ x.1.id ≠ "" ∧
            x.1.id ∈ nodeIds g ∧ mhas st1.distances x.1.id = true := by
          intro x hx
          obtain ⟨h1, h2, h3, h4⟩ := hprerest x hx
          refine ⟨h1, h2, h3, ?_⟩
          rw [hstep.dkeysEq]
          exact h4
        obtain ⟨hexp, hstab, hlen⟩ := ih st1 hprerest1
        refine ⟨dijExpOut_trans hstep hexp, ?_, ?_⟩
        · intro x hx
          rcases List.mem_cons.mp hx with rfl | hx
          · right
            have hd1 : dget st1.distances node.id = jadd cd w :=
              dget_eq_of_mfind? (by rw [hst1]; exact mfind?_mset_self _ _ _)
            have := hexp.dmono node.id
            rw [hd1] at this
            exact this
          · rcases hstab x hx with h | h
            · left
              rw [← show st1.visited = st.visited from rfl]
              exact h
            · exact Or.inr h
        · have hlen1 : st1.pq.length = st.pq.length + 1 := by
            rw [hst1]
            simp
          rw [hlen1] at hlen
          simpa [Nat.add_comm, Nat.add_assoc, Nat.add_left_comm] using hlen
      | false =>
        rw [dijExplore_cons_norelax hvis hrel]
        set st1 : DijSt :=
          { st with
            steps := st.steps ++
              [{ type := .explore, nodeId := some node.id, edgeId := some edge.id,
                 message := "Checking " ++ node.label ++ ": current=" ++
                   oldDistStr (mfind? st.distances node.id) ++ ", new=" ++
                   jstr (jadd cd w),
                 distances := some st.distances }] }
          with hst1
        have hstep : DijExpOut g c cd st st1 := dijExpOut_steps _
        have hprerest1 : ∀ x ∈ rest, wadjOn g c x.1.id x.2.2 ∧ x.1.id ≠ "" ∧
            x.1.id ∈ nodeIds g ∧ mhas st1.distances x.1.id = true := by
          intro x hx
          obtain ⟨h1, h2, h3, h4⟩ := hprerest x hx
          exact ⟨h1, h2, h3, h4⟩
        obtain ⟨hexp, hstab, hlen⟩ := ih st1 hprerest1
        refine ⟨dijExpOut_trans hstep hexp, ?_, ?_⟩
        · intro x hx
          rcases List.mem_cons.mp hx with rfl | hx
          · right
            obtain ⟨old, hold⟩ := (mhas_iff_exists _ _).mp hdk
            have holdle : jle old (jadd cd w) = true := by
              rw [hold] at hrel
              exact jle_of_not_jlt hrel
            have hd1 : dget st1.distances node.id = old := dget_eq_of_mfind? hold
            have := hexp.dmono node.id
            rw [hd1] at this
            exact jle_trans this holdle
          · rcases hstab x hx with h | h
            · exact Or.inl h
            · exact Or.inr h
        · have hlen1 : st1.pq.length = st.pq.length := rfl
          rw [hlen1] at hlen
          simpa using Nat.le_succ_of_le hlen


/-! ## Dijkstra: loop equation lemmas -/

theorem dijLoop_nil {g : Graph} {endId? : Option String} {fuel : Nat} {st : DijSt}
    (hsort : ssort pqLe st.pq = []) :
    dijkstraLoop g endId? (fuel + 1) st = dijkstraFinish endId? st := by
  simp [dijkstraLoop, hsort]

theorem dijLoop_stale {g : Graph} {endId? : Option String} {fuel : Nat} {st : DijSt}
    {c : String} {cd : JNum} {rest : List (String × JNum)}
    (hsort : ssort pqLe st.pq = (c, cd) :: rest)
    (hvis : shas st.visited c = true) :
    dijkstraLoop g endId? (fuel + 1) st = dijkstraLoop g endId? fuel { st with pq := rest } := by
  simp [dijkstraLoop, hsort, hvis]

theorem dijLoop_visit {g : Graph} {endId? : Option String} {fuel : Nat} {st : DijSt}
    {c : String} {cd : JNum} {rest : List (String × JNum)}
    (hsort : ssort pqLe st.pq = (c, cd) :: rest)
    (hvis : shas st.visited c = false) (hinf : (cd == jInf) = false)
    (hend : isEndHit endId? c = false) :
    dijkstraLoop g endId? (fuel + 1) st = dijkstraLoop g endId? fuel
      (dijkstraExplore c cd (getNeighbors g c)
        { st with
          visited := sadd st.visited c,
          pq := rest,
          steps := st.steps ++
            [{ type := .visit, nodeId := some c,
               message := "Processing " ++ optLabel (getNodeById g c) ++
                 " with distance " ++ jstr cd,
               distances := some st.distances,
               visited := some (sadd st.visited c) }] }) := by
  simp [dijkstraLoop, hsort, hvis, hinf, hend]

theorem dijLoop_endhit {g : Graph} {endId? : Option String} {fuel : Nat} {st : DijSt}
    {c : String} {cd : JNum} {rest : List (String × JNum)} {path : List String}
    (hsort : ssort pqLe st.pq = (c, cd) :: rest)
    (hvis : shas st.visited c = false) (hinf : (cd == jInf) = false)
    (hend : isEndHit endId? c = true)
    (hrp : reconstructPath st.parents c = some path) :
    dijkstraLoop g endId? (fuel + 1) st = some
      { steps := (st.steps ++
          [{ type := .visit, nodeId := some c,
             message := "Processing " ++ optLabel (getNodeById g c) ++
               " with distance " ++ jstr cd,
             distances := some st.distances,
             visited := some (sadd st.visited c) }]) ++
          [{ type := .complete,
             message := "Shortest path found! Distance: " ++
               oldDistStr (mfind? st.distances c),
             currentPath := some path, distances := some st.distances }],
        shortestPath := some path, distances := some st.distances } := by
  simp [dijkstraLoop, hsort, hvis, hinf, hend, hrp]

/-! ## Dijkstra: the popped minimum records its node's distance -/

theorem dij_pop_dget {g : Graph} {s : String} {st : DijSt} {c : String} {cd : JNum}
    {rest : List (String × JNum)} (hinv : DijInv g s st)
    (hsort : ssort pqLe st.pq = (c, cd) :: rest)
    (hvis : shas st.visited c = false) :
    dget st.distances c = cd ∧ (c, cd) ∈ st.pq ∧
    ∃ i k, cd = some i ∧ CWalk g s c i k := by
  have hmem : (c, cd) ∈ st.pq := by
    rw [← (ssort_perm pqLe st.pq).mem_iff, hsort]
    exact List.mem_cons_self _ _
  obtain ⟨i, k, hcd, hwalk⟩ := hinv.pqSound _ hmem
  have hdle := hinv.dle _ hmem
  have hcnot : c ∉ st.visited := fun hm => by
    rw [shas_iff_mem.mpr hm] at hvis
    cases hvis
  have hfin : dget st.distances c ≠ jInf := by
    rw [hcd] at hdle
    obtain ⟨j, hj, _⟩ := jle_fin_of_le hdle
    rw [hj]
    simp [jInf]
  have hinpq := hinv.inPq c hcnot hfin
  have hptr : ∀ a b c2 : String × JNum, pqLe a b = true → pqLe b c2 = true →
      pqLe a c2 = true := fun a b c2 hab hbc => jle_trans hab hbc
  have hptot : ∀ a b : String × JNum, pqLe a b = true ∨ pqLe b a = true :=
    fun a b => jle_total _ _
  have hmin : pqLe (c, cd) (c, dget st.distances c) = true :=
    ssort_head_min hptr hptot hsort _ hinpq
  have heq : dget st.distances c = cd := jle_antisymm hdle hmin
  exact ⟨heq, hmem, i, k, hcd, hwalk⟩

/-! ## Dijkstra: the exhausted priority list visits every reachable node -/

theorem dij_empty_reach_fin {g : Graph} {s : String} {st : DijSt}
    (hinv : DijInv g s st) (hpq : st.pq = []) :
    ∀ v, Reachable g s v → v ∈ st.visited ∧ dget st.distances v ≠ jInf := by
  have hsvis : s ∈ st.visited := by
    rcases hv : st.visited with _ | ⟨a, l⟩
    · exfalso
      have := hinv.emptyPq hv
      rw [hpq] at this
      cases this
    · rw [← hv]
      exact hinv.svis (by rw [hv]; simp)
  have key : ∀ (k : Nat) (v : String) (c : Int), CWalk g s v c k →
      v ∈ st.visited ∧ dget st.distances v ≠ jInf := by
    intro k
    induction k with
    | zero =>
      intro v c hwk
      obtain ⟨rfl, _⟩ := cwalk_zero hwk
      refine ⟨hsvis, ?_⟩
      rw [hinv.dzero]
      simp [jInf]
    | succ k ih =>
      intro v c hwk
      obtain ⟨y, w, c', hwy, hay, rfl⟩ := cwalk_snoc_inv hwk
      obtain ⟨hyv, _⟩ := ih y c' hwy
      have hvf := hinv.visClosed y hyv v w hay
      refine ⟨?_, hvf⟩
      by_contra hnv
      have := hinv.inPq v hnv hvf
      rw [hpq] at this
      cases this
  rintro v ⟨c, k, hwk⟩
  exact key k v c hwk

theorem dij_empty_stable {g : Graph} {s : String} {st : DijSt} (hn : NonnegW g)
    (hinv : DijInv g s st) (hpq : st.pq = []) : Stable g st.distances := by
  intro u v w hw
  by_cases hu : u ∈ st.visited
  · exact hinv.visStable hn u hu v w hw
  · cases hdu : dget st.distances u with
    | none =>
      exact jle_inf _
    | some j =>
      exfalso
      have := hinv.inPq u hu (by rw [hdu]; simp [jInf])
      rw [hpq] at this
      cases this

/-! ## Dijkstra: invariant preservation through one visit -/

theorem dijInv_step {g : Graph} {s : String} (hwf : WellFormed g) {st : DijSt}
    (hinv : DijInv g s st) {c : String} {cd : JNum} {rest : List (String × JNum)}
    (hsort : ssort pqLe st.pq = (c, cd) :: rest)
    (hvis : shas st.visited c = false) (tail : List AlgorithmStep) :
    DijInv g s (dijkstraExplore c cd (getNeighbors g c)
      { st with visited := sadd st.visited c, pq := rest,
                steps := st.steps ++ tail }) ∧
    (dijkstraExplore c cd (getNeighbors g c)
      { st with visited := sadd st.visited c, pq := rest,
                steps := st.steps ++ tail }).pq.length ≤ rest.length + g.edges.length ∧
    (∃ tl, (dijkstraExplore c cd (getNeighbors g c)
      { st with visited := sadd st.visited c, pq := rest,
                steps := st.steps ++ tail }).steps = st.steps ++ tl) ∧
    (dijkstraExplore c cd (getNeighbors g c)
      { st with visited := sadd st.visited c, pq := rest,
                steps := st.steps ++ tail }).visited = sadd st.visited c := by
  obtain ⟨hdc, hmem, i0, k0, hcd, hwalk⟩ := dij_pop_dget hinv hsort hvis
  have hcnot : c ∉ st.visited := fun hm => by
    rw [shas_iff_mem.mpr hm] at hvis
    cases hvis
  have hcid : c ∈ nodeIds g := hinv.pqIds _ hmem
  have hcne : c ≠ "" := by
    obtain ⟨n, hn, hid⟩ := List.mem_map.mp hcid
    exact hid ▸ hwf.2.2 n hn
  have hckey : mhas st.parents c = true := hinv.pqKeys _ hmem
  have hsadd : sadd st.visited c = st.visited ++ [c] := sadd_of_not_mem hcnot
  have hsvis1 : s ∈ sadd st.visited c := by
    rcases hv : st.visited with _ | ⟨a, l⟩
    · have hpq0 := hinv.emptyPq hv
      have : ssort pqLe st.pq = [(s, some 0)] := by rw [hpq0]; rfl
      rw [hsort] at this
      have hcs : c = s := by
        injection this with h1 h2
        exact congrArg Prod.fst h1
      rw [hcs]
      exact mem_sadd_self
    · rw [← hv]
      exact sadd_subset (hinv.svis (by rw [hv]; simp))
  have hrest_sub : ∀ x ∈ rest, x ∈ st.pq := by
    intro x hx
    rw [← (ssort_perm pqLe st.pq).mem_iff, hsort]
    exact List.mem_cons_of_mem _ hx
  have hrestmem : ∀ v, v ∉ st.visited → v ≠ c → dget st.distances v ≠ jInf →
      (v, dget st.distances v) ∈ rest := by
    intro v hnv hvc hfin
    have := hinv.inPq v hnv hfin
    rw [← (ssort_perm pqLe st.pq).mem_iff, hsort] at this
    rcases List.mem_cons.mp this with h | h
    · exact absurd (congrArg Prod.fst h) hvc
    · exact h
  have hheadmin : ∀ x ∈ st.pq, jle cd x.2 = true := by
    have hptr : ∀ a b c2 : String × JNum, pqLe a b = true → pqLe b c2 = true →
        pqLe a c2 = true := fun a b c2 hab hbc => jle_trans hab hbc
    have hptot : ∀ a b : String × JNum, pqLe a b = true ∨ pqLe b a = true :=
      fun a b => jle_total _ _
    intro x hx
    exact ssort_head_min hptr hptot hsort x hx
  set st1 : DijSt := { st with
    visited := sadd st.visited c,
    pq := rest,
    steps := st.steps ++ tail } with hst1
  have hpre : ∀ x ∈ getNeighbors g c, wadjOn g c x.1.id x.2.2 ∧ x.1.id ≠ "" ∧
      x.1.id ∈ nodeIds g ∧ mhas st1.distances x.1.id = true := by
    intro x hx
    obtain ⟨node, edge, w⟩ := x
    obtain ⟨hadj, _, hne, _⟩ := getNeighbors_sound hx
    have hnmem : node ∈ g.nodes := getNeighbors_node_mem hx
    have hid : node.id ∈ nodeIds g := List.mem_map.mpr ⟨node, hnmem, rfl⟩
    exact ⟨hadj, hne, hid, (hinv.dkeys node.id).mpr hid⟩
  obtain ⟨hexp, hstab, hlen⟩ := dijkstraExplore_spec (getNeighbors g c) st1 hpre
  set st2 : DijSt := dijkstraExplore c cd (getNeighbors g c) st1 with hst2
  obtain ⟨add, hadd, haddp⟩ := hexp.pqApp
  have hvis2 : st2.visited = st.visited ++ [c] := by
    rw [hexp.visitedEq, hst1, hsadd]
  have hchg_vis : ∀ x, x ∈ sadd st.visited c →
      mfind? st2.distances x = mfind? st.distances x ∧
      mfind? st2.parents x = mfind? st.parents x := by
    intro x hx
    rcases hexp.chg x with h | ⟨h, _⟩
    · exact h
    · exfalso
      rw [show shas st1.visited x = shas (sadd st.visited c) x from rfl,
        shas_iff_mem.mpr hx] at h
      cases h
  have hdgets : ∀ x, x ∈ sadd st.visited c →
      dget st2.distances x = dget st.distances x := by
    intro x hx
    rw [dget, (hchg_vis x hx).1, ← dget]
  refine ⟨?_, ?_, ?_, by rw [hexp.visitedEq]⟩
  · refine
      { dkeys := ?_, dzero := ?_, root := ?_, noneRoot := ?_, pvals := ?_,
        pord := ?_, visNodup := ?_, visKeys := ?_, emptyPq := ?_, svis := ?_,
        pqKeys := ?_, pqIds := ?_, pqSound := ?_, dSound := ?_, dle := ?_,
        finKey := ?_, visFin := ?_, inPq := ?_, visClosed := ?_, visle := ?_,
        visStable := ?_ }
    · intro v
      rw [hexp.dkeysEq v]
      exact hinv.dkeys v
    · rw [hdgets s hsvis1]
      exact hinv.dzero
    · rw [(hchg_vis s hsvis1).2]
      exact hinv.root
    · intro v hv
      rcases hexp.chg v with ⟨_, hp⟩ | ⟨_, _, _, hp, _⟩
      · rw [hp] at hv
        exact hinv.noneRoot v hv
      · rw [hv] at hp
        exact absurd (Option.some.inj hp) (by simp)
    · intro v u hf
      rcases hexp.chg v with ⟨_, hp⟩ | ⟨_, _, _, hp, w, hw, _, _⟩
      · rw [hp] at hf
        obtain ⟨hk, hn, w, hw⟩ := hinv.pvals v u hf
        exact ⟨hexp.pkeysMono u hk, hn, w, hw⟩
      · rw [hp] at hf
        have huc : u = c := (Option.some.inj (Option.some.inj hf)).symm
        subst huc
        exact ⟨hexp.pkeysMono u (by rw [hst1] at *; exact hckey), hcne, w, hw⟩
    · intro v u hf
      rw [hvis2]
      rcases hexp.chg v with ⟨_, hp⟩ | ⟨hnv, _, _, hp, _⟩
      · rw [hp] at hf
        obtain ⟨hu, hlt⟩ := hinv.pord v u hf
        refine ⟨List.mem_append.mpr (Or.inl hu), ?_⟩
        intro hv2
        rcases List.mem_append.mp hv2 with hv2 | hv2
        · rw [indexOf_append_left _ hu, indexOf_append_left _ hv2]
          exact hlt hv2
        · rw [List.mem_singleton.mp hv2]
          rw [indexOf_append_left _ hu, indexOf_append_self hcnot]
          exact indexOf_lt_length_of_mem hu
      · rw [hp] at hf
        have huc : u = c := (Option.some.inj (Option.some.inj hf)).symm
        rw [huc]
        refine ⟨List.mem_append.mpr (Or.inr (List.mem_singleton.mpr rfl)), ?_⟩
        intro hv2
        exfalso
        rw [show shas st1.visited v = shas (sadd st.visited c) v from rfl,
          shas_iff_mem.mpr (by rw [hsadd]; exact hv2)] at hnv
        cases hnv
    · rw [hvis2, List.nodup_append]
      refine ⟨hinv.visNodup, List.nodup_singleton _, ?_⟩
      intro y hy hy2
      rw [List.mem_singleton.mp hy2] at hy
      exact hcnot hy
    · intro v hv
      rw [hvis2] at hv
      rcases List.mem_append.mp hv with hv | hv
      · exact hexp.pkeysMono v (hinv.visKeys v hv)
      · rw [List.mem_singleton.mp hv]
        exact hexp.pkeysMono c hckey
    · intro h
      rw [hvis2] at h
      simp at h
    · intro _
      rw [hexp.visitedEq]
      exact hsvis1
    · intro x hx
      rw [hadd] at hx
      rcases List.mem_append.mp hx with hx | hx
      · exact hexp.pkeysMono x.1 (hinv.pqKeys x (hrest_sub x hx))
      · exact (haddp x hx).2.2.1
    · intro x hx
      rw [hadd] at hx
      rcases List.mem_append.mp hx with hx | hx
      · exact hinv.pqIds x (hrest_sub x hx)
      · exact (haddp x hx).2.1
    · intro x hx
      rw [hadd] at hx
      rcases List.mem_append.mp hx with hx | hx
      · exact hinv.pqSound x (hrest_sub x hx)
      · obtain ⟨_, _, _, _, w, hw, hval⟩ := haddp x hx
        refine ⟨i0 + w, k0 + 1, ?_, cwalk_snoc hwalk hw⟩
        rw [hval, hcd]
        rfl
    · intro v j hj
      rcases hexp.chg v with ⟨hd, _⟩ | ⟨_, _, _, _, w, hw, hd, _⟩
      · rw [dget, hd, ← dget] at hj
        exact hinv.dSound v j hj
      · rw [dget_eq_of_mfind? hd, hcd] at hj
        have hji : j = i0 + w := (Option.some.inj hj).symm
        rw [hji]
        exact ⟨k0 + 1, cwalk_snoc hwalk hw⟩
    · intro x hx
      rw [hadd] at hx
      rcases List.mem_append.mp hx with hx | hx
      · exact jle_trans (hexp.dmono x.1) (hinv.dle x (hrest_sub x hx))
      · exact (haddp x hx).2.2.2.1
    · intro v hfin
      rcases hexp.chg v with ⟨hd, hp⟩ | ⟨_, _, _, hp, _⟩
      · rw [dget, hd, ← dget] at hfin
        rw [mhas, hp, ← mhas]
        exact hinv.finKey v hfin
      · exact mhas_of_mfind? hp
    · intro v hv
      rw [hvis2] at hv
      rcases List.mem_append.mp hv with hv | hv
      · rw [hdgets v (sadd_subset hv)]
        exact hinv.visFin v hv
      · rw [List.mem_singleton.mp hv]
        rw [hdgets c mem_sadd_self, hdc, hcd]
        simp [jInf]
    · intro v hnv hfin
      have hnv1 : v ∉ sadd st.visited c := by
        rw [hsadd, ← hvis2]
        exact hnv
      have hvc : v ≠ c := fun he => hnv1 (he ▸ mem_sadd_self)
      have hvold : v ∉ st.visited := fun hm => hnv1 (sadd_subset hm)
      rcases hexp.chg v with ⟨hd, _⟩ | ⟨_, _, _, _, w, hw, hd, hpq⟩
      · have hdeq : dget st2.distances v = dget st.distances v := by
          rw [dget, hd, ← dget]
        rw [hdeq] at hfin ⊢
        rw [hadd]
        exact List.mem_append.mpr (Or.inl (hrestmem v hvold hvc hfin))
      · rw [dget_eq_of_mfind? hd]
        exact hpq
    · intro u hu v w hw
      rw [hvis2] at hu
      rcases List.mem_append.mp hu with hu | hu
      · have hold := hinv.visClosed u hu v w hw
        cases hdv : dget st.distances v with
        | none => exact absurd hdv hold
        | some j =>
          have := hexp.dmono v
          rw [show dget st1.distances v = dget st.distances v from rfl, hdv] at this
          obtain ⟨j2, hj2, _⟩ := jle_fin_of_le this
          rw [hj2]
          simp [jInf]
      · rw [List.mem_singleton.mp hu] at hw
        obtain ⟨node, e, hns, hid⟩ := getNeighbors_complete hwf hw
        rcases hstab (node, e, w) hns with h | h
        · rw [show shas st1.visited node.id = shas (sadd st.visited c) node.id from rfl,
            hid] at h
          have hv2 : v ∈ sadd st.visited c := shas_iff_mem.mp h
          rw [hdgets v hv2]
          rcases mem_sadd.mp hv2 with hv2 | hv2
          · exact hinv.visFin v hv2
          · rw [hv2, hdc, hcd]
            simp [jInf]
        · rw [hid, hcd] at h
          have h2 : jle (dget st2.distances v) (some (i0 + w)) = true := h
          obtain ⟨j2, hj2, _⟩ := jle_fin_of_le h2
          rw [hj2]
          simp [jInf]
    · intro hn v hv x hx
      have hwnn : ∀ y ∈ add, jle cd y.2 = true := by
        intro y hy
        obtain ⟨_, _, _, _, w, hw, hval⟩ := haddp y hy
        rw [hval]
        exact jadd_le_self (wadj_weight_nonneg hn hw)
      rw [hvis2] at hv
      rw [hadd] at hx
      rcases List.mem_append.mp hv with hv | hv
      · rw [hdgets v (sadd_subset hv)]
        rcases List.mem_append.mp hx with hx | hx
        · exact hinv.visle hn v hv x (hrest_sub x hx)
        · exact jle_trans (hinv.visle hn v hv _ hmem) (hwnn x hx)
      · rw [List.mem_singleton.mp hv, hdgets c mem_sadd_self, hdc]
        rcases List.mem_append.mp hx with hx | hx
        · exact hheadmin x (hrest_sub x hx)
        · exact hwnn x hx
    · intro hn u hu v w hw
      rw [hvis2] at hu
      rcases List.mem_append.mp hu with hu | hu
      · rw [hdgets u (sadd_subset hu)]
        exact jle_trans (hexp.dmono v) (hinv.visStable hn u hu v w hw)
      · rw [List.mem_singleton.mp hu] at hw ⊢
        rw [hdgets c mem_sadd_self, hdc]
        obtain ⟨node, e, hns, hid⟩ := getNeighbors_complete hwf hw
        rcases hstab (node, e, w) hns with h | h
        · rw [show shas st1.visited node.id = shas (sadd st.visited c) node.id from rfl,
            hid] at h
          have hv2 : v ∈ sadd st.visited c := shas_iff_mem.mp h
          rw [hdgets v hv2]
          rcases mem_sadd.mp hv2 with hv2 | hv2
          · exact jle_trans (hinv.visle hn v hv2 _ hmem)
              (jadd_le_self (wadj_weight_nonneg hn hw))
          · rw [hv2, hdc]
            exact jadd_le_self (wadj_weight_nonneg hn hw)
        · rw [hid] at h
          exact h
  · have h1 : st1.pq.length = rest.length := rfl
    rw [h1] at hlen
    exact hlen.trans (Nat.add_le_add_left (getNeighbors_length_le g c) _)
  · obtain ⟨tl, htl⟩ := hexp.steps
    refine ⟨tail ++ tl, ?_⟩
    rw [htl, show st1.steps = st.steps ++ tail from rfl, List.append_assoc]

/-! ## Dijkstra: the after-loop reporting code -/

theorem dijkstraFinish_spec {g : Graph} {s : String} {endId? : Option String}
    {st : DijSt} (hinv : DijInv g s st) :
    ∃ r, dijkstraFinish endId? st = some r ∧
      (∃ stp, r.steps = st.steps ++ [stp] ∧ stp.type = StepType.complete) ∧
      r.distances = some st.distances ∧
      (∀ e p, endId? = some e → e ∈ nodeIds g → r.shortestPath = some p →
        IsPathList g s e p) := by
  cases hstr : strTruthy endId? with
  | false =>
    have heq : dijkstraFinish endId? st = some
        { steps := st.steps ++
            [{ type := .complete,
               message := "Dijkstra complete - All shortest paths computed",
               distances := some st.distances }],
          distances := some st.distances } := by
      simp [dijkstraFinish, hstr]
    refine ⟨_, heq, ⟨_, rfl, rfl⟩, rfl, ?_⟩
    intro e p _ _ hp
    exact absurd hp (by simp)
  | true =>
    obtain ⟨e, hE⟩ : ∃ e, endId? = some e := by
      cases hEE : endId? with
      | none => rw [hEE] at hstr; simp [strTruthy] at hstr
      | some e => exact ⟨e, rfl⟩
    subst hE
    have hene : e ≠ "" := by simpa [strTruthy] using hstr
    cases hbe : mhas st.parents e with
    | true =>
      obtain ⟨l, hl⟩ := chain_exists hinv.root hinv.noneRoot hinv.pvals
        (pord_nocyc hinv.pord) e hbe
      have hrp := reconstructPath_eq hl
      have hpl : IsPathList g s e l := by
        refine pchain_isPathList ?_ hl
        intro v' u hf
        exact (hinv.pvals v' u hf).2.2
      cases hinf : (mfind? st.distances e == some none) with
      | true =>
        have heq : dijkstraFinish (some e) st = some
            { steps := st.steps ++
                [{ type := .complete, message := "No path exists",
                   currentPath := none, distances := some st.distances }],
              shortestPath := none, distances := some st.distances } := by
          simp [dijkstraFinish, strTruthy, hene, hrp, hinf]
        refine ⟨_, heq, ⟨_, rfl, rfl⟩, rfl, ?_⟩
        intro e' p _ _ hp
        exact absurd hp (by simp)
      | false =>
        have heq : dijkstraFinish (some e) st = some
            { steps := st.steps ++
                [{ type := .complete,
                   message := "Shortest path found! Distance: " ++
                     oldDistStr (mfind? st.distances e),
                   currentPath := some l, distances := some st.distances }],
              shortestPath := some l, distances := some st.distances } := by
          simp [dijkstraFinish, strTruthy, hene, hrp, hinf]
        refine ⟨_, heq, ⟨_, rfl, rfl⟩, rfl, ?_⟩
        intro e' p he' _ hp
        have hee : e' = e := Option.some.inj he'.symm
        have hpl' : p = l := (Option.some.inj hp).symm
        rw [hee, hpl']
        exact hpl
    | false =>
      have hrp := reconstructPath_absent (mhas_eq_false_iff.mp hbe)
      cases hinf : (mfind? st.distances e == some none) with
      | true =>
        have heq : dijkstraFinish (some e) st = some
            { steps := st.steps ++
                [{ type := .complete, message := "No path exists",
                   currentPath := none, distances := some st.distances }],
              shortestPath := none, distances := some st.distances } := by
          simp [dijkstraFinish, strTruthy, hene, hrp, hinf]
        refine ⟨_, heq, ⟨_, rfl, rfl⟩, rfl, ?_⟩
        intro e' p _ _ hp
        exact absurd hp (by simp)
      | false =>
        have heq : dijkstraFinish (some e) st = some
            { steps := st.steps ++
                [{ type := .complete,
                   message := "Shortest path found! Distance: " ++
                     oldDistStr (mfind? st.distances e),
                   currentPath := some [e], distances := some st.distances }],
              shortestPath := some [e], distances := some st.distances } := by
          simp [dijkstraFinish, strTruthy, hene, hrp, hinf]
        refine ⟨_, heq, ⟨_, rfl, rfl⟩, rfl, ?_⟩
        intro e' p he' hmem _
        exfalso
        have hee : e' = e := Option.some.inj he'.symm
        rw [hee] at hmem
        have hfin : dget st.distances e = jInf := by
          by_contra h
          rw [hinv.finKey e h] at hbe
          cases hbe
        have hkey : mhas st.distances e = true := (hinv.dkeys e).mpr hmem
        obtain ⟨val, hval⟩ := (mhas_iff_exists _ _).mp hkey
        have hvn : val = jInf := by
          rw [dget, hval] at hfin
          exact hfin
        rw [hval, hvn] at hinf
        simp [jInf] at hinf

/-! ## Dijkstra: the main loop -/

theorem dijkstraLoop_master {g : Graph} {s : String} {endId? : Option String}
    (hwf : WellFormed g) :
    ∀ (fuel : Nat) (st : DijSt), DijInv g s st →
    st.pq.length + unvisited g st.visited * (g.edges.length + 1) < fuel →
    ∃ r, dijkstraLoop g endId? fuel st = some r ∧
      (∃ tail stp, r.steps = st.steps ++ (tail ++ [stp]) ∧
        stp.type = StepType.complete) ∧
      (∀ e p, endId? = some e → e ∈ nodeIds g → r.shortestPath = some p →
        IsPathList g s e p) ∧
      (endId? = none → ∃ d, r.distances = some d ∧
        (∀ v, mhas d v = true ↔ v ∈ nodeIds g) ∧ dget d s = some 0 ∧
        SoundD g s d ∧ (∀ v, Reachable g s v → dget d v ≠ jInf) ∧
        (NonnegW g → Stable g d)) := by
  intro fuel
  induction fuel with
  | zero => intro st _ hm; omega
  | succ fuel ih =>
    intro st hinv hm
    cases hsort : ssort pqLe st.pq with
    | nil =>
      have hpq : st.pq = [] := by
        have hperm := ssort_perm pqLe st.pq
        rw [hsort] at hperm
        exact hperm.symm.eq_nil
      rw [dijLoop_nil hsort]
      obtain ⟨r, hr, ⟨stp, hsteps, hstp⟩, hdist, hpath⟩ := dijkstraFinish_spec hinv
      refine ⟨r, hr, ⟨[], stp, by simpa using hsteps, hstp⟩, hpath, ?_⟩
      intro _
      refine ⟨st.distances, hdist, hinv.dkeys, hinv.dzero, hinv.dSound, ?_, ?_⟩
      · intro v hv
        exact (dij_empty_reach_fin hinv hpq v hv).2
      · intro hn
        exact dij_empty_stable hn hinv hpq
    | cons hd rest =>
      obtain ⟨c, cd⟩ := hd
      have hrest_sub : ∀ x ∈ rest, x ∈ st.pq := by
        intro x hx
        rw [← (ssort_perm pqLe st.pq).mem_iff, hsort]
        exact List.mem_cons_of_mem _ hx
      have hlenpq : st.pq.length = rest.length + 1 := by
        have := (ssort_perm pqLe st.pq).length_eq
        rw [hsort] at this
        simpa using this.symm
      cases hvis : shas st.visited c with
      | true =>
        rw [dijLoop_stale hsort hvis]
        have hcvis : c ∈ st.visited := shas_iff_mem.mp hvis
        have hinv' : DijInv g s { st with pq := rest } := by
          refine
            { dkeys := hinv.dkeys, dzero := hinv.dzero, root := hinv.root,
              noneRoot := hinv.noneRoot, pvals := hinv.pvals, pord := hinv.pord,
              visNodup := hinv.visNodup, visKeys := hinv.visKeys,
              emptyPq := ?_, svis := hinv.svis,
              pqKeys := fun x hx => hinv.pqKeys x (hrest_sub x hx),
              pqIds := fun x hx => hinv.pqIds x (hrest_sub x hx),
              pqSound := fun x hx => hinv.pqSound x (hrest_sub x hx),
              dSound := hinv.dSound,
              dle := fun x hx => hinv.dle x (hrest_sub x hx),
              finKey := hinv.finKey, visFin := hinv.visFin, inPq := ?_,
              visClosed := hinv.visClosed,
              visle := fun hn v hv x hx => hinv.visle hn v hv x (hrest_sub x hx),
              visStable := hinv.visStable }
          · intro h
            exfalso
            rw [show ({ st with pq := rest } : DijSt).visited = st.visited from rfl,
              h] at hcvis
            cases hcvis
          · intro v hnv hfin
            have hvc : v ≠ c := fun he => hnv (he ▸ hcvis)
            have := hinv.inPq v hnv hfin
            rw [← (ssort_perm pqLe st.pq).mem_iff, hsort] at this
            rcases List.mem_cons.mp this with h | h
            · exact absurd (congrArg Prod.fst h) hvc
            · exact h
        refine ih _ hinv' ?_
        rw [show ({ st with pq := rest } : DijSt).pq = rest from rfl,
          show ({ st with pq := rest } : DijSt).visited = st.visited from rfl]
        omega
      | false =>
        obtain ⟨hdc, hmem, i0, k0, hcd, hwalk⟩ := dij_pop_dget hinv hsort hvis
        have hcnot : c ∉ st.visited := fun hmm => by
          rw [shas_iff_mem.mpr hmm] at hvis
          cases hvis
        have hcid : c ∈ nodeIds g := hinv.pqIds _ hmem
        have hinf : (cd == jInf) = false := by
          rw [hcd]
          rfl
        cases hend : isEndHit endId? c with
        | true =>
          have hckey := hinv.pqKeys _ hmem
          obtain ⟨l, hl⟩ := chain_exists hinv.root hinv.noneRoot hinv.pvals
            (pord_nocyc hinv.pord) c hckey
          have hrp := reconstructPath_eq hl
          rw [dijLoop_endhit hsort hvis hinf hend hrp]
          obtain ⟨e, hE, hce⟩ : ∃ e, endId? = some e ∧ c = e := by
            cases hEE : endId? with
            | none => rw [hEE] at hend; simp [isEndHit] at hend
            | some e =>
              refine ⟨e, rfl, ?_⟩
              rw [hEE] at hend
              simp only [isEndHit, Bool.and_eq_true, beq_iff_eq] at hend
              exact hend.2
          refine ⟨_, rfl, ⟨_, _, List.append_assoc _ _ _, rfl⟩, ?_, ?_⟩
          · intro e' p he' _ hp
            have hee : e' = e := by
              rw [hE] at he'
              exact Option.some.inj he'.symm
            have hpl : p = l := (Option.some.inj hp).symm
            rw [hee, hpl, ← hce]
            refine pchain_isPathList ?_ hl
            intro v' u hf
            exact (hinv.pvals v' u hf).2.2
          · intro hnone
            rw [hnone] at hE
            exact absurd hE (by simp)
        | false =>
          obtain ⟨hinv2, hlen2, ⟨tl, hsteps2⟩, hvis2⟩ := dijInv_step hwf hinv hsort hvis
            [{ type := .visit, nodeId := some c,
               message := "Processing " ++ optLabel (getNodeById g c) ++
                 " with distance " ++ jstr cd,
               distances := some st.distances,
               visited := some (sadd st.visited c) }]
          rw [dijLoop_visit hsort hvis hinf hend]
          have hmeas : (dijkstraExplore c cd (getNeighbors g c)
              { st with
                visited := sadd st.visited c,
                pq := rest,
                steps := st.steps ++
                  [{ type := .visit, nodeId := some c,
                     message := "Processing " ++ optLabel (getNodeById g c) ++
                       " with distance " ++ jstr cd,
                     distances := some st.distances,
                     visited := some (sadd st.visited c) }] }).pq.length +
              unvisited g (dijkstraExplore c cd (getNeighbors g c)
              { st with
                visited := sadd st.visited c,
                pq := rest,
                steps := st.steps ++
                  [{ type := .visit, nodeId := some c,
                     message := "Processing " ++ optLabel (getNodeById g c) ++
                       " with distance " ++ jstr cd,
                     distances := some st.distances,
                     visited := some (sadd st.visited c) }] }).visited *
              (g.edges.length + 1) < fuel := by
            rw [hvis2]
            have hUlt : unvisited g (sadd st.visited c) < unvisited g st.visited :=
              unvisited_sadd_lt hcid hcnot
            have h3 : (unvisited g (sadd st.visited c) + 1) * (g.edges.length + 1) ≤
                unvisited g st.visited * (g.edges.length + 1) :=
              Nat.mul_le_mul_right _ (by omega)
            rw [Nat.succ_mul] at h3
            omega
          obtain ⟨r, hr, ⟨tail2, stp, hsteps3, hstp⟩, hpath, hdists⟩ :=
            ih _ hinv2 hmeas
          refine ⟨r, hr, ⟨tl ++ tail2, stp, ?_, hstp⟩, hpath, hdists⟩
          rw [hsteps3, hsteps2]
          simp [List.append_assoc]

/-! ## Dijkstra: entry point -/

theorem dijkstra_run {g : Graph} {s : String} (endId? : Option String)
    (hwf : WellFormed g) (hs : s ∈ nodeIds g) :
    ∃ r, dijkstra g s endId? = some r ∧
      (∃ pre stp, r.steps = pre ++ [stp] ∧ stp.type = StepType.complete) ∧
      (∀ e p, endId? = some e → e ∈ nodeIds g → r.shortestPath = some p →
        IsPathList g s e p) ∧
      (endId? = none → ∃ d, r.distances = some d ∧
        (∀ v, mhas d v = true ↔ v ∈ nodeIds g) ∧ dget d s = some 0 ∧
        SoundD g s d ∧ (∀ v, Reachable g s v → dget d v ≠ jInf) ∧
        (NonnegW g → Stable g d)) := by
  have hkey0 : ∀ v, mhas (mset ([] : PMap) s none) v = true → v = s := by
    intro v hv
    rw [mhas_mset] at hv
    rcases Bool.or_eq_true_iff.mp hv with h | h
    · simpa using h
    · simp [mhas, mfind?_nil] at h
  have hroot0 : mfind? (mset ([] : PMap) s none) s = some none := mfind?_mset_self _ _ _
  have hnosome : ∀ v u, mfind? (mset ([] : PMap) s none) v = some (some u) → False := by
    intro v u hf
    have hv := hkey0 v (mhas_of_mfind? hf)
    rw [hv, hroot0] at hf
    exact absurd (Option.some.inj hf) (by simp)
  have hdzero : dget (g.nodes.foldl (fun d n =>
      mset d n.id (if n.id == s then some 0 else jInf)) []) s = some 0 := by
    rw [dget, @initd_mem g (fun x => if x == s then some 0 else jInf) s hs]
    simp
  have hfin_s : ∀ v, dget (g.nodes.foldl (fun d n =>
      mset d n.id (if n.id == s then some 0 else jInf)) []) v ≠ jInf →
      v = s ∧ dget (g.nodes.foldl (fun d n =>
        mset d n.id (if n.id == s then some 0 else jInf)) []) v = some 0 := by
    intro v hv
    by_cases hmemv : v ∈ nodeIds g
    · by_cases hvs : v = s
      · subst hvs
        exact ⟨rfl, hdzero⟩
      · exfalso
        apply hv
        rw [dget, @initd_mem g (fun x => if x == s then some 0 else jInf) v hmemv]
        simp [hvs, jInf]
    · exfalso
      apply hv
      rw [dget, @initd_not_mem g (fun x => if x == s then some 0 else jInf) v hmemv]
      rfl
  have hinv0 : DijInv g s
      { steps :=
          [{ type := .visit, nodeId := some s,
             message := "Starting Dijkstra from " ++ optLabel (getNodeById g s),
             distances := some (g.nodes.foldl (fun d n =>
               mset d n.id (if n.id == s then some 0 else jInf)) []),
             visited := some [] }],
        distances := g.nodes.foldl (fun d n =>
          mset d n.id (if n.id == s then some 0 else jInf)) [],
        parents := mset [] s none, visited := [], pq := [(s, some 0)] } := by
    refine
      { dkeys := fun v => @initd_keys g (fun x => if x == s then some 0 else jInf) v,
        dzero := hdzero, root := hroot0,
        noneRoot := fun v hv => hkey0 v (mhas_of_mfind? hv),
        pvals := fun v u hf => (hnosome v u hf).elim,
        pord := fun v u hf => (hnosome v u hf).elim,
        visNodup := List.nodup_nil,
        visKeys := fun v hv => absurd hv (List.not_mem_nil v),
        emptyPq := fun _ => rfl,
        svis := fun h => absurd rfl h,
        pqKeys := ?_, pqIds := ?_, pqSound := ?_, dSound := ?_, dle := ?_,
        finKey := ?_, visFin := fun v hv => absurd hv (List.not_mem_nil v),
        inPq := ?_,
        visClosed := fun u hu => absurd hu (List.not_mem_nil u),
        visle := fun _ v hv => absurd hv (List.not_mem_nil v),
        visStable := fun _ u hu => absurd hu (List.not_mem_nil u) }
    · intro x hx
      rw [List.mem_singleton.mp hx]
      exact mhas_of_mfind? hroot0
    · intro x hx
      rw [List.mem_singleton.mp hx]
      exact hs
    · intro x hx
      rw [List.mem_singleton.mp hx]
      exact ⟨0, 0, rfl, CWalk.nil s⟩
    · intro v j hj
      obtain ⟨hvs, h0⟩ := hfin_s v (by rw [hj]; simp [jInf])
      rw [hj] at h0
      have hj0 : j = 0 := Option.some.inj h0
      subst hvs
      rw [hj0]
      exact ⟨0, CWalk.nil v⟩
    · intro x hx
      rw [List.mem_singleton.mp hx]
      show jle (dget _ s) (some 0) = true
      rw [hdzero]
      exact jle_refl _
    · intro v hv
      rw [(hfin_s v hv).1]
      exact mhas_of_mfind? hroot0
    · intro v hnv hfin
      obtain ⟨hvs, h0⟩ := hfin_s v hfin
      subst hvs
      rw [h0]
      exact List.mem_singleton.mpr rfl
  have hmeas : (1 : Nat) + unvisited g ([] : JSet) * (g.edges.length + 1) < dijFuel g := by
    have hU : unvisited g ([] : JSet) ≤ g.nodes.length := List.length_filter_le _ _
    have h2 : unvisited g ([] : JSet) * (g.edges.length + 1) ≤
        g.nodes.length * (g.edges.length + 1) := Nat.mul_le_mul_right _ hU
    unfold dijFuel
    have h3 : (g.nodes.length + 1) * (g.edges.length + 1) =
        g.nodes.length * (g.edges.length + 1) + (g.edges.length + 1) :=
      Nat.succ_mul _ _
    omega
  obtain ⟨r, hr, ⟨tail, stp, hsteps, hstp⟩, hpath, hdists⟩ :=
    dijkstraLoop_master hwf (dijFuel g) _ hinv0 hmeas
  refine ⟨r, hr,
    ⟨[{ type := .visit, nodeId := some s,
        message := "Starting Dijkstra from " ++ optLabel (getNodeById g s),
        distances := some (g.nodes.foldl (fun d n =>
          mset d n.id (if n.id == s then some 0 else jInf)) []),
        visited := some [] }] ++ tail, stp, ?_, hstp⟩, hpath, hdists⟩
  rw [hsteps]
  simp

/-! ## Bellman-Ford: the relaxation guard -/

theorem bfRelaxable_elim {d : DMap} {src dst : String} {w : Int}
    (h : bfRelaxable d src dst w = true) :
    ∃ f, mfind? d src = some (some f) ∧ dget d src = some f ∧
      jlt (some (f + w)) (dget d dst) = true := by
  unfold bfRelaxable at h
  cases hsrc : mfind? d src with
  | none => rw [hsrc] at h; cases h
  | some v =>
    cases v with
    | none => rw [hsrc] at h; cases h
    | some f =>
      cases hdst : mfind? d dst with
      | none => rw [hsrc, hdst] at h; cases h
      | some t =>
        rw [hsrc, hdst] at h
        refine ⟨f, rfl, by simp [dget, hsrc], ?_⟩
        rw [dget, hdst]
        exact h

theorem bfRelaxable_false_le {d : DMap} {src dst : String} {w : Int}
    (hdst : mhas d dst = true) (h : bfRelaxable d src dst w = false) :
    jle (dget d dst) (jadd (dget d src) w) = true := by
  cases hsrc : mfind? d src with
  | none =>
    have hdi : dget d src = jInf := by simp [dget, hsrc]
    rw [hdi]
    exact jle_inf _
  | some v =>
    cases v with
    | none =>
      have hdi : dget d src = jInf := by simp [dget, hsrc, jInf]
      rw [hdi]
      exact jle_inf _
    | some f =>
      obtain ⟨t, ht⟩ := (mhas_iff_exists _ _).mp hdst
      unfold bfRelaxable at h
      rw [hsrc, ht] at h
      rw [dget, ht, dget, hsrc]
      exact jle_of_not_jlt h

theorem stable_of_no_relax {g : Graph} (href : EdgesRefNodes g) {d : DMap}
    (hdk : ∀ v, v ∈ nodeIds g → mhas d v = true)
    (h : ∀ e ∈ g.edges, ∀ sd ∈ edgeDirections g e,
      bfRelaxable d sd.1 sd.2 e.weight = false) : Stable g d := by
  intro u v w hw
  obtain ⟨e, he, hsd, hwt⟩ := wadj_edgeDirections hw
  have hvk : mhas d v = true := hdk v (wadjOn_target_mem href hw)
  have := bfRelaxable_false_le hvk (h e he _ hsd)
  rw [hwt] at this
  exact this

/-! ## Parent-pointer path inversion and first-occurrence splitting -/

theorem ppath_cons_inv {p : PMap} {g : Graph} {a b : String} {c : Int}
    {T : List String} (h : PPath p g a b c T) :
    (∃ w2, T = [a] ∧ mfind? p a = some (some b) ∧ wadjOn g b a w2 ∧ c = w2) ∨
    (∃ u w2 c2 T2, T = a :: T2 ∧ mfind? p a = some (some u) ∧ wadjOn g u a w2 ∧
      PPath p g u b c2 T2 ∧ c = w2 + c2) := by
  cases h with
  | single hf hw => exact Or.inl ⟨_, rfl, hf, hw, rfl⟩
  | cons hf hw hs => exact Or.inr ⟨_, _, _, _, rfl, hf, hw, hs, rfl⟩

theorem ppath_split_first {g : Graph} (hwf : WellFormed g) {p : PMap}
    {v a b : String} {c : Int} {T : List String}
    (h : PPath p g a b c T) : v ∈ T → v ≠ a →
    ∃ c1 c2 T1 T2, PPath p g a v c1 T1 ∧ PPath p g v b c2 T2 ∧
      c = c1 + c2 ∧ T = T1 ++ T2 ∧ v ∉ T1 ∧ T2.length < T.length := by
  induction h with
  | @single a0 b0 w0 hf hw =>
    intro hv hva
    exact absurd (by simpa using hv) hva
  | @cons a0 u0 b0 w0 c0 T0 hf hw hsub ih =>
    intro hv hva
    have hv0 : v ∈ T0 := by
      rcases List.mem_cons.mp hv with h | h
      · exact absurd h hva
      · exact h
    by_cases hvu : v = u0
    · subst hvu
      refine ⟨w0, c0, [a0], T0, PPath.single hf hw, hsub, rfl, rfl, ?_, ?_⟩
      · intro hm
        exact absurd (List.mem_singleton.mp hm) (wadjOn_ne hwf hw)
      · simp
    · obtain ⟨c1, c2, T1, T2, h1, h2, hc, hT, hnT1, hlen⟩ := ih hv0 hvu
      refine ⟨w0 + c1, c2, a0 :: T1, T2, PPath.cons hf hw h1, h2, by rw [hc]; ring,
        by rw [hT]; rfl, ?_, ?_⟩
      · intro hm
        rcases List.mem_cons.mp hm with h | h
        · exact hva h
        · exact hnT1 h
      · simp only [List.length_cons]
        omega

/-! ## Bellman-Ford: parent cycles stay negative through a relaxation -/

theorem bf_cycNeg_relax {g : Graph} (hwf : WellFormed g) {d : DMap} {p : PMap}
    {src dst : String} {w : Int}
    (hpv : ∀ v u, mfind? p v = some (some u) →
      ∃ w2, wadjOn g u v w2 ∧ jle (jadd (dget d u) w2) (dget d v) = true)
    (hcyc : ∀ v c T, PPath p g v v c T → c < 0)
    (hadj : wadjOn g src dst w)
    (hlt : jlt (jadd (dget d src) w) (dget d dst) = true) :
    ∀ v c T, PPath (mset p dst (some src)) g v v c T → c < 0 := by
  have hne : src ≠ dst := wadjOn_ne hwf hadj
  obtain ⟨f, hf⟩ : ∃ f, dget d src = some f := by
    cases hds : dget d src with
    | none =>
      rw [hds] at hlt
      cases hlt
    | some f => exact ⟨f, rfl⟩
  have hseam : ∀ ca Ta, PPath p g src dst ca Ta → w + ca < 0 := by
    intro ca Ta hp2
    have hbfp := ppath_bfp hwf hpv hp2
    rw [hf] at hlt
    cases hdd : dget d dst with
    | none =>
      rw [hdd] at hbfp
      rw [hf] at hbfp
      cases hbfp
    | some t =>
      rw [hdd] at hbfp hlt
      rw [hf] at hbfp
      rw [jadd_some] at hbfp
      have h1 := jle_some_iff.mp hbfp
      have h2 : f + w < t := by simpa [jlt, jadd] using hlt
      omega
  have main : ∀ n, ∀ v c T, T.length < n →
      PPath (mset p dst (some src)) g v v c T → c < 0 := by
    intro n
    induction n with
    | zero => intro v c T h _; omega
    | succ n ih =>
      intro v c T hlen h
      by_cases hdT : dst ∈ T
      · have hrot : ∃ T2, PPath (mset p dst (some src)) g dst dst c T2 ∧
            T2.length = T.length := by
          rcases ppath_split h hdT with heq | ⟨c1, c2, T1, T2, h1, h2, hc, hT, _⟩
          · subst heq
            exact ⟨T, h, rfl⟩
          · refine ⟨T2 ++ T1, ?_, ?_⟩
            · have hap := ppath_append h2 h1
              rw [show c2 + c1 = c from by rw [hc]; ring] at hap
              exact hap
            · rw [hT]
              simp [Nat.add_comm]
        obtain ⟨T3, hcy, hlen3⟩ := hrot
        rcases ppath_cons_inv hcy with ⟨w2, hT3, hf2, hw2, hc2⟩ |
          ⟨u0, w0, c0, T0, hT3, hf2, hw0adj, hsub, hcc⟩
        · rw [mfind?_mset_self] at hf2
          exact absurd (Option.some.inj (Option.some.inj hf2)) hne
        · rw [mfind?_mset_self] at hf2
          have hu0 : u0 = src := (Option.some.inj (Option.some.inj hf2)).symm
          subst hu0
          have hw0 : w0 = w := wadjOn_unique hwf hw0adj hadj
          subst hw0
          by_cases hdT0 : dst ∈ T0
          · have hdsrc : dst ≠ u0 := fun he => hne he.symm
            obtain ⟨ca, cb, Ta, Tb, ha, hb, hc0, hT0s, hnTa, hblen⟩ :=
              ppath_split_first hwf hsub hdT0 hdsrc
            have ha2 : PPath p g u0 dst ca Ta := ppath_mset_out ha hnTa
            have h1 := hseam ca Ta ha2
            have h2 : cb < 0 := by
              refine ih dst cb Tb ?_ hb
              have hT0len : T0.length + 1 = T3.length := by
                rw [hT3]
                rfl
              omega
            omega
          · have hsub2 : PPath p g u0 dst c0 T0 := ppath_mset_out hsub hdT0
            have := hseam c0 T0 hsub2
            omega
      · exact hcyc v c T (ppath_mset_out h hdT)
  intro v c T h
  exact main (T.length + 1) v c T (by omega) h

/-! ## Bellman-Ford: invariant preservation through one relaxation -/

theorem bfInv_relax {g : Graph} {s : String} (hwf : WellFormed g) {d : DMap} {p : PMap}
    (hinv : BFInv g s d p) {e : Edge} (he : e ∈ g.edges) {src dst : String}
    (hdir : (src, dst) ∈ edgeDirections g e)
    (hrel : bfRelaxable d src dst e.weight = true) :
    BFInv g s (mset d dst (jadd (dget d src) e.weight)) (mset p dst (some src)) ∧
    (∀ x, jle (dget (mset d dst (jadd (dget d src) e.weight)) x) (dget d x) = true) := by
  obtain ⟨f, hfsrc, hfget, hlt⟩ := bfRelaxable_elim hrel
  have hadj : wadjOn g src dst e.weight := edgeDirections_wadj he hdir
  have hne : src ≠ dst := wadjOn_ne hwf hadj
  have hsrcid : src ∈ nodeIds g := wadjOn_source_mem hwf.1.1 hadj
  have hdstid : dst ∈ nodeIds g := wadjOn_target_mem hwf.1.1 hadj
  have hsrcne : src ≠ "" := by
    obtain ⟨n, hn, hid⟩ := List.mem_map.mp hsrcid
    exact hid ▸ hwf.2.2 n hn
  have hnew : dget (mset d dst (jadd (dget d src) e.weight)) dst =
      some (f + e.weight) := by
    rw [dget_eq_of_mfind? (mfind?_mset_self _ _ _), hfget]
    rfl
  have hold : ∀ x, x ≠ dst →
      dget (mset d dst (jadd (dget d src) e.weight)) x = dget d x := by
    intro x hx
    rw [dget, mfind?_mset_ne _ _ hx, ← dget]
  have hdmono : ∀ x, jle (dget (mset d dst (jadd (dget d src) e.weight)) x)
      (dget d x) = true := by
    intro x
    by_cases hx : x = dst
    · subst hx
      rw [hnew]
      exact jle_of_jlt hlt
    · rw [hold x hx]
      exact jle_refl _
  have hsrckey : mhas p src = true := by
    apply hinv.finKey
    rw [hfget]
    simp [jInf]
  refine ⟨?_, hdmono⟩
  refine
    { dkeys := ?_, sLe0 := ?_, sound := ?_, keysFin := ?_, finKey := ?_,
      pvals := ?_, cycNeg := ?_, disj := ?_ }
  · intro v
    rw [mhas_mset]
    constructor
    · intro h
      rcases Bool.or_eq_true_iff.mp h with h | h
      · rw [(by simpa using h : v = dst)]
        exact hdstid
      · exact (hinv.dkeys v).mp h
    · intro h
      rw [(hinv.dkeys v).mpr h]
      simp
  · by_cases hsd : s = dst
    · subst hsd
      rw [hnew]
      have hs0 := hinv.sLe0
      cases hds : dget d s with
      | none =>
        rw [hds] at hs0
        cases hs0
      | some t =>
        rw [hds] at hs0 hlt
        have h1 := jle_some_iff.mp hs0
        have h2 : f + e.weight < t := by simpa [jlt, jadd] using hlt
        exact jle_some_iff.mpr (by omega)
    · rw [hold s hsd]
      exact hinv.sLe0
  · intro v j hj
    by_cases hx : v = dst
    · subst hx
      rw [hnew] at hj
      have hji : j = f + e.weight := (Option.some.inj hj).symm
      obtain ⟨k, hwk⟩ := hinv.sound src f hfget
      rw [hji]
      exact ⟨k + 1, cwalk_snoc hwk hadj⟩
    · rw [hold v hx] at hj
      exact hinv.sound v j hj
  · intro v hv
    by_cases hx : v = dst
    · subst hx
      rw [hnew]
      simp [jInf]
    · rw [hold v hx]
      rw [mhas_mset] at hv
      rcases Bool.or_eq_true_iff.mp hv with h | h
      · exact absurd (by simpa using h : v = dst) hx
      · exact hinv.keysFin v h
  · intro v hv
    by_cases hx : v = dst
    · subst hx
      exact mhas_of_mfind? (mfind?_mset_self _ _ _)
    · rw [hold v hx] at hv
      exact mhas_mset_mono _ _ (hinv.finKey v hv)
  · intro v u hf2
    by_cases hx : v = dst
    · subst hx
      rw [mfind?_mset_self] at hf2
      have hus : u = src := (Option.some.inj (Option.some.inj hf2)).symm
      subst hus
      refine ⟨mhas_mset_mono _ _ hsrckey, hsrcne, e.weight, hadj, ?_⟩
      rw [hold u hne, hnew, hfget]
      exact jle_refl _
    · rw [mfind?_mset_ne _ _ hx] at hf2
      obtain ⟨hk, hune, w2, hw2, hle2⟩ := hinv.pvals v u hf2
      refine ⟨mhas_mset_mono _ _ hk, hune, w2, hw2, ?_⟩
      rw [hold v hx]
      exact jle_trans (jadd_mono w2 (hdmono u)) hle2
  · have hltd : jlt (jadd (dget d src) e.weight) (dget d dst) = true := by
      rw [hfget]
      exact hlt
    exact bf_cycNeg_relax hwf (fun v u hf2 => (hinv.pvals v u hf2).2.2)
      hinv.cycNeg hadj hltd
  · rcases hinv.disj with ⟨hroot, hnone⟩ | hneg
    · by_cases hsd : dst = s
      · subst hsd
        right
        have hs0 := hinv.sLe0
        cases hds : dget d dst with
        | none =>
          rw [hds] at hs0
          cases hs0
        | some t =>
          rw [hds] at hs0 hlt
          have h1 := jle_some_iff.mp hs0
          have h2 : f + e.weight < t := by simpa [jlt, jadd] using hlt
          obtain ⟨k, hwk⟩ := hinv.sound src f hfget
          exact ⟨dst, f + e.weight, k + 1, ⟨0, 0, CWalk.nil dst⟩,
            cwalk_snoc hwk hadj, by omega, by omega⟩
      · left
        refine ⟨?_, ?_⟩
        · rw [mfind?_mset_ne _ _ (fun h => hsd h.symm)]
          exact hroot
        · intro v hv
          by_cases hx : v = dst
          · subst hx
            rw [mfind?_mset_self] at hv
            exact absurd (Option.some.inj hv) (by simp)
          · rw [mfind?_mset_ne _ _ hx] at hv
            exact hnone v hv
    · exact Or.inr hneg

/-! ## Bellman-Ford: direction loop, pass, iteration -/

theorem bfRelaxDirs_spec {g : Graph} {s : String} (hwf : WellFormed g) {e : Edge}
    (he : e ∈ g.edges) :
    ∀ (dirs : List (String × String)) (steps : List AlgorithmStep) (d : DMap)
      (p : PMap) (u : Bool),
    (∀ sd ∈ dirs, sd ∈ edgeDirections g e) →
    BFInv g s d p →
    ∃ steps2 d2 p2 u2, bfRelaxDirs g e dirs (steps, d, p, u) = (steps2, d2, p2, u2) ∧
      BFInv g s d2 p2 ∧ (∃ tail, steps2 = steps ++ tail) ∧
      (∀ x, jle (dget d2 x) (dget d x) = true) ∧
      (∀ sd ∈ dirs, jle (dget d2 sd.2) (jadd (dget d sd.1) e.weight) = true) ∧
      (u2 = false → u = false ∧ d2 = d ∧ p2 = p ∧
        ∀ sd ∈ dirs, bfRelaxable d sd.1 sd.2 e.weight = false) := by
  intro dirs
  induction dirs with
  | nil =>
    intro steps d p u _ hinv
    refine ⟨steps, d, p, u, rfl, hinv, ⟨[], by simp⟩, fun x => jle_refl _, ?_, ?_⟩
    · intro sd hsd
      simp at hsd
    · intro h
      exact ⟨h, rfl, rfl, fun sd hsd => by simp at hsd⟩
  | cons hd rest ih =>
    intro steps d p u hpre hinv
    obtain ⟨src, dst⟩ := hd
    have hdir := hpre (src, dst) (List.mem_cons_self _ _)
    have hprerest : ∀ sd ∈ rest, sd ∈ edgeDirections g e :=
      fun sd hsd => hpre sd (List.mem_cons_of_mem _ hsd)
    have hadj : wadjOn g src dst e.weight := edgeDirections_wadj he hdir
    have hdstid : dst ∈ nodeIds g := wadjOn_target_mem hwf.1.1 hadj
    cases hrel : bfRelaxable d src dst e.weight with
    | false =>
      have heq : bfRelaxDirs g e ((src, dst) :: rest) (steps, d, p, u) =
          bfRelaxDirs g e rest (steps, d, p, u) := by
        simp [bfRelaxDirs, hrel]
      rw [heq]
      obtain ⟨steps2, d2, p2, u2, heq2, hinv2, htail, hdm, hstab, hu⟩ :=
        ih steps d p u hprerest hinv
      refine ⟨steps2, d2, p2, u2, heq2, hinv2, htail, hdm, ?_, ?_⟩
      · intro sd hsd
        rcases List.mem_cons.mp hsd with h | h
        · rw [h]
          refine jle_trans (hdm dst) ?_
          exact bfRelaxable_false_le ((hinv.dkeys dst).mpr hdstid) hrel
        · exact hstab sd h
      · intro h2
        obtain ⟨hu1, hd1, hp1, hall⟩ := hu h2
        refine ⟨hu1, hd1, hp1, ?_⟩
        intro sd hsd
        rcases List.mem_cons.mp hsd with h | h
        · rw [h]
          exact hrel
        · exact hall sd h
    | true =>
      have heq : bfRelaxDirs g e ((src, dst) :: rest) (steps, d, p, u) =
          bfRelaxDirs g e rest
            (steps ++
              [{ type := .relax, nodeId := some dst, edgeId := some e.id,
                 message := "Relaxed edge: distance to " ++
                   optLabel (getNodeById g dst) ++ " = " ++
                   jstr (jadd (mfind? d src |>.getD jInf) e.weight),
                 distances := some (mset d dst
                   (jadd (mfind? d src |>.getD jInf) e.weight)) }],
             mset d dst (jadd (mfind? d src |>.getD jInf) e.weight),
             mset p dst (some src), true) := by
        simp [bfRelaxDirs, hrel]
      rw [heq]
      obtain ⟨hinv1, hdm1⟩ := bfInv_relax hwf hinv he hdir hrel
      obtain ⟨steps2, d2, p2, u2, heq2, hinv2, ⟨tail2, htail2⟩, hdm2, hstab2, hu2⟩ :=
        ih _ _ _ true hprerest hinv1
      refine ⟨steps2, d2, p2, u2, heq2, hinv2,
        ⟨_, by rw [htail2, List.append_assoc]⟩, ?_, ?_, ?_⟩
      · intro x
        exact jle_trans (hdm2 x) (hdm1 x)
      · intro sd hsd
        rcases List.mem_cons.mp hsd with h | h
        · rw [h]
          have h3 := hdm2 dst
          rw [show dget (mset d dst (jadd (dget d src) e.weight)) dst =
              jadd (dget d src) e.weight from
            dget_eq_of_mfind? (mfind?_mset_self _ _ _)] at h3
          exact h3
        · refine jle_trans (hstab2 sd h) (jadd_mono _ (hdm1 sd.1))
      · intro h2
        exact absurd (hu2 h2).1 (by simp)

theorem bfPass_spec {g : Graph} {s : String} (hwf : WellFormed g) :
    ∀ (es : List Edge) (steps : List AlgorithmStep) (d : DMap) (p : PMap) (u : Bool),
    (∀ e ∈ es, e ∈ g.edges) →
    BFInv g s d p →
    ∃ steps2 d2 p2 u2, bfPass g es (steps, d, p, u) = (steps2, d2, p2, u2) ∧
      BFInv g s d2 p2 ∧ (∃ tail, steps2 = steps ++ tail) ∧
      (∀ x, jle (dget d2 x) (dget d x) = true) ∧
      (∀ e ∈ es, ∀ sd ∈ edgeDirections g e,
        jle (dget d2 sd.2) (jadd (dget d sd.1) e.weight) = true) ∧
      (u2 = false → u = false ∧ d2 = d ∧ p2 = p ∧
        ∀ e ∈ es, ∀ sd ∈ edgeDirections g e,
          bfRelaxable d sd.1 sd.2 e.weight = false) := by
  intro es
  induction es with
  | nil =>
    intro steps d p u _ hinv
    refine ⟨steps, d, p, u, rfl, hinv, ⟨[], by simp⟩, fun x => jle_refl _, ?_, ?_⟩
    · intro e2 he2
      simp at he2
    · intro h
      exact ⟨h, rfl, rfl, fun e2 he2 => by simp at he2⟩
  | cons e rest ih =>
    intro steps d p u hpre hinv
    have hee : e ∈ g.edges := hpre e (List.mem_cons_self _ _)
    have hprer : ∀ e2 ∈ rest, e2 ∈ g.edges :=
      fun e2 he2 => hpre e2 (List.mem_cons_of_mem _ he2)
    obtain ⟨s1, d1, p1, u1, heq1, hinv1, ⟨t1, ht1⟩, hdm1, hstab1, hu1⟩ :=
      bfRelaxDirs_spec hwf hee (edgeDirections g e) steps d p u (fun sd hsd => hsd) hinv
    have heq : bfPass g (e :: rest) (steps, d, p, u) = bfPass g rest (s1, d1, p1, u1) := by
      show bfPass g rest (bfRelaxDirs g e (edgeDirections g e) (steps, d, p, u)) =
        bfPass g rest (s1, d1, p1, u1)
      rw [heq1]
    rw [heq]
    obtain ⟨s2, d2, p2, u2, heq2, hinv2, ⟨t2, ht2⟩, hdm2, hstab2, hu2⟩ :=
      ih s1 d1 p1 u1 hprer hinv1
    refine ⟨s2, d2, p2, u2, heq2, hinv2,
      ⟨_, by rw [ht2, ht1, List.append_assoc]⟩, ?_, ?_, ?_⟩
    · intro x
      exact jle_trans (hdm2 x) (hdm1 x)
    · intro e2 he2 sd hsd
      rcases List.mem_cons.mp he2 with h | h
      · subst h
        exact jle_trans (hdm2 sd.2) (hstab1 sd hsd)
      · exact jle_trans (hstab2 e2 h sd hsd) (jadd_mono _ (hdm1 sd.1))
    · intro h2
      obtain ⟨hu1f, hd1, hp1, hall1⟩ := hu1 (hu2 h2).1
      obtain ⟨_, hd2, hp2, hall2⟩ := hu2 h2
      refine ⟨hu1f, hd2.trans hd1, hp2.trans hp1, ?_⟩
      intro e2 he2 sd hsd
      rcases List.mem_cons.mp he2 with h | h
      · subst h
        exact hall1 sd hsd
      · have := hall2 e2 h sd hsd
        rw [hd1] at this
        exact this

theorem bfPass_passbound {g : Graph} {s : String} {d d2 : DMap} {j : Nat}
    (hstab : ∀ e ∈ g.edges, ∀ sd ∈ edgeDirections g e,
      jle (dget d2 sd.2) (jadd (dget d sd.1) e.weight) = true)
    (hmono : ∀ x, jle (dget d2 x) (dget d x) = true)
    (hpb : PassBound g s d j) : PassBound g s d2 (j + 1) := by
  intro v c k hk hwk
  by_cases hkj : k ≤ j
  · exact jle_trans (hmono v) (hpb v c k hkj hwk)
  · have hkeq : k = j + 1 := by omega
    subst hkeq
    obtain ⟨y, w, c', hwy, hay, hc⟩ := cwalk_snoc_inv hwk
    have h1 := hpb y c' j (le_refl _) hwy
    obtain ⟨e2, he2, hsd, hwt⟩ := wadj_edgeDirections hay
    have h2 := hstab e2 he2 _ hsd
    rw [hwt] at h2
    have h3 := jadd_mono w h1
    rw [jadd_some] at h3
    rw [hc]
    exact jle_trans h2 h3

theorem bfIterate_spec {g : Graph} {s : String} (hwf : WellFormed g) (total : Nat) :
    ∀ (k iterIdx : Nat) (steps : List AlgorithmStep) (d : DMap) (p : PMap) (j : Nat),
    BFInv g s d p → PassBound g s d j →
    ∃ steps2 d2 p2, bfIterate g total k iterIdx (steps, d, p) = (steps2, d2, p2) ∧
      BFInv g s d2 p2 ∧ (∃ tail, steps2 = steps ++ tail) ∧
      (PassBound g s d2 (j + k) ∨ Stable g d2) := by
  intro k
  induction k with
  | zero =>
    intro iterIdx steps d p j hinv hpb
    exact ⟨steps, d, p, rfl, hinv, ⟨[], by simp⟩, Or.inl (by simpa using hpb)⟩
  | succ k ih =>
    intro iterIdx steps d p j hinv hpb
    obtain ⟨s1, d1, p1, u1, heq1, hinv1, ⟨t1, ht1⟩, hdm1, hstab1, hu1⟩ :=
      bfPass_spec hwf g.edges
        (steps ++
          [{ type := .visit,
             message := "Iteration " ++ toString (iterIdx + 1) ++ " of " ++
               toString total,
             distances := some d }]) d p false (fun e2 he2 => he2) hinv
    have hpb1 : PassBound g s d1 (j + 1) := bfPass_passbound hstab1 hdm1 hpb
    cases hu : u1 with
    | true =>
      have heq : bfIterate g total (k + 1) iterIdx (steps, d, p) =
          bfIterate g total k (iterIdx + 1) (s1, d1, p1) := by
        rw [hu] at heq1
        simp [bfIterate, heq1]
      rw [heq]
      obtain ⟨s2, d2, p2, heq2, hinv2, ⟨t2, ht2⟩, hres⟩ :=
        ih (iterIdx + 1) s1 d1 p1 (j + 1) hinv1 hpb1
      refine ⟨s2, d2, p2, heq2, hinv2,
        ⟨_, by rw [ht2, ht1, List.append_assoc, List.append_assoc]⟩, ?_⟩
      rcases hres with h | h
      · left
        rw [show j + (k + 1) = j + 1 + k from by omega]
        exact h
      · exact Or.inr h
    | false =>
      obtain ⟨_, hd1, hp1, hall⟩ := hu1 hu
      have heq : bfIterate g total (k + 1) iterIdx (steps, d, p) =
          (s1 ++
            [{ type := .visit,
               message := "No updates in iteration " ++ toString (iterIdx + 1) ++
                 ", terminating early",
               distances := some d1 }], d1, p1) := by
        rw [hu] at heq1
        simp [bfIterate, heq1]
      rw [heq]
      refine ⟨_, d1, p1, rfl, hinv1,
        ⟨_, by rw [ht1, List.append_assoc, List.append_assoc]⟩, ?_⟩
      right
      rw [hd1]
      exact stable_of_no_relax hwf.1.1 (fun v hv => (hinv.dkeys v).mpr hv) hall

/-! ## Bellman-Ford: the final relaxable-edge scan -/

theorem bfFind_none {g : Graph} {d : DMap} :
    ∀ es, bfFindRelaxable g d es = none →
    ∀ e ∈ es, ∀ sd ∈ edgeDirections g e, bfRelaxable d sd.1 sd.2 e.weight = false := by
  intro es
  induction es with
  | nil =>
    intro _ e he
    simp at he
  | cons e0 rest ih =>
    intro h e he sd hsd
    unfold bfFindRelaxable at h
    cases hany : (edgeDirections g e0).any (fun sd2 => bfRelaxable d sd2.1 sd2.2 e0.weight) with
    | true =>
      rw [hany] at h
      simp at h
    | false =>
      rw [hany] at h
      simp at h
      rcases List.mem_cons.mp he with heq | hmem
      · subst heq
        have := List.any_eq_false.mp hany sd hsd
        simpa using this
      · exact ih h e hmem sd hsd

theorem bfFind_some {g : Graph} {d : DMap} {e : Edge} :
    ∀ es, bfFindRelaxable g d es = some e →
    e ∈ es ∧ ∃ sd ∈ edgeDirections g e, bfRelaxable d sd.1 sd.2 e.weight = true := by
  intro es
  induction es with
  | nil =>
    intro h
    cases h
  | cons e0 rest ih =>
    intro h
    unfold bfFindRelaxable at h
    cases hany : (edgeDirections g e0).any (fun sd2 => bfRelaxable d sd2.1 sd2.2 e0.weight) with
    | true =>
      rw [hany] at h
      simp at h
      have hee : e0 = e := h
      subst hee
      obtain ⟨sd, hsd, hrel⟩ := List.any_eq_true.mp hany
      exact ⟨List.mem_cons_self _ _, sd, hsd, by simpa using hrel⟩
    | false =>
      rw [hany] at h
      simp at h
      obtain ⟨hmem, hrest⟩ := ih h
      exact ⟨List.mem_cons_of_mem _ hmem, hrest⟩

/-! ## Bellman-Ford: entry point -/

theorem bellmanFord_run {g : Graph} {s : String} (endId? : Option String)
    (hwf : WellFormed g) (hs : s ∈ nodeIds g) :
    ∃ r, bellmanFord g s endId? = some r ∧
      (∃ pre stp, r.steps = pre ++ [stp] ∧ stp.type = StepType.complete) ∧
      (r.hasNegativeCycle = some true ↔ NegCycleFrom g s) ∧
      (∀ e p, endId? = some e → e ∈ nodeIds g → r.shortestPath = some p →
        IsPathList g s e p) ∧
      (∃ d, r.distances = some d ∧ (∀ v, mhas d v = true ↔ v ∈ nodeIds g) ∧
        jle (dget d s) (some 0) = true ∧ SoundD g s d ∧
        (NonnegW g → AllWalkBound g s d)) := by
  have hkey0 : ∀ v, mhas (mset ([] : PMap) s none) v = true → v = s := by
    intro v hv
    rw [mhas_mset] at hv
    rcases Bool.or_eq_true_iff.mp hv with h | h
    · simpa using h
    · simp [mhas, mfind?_nil] at h
  have hroot0 : mfind? (mset ([] : PMap) s none) s = some none := mfind?_mset_self _ _ _
  have hnosome : ∀ v u, mfind? (mset ([] : PMap) s none) v = some (some u) → False := by
    intro v u hf
    have hv := hkey0 v (mhas_of_mfind? hf)
    rw [hv, hroot0] at hf
    exact absurd (Option.some.inj hf) (by simp)
  have hdzero : dget (g.nodes.foldl (fun d nd =>
      mset d nd.id (if nd.id == s then some 0 else jInf)) []) s = some 0 := by
    rw [dget, @initd_mem g (fun x => if x == s then some 0 else jInf) s hs]
    simp
  have hfin_s : ∀ v, dget (g.nodes.foldl (fun d nd =>
      mset d nd.id (if nd.id == s then some 0 else jInf)) []) v ≠ jInf →
      v = s ∧ dget (g.nodes.foldl (fun d nd =>
        mset d nd.id (if nd.id == s then some 0 else jInf)) []) v = some 0 := by
    intro v hv
    by_cases hmemv : v ∈ nodeIds g
    · by_cases hvs : v = s
      · subst hvs
        exact ⟨rfl, hdzero⟩
      · exfalso
        apply hv
        rw [dget, @initd_mem g (fun x => if x == s then some 0 else jInf) v hmemv]
        simp [hvs, jInf]
    · exfalso
      apply hv
      rw [dget, @initd_not_mem g (fun x => if x == s then some 0 else jInf) v hmemv]
      rfl
  have hinv0 : BFInv g s (g.nodes.foldl (fun d nd =>
      mset d nd.id (if nd.id == s then some 0 else jInf)) []) (mset [] s none) := by
    refine
      { dkeys := fun v => @initd_keys g (fun x => if x == s then some 0 else jInf) v,
        sLe0 := by rw [hdzero]; exact jle_refl _,
        sound := ?_, keysFin := ?_, finKey := ?_,
        pvals := fun v u hf => (hnosome v u hf).elim,
        cycNeg := ?_, disj := Or.inl ⟨hroot0, fun v hv => hkey0 v (mhas_of_mfind? hv)⟩ }
    · intro v j hj
      obtain ⟨hvs, h0⟩ := hfin_s v (by rw [hj]; simp [jInf])
      rw [hj] at h0
      have hj0 : j = 0 := Option.some.inj h0
      subst hvs
      rw [hj0]
      exact ⟨0, CWalk.nil v⟩
    · intro v hv
      rw [(hkey0 v hv)]
      rw [hdzero]
      simp [jInf]
    · intro v hv
      rw [(hfin_s v hv).1]
      exact mhas_of_mfind? hroot0
    · intro v c T hp
      rcases ppath_cons_inv hp with ⟨w2, _, hf, _⟩ | ⟨u0, w0, c0, T0, _, hf, _⟩
      · exact (hnosome v v hf).elim
      · exact (hnosome v u0 hf).elim
  have hpb0 : PassBound g s (g.nodes.foldl (fun d nd =>
      mset d nd.id (if nd.id == s then some 0 else jInf)) []) 0 := by
    intro v c k hk hwk
    have hk0 : k = 0 := by omega
    subst hk0
    obtain ⟨rfl, rfl⟩ := cwalk_zero hwk
    rw [hdzero]
    exact jle_refl _
  obtain ⟨steps1, d, p, hiter, hinv1, ⟨tail1, htail1⟩, hpbs⟩ :=
    bfIterate_spec hwf (g.nodes.length - 1) (g.nodes.length - 1) 0
      [{ type := .visit, nodeId := some s,
         message := "Starting Bellman-Ford from " ++ optLabel (getNodeById g s),
         distances := some (g.nodes.foldl (fun d nd =>
           mset d nd.id (if nd.id == s then some 0 else jInf)) []) }]
      (g.nodes.foldl (fun d nd =>
        mset d nd.id (if nd.id == s then some 0 else jInf)) [])
      (mset [] s none) 0 hinv0 hpb0
  cases hfind : bfFindRelaxable g d g.edges with
  | some e2 =>
    obtain ⟨he2, sd, hsd, hrel⟩ := bfFind_some g.edges hfind
    obtain ⟨f, hfsrc, hfget, hlt⟩ := bfRelaxable_elim hrel
    have hadj : wadjOn g sd.1 sd.2 e2.weight := edgeDirections_wadj he2 hsd
    have hNC : NegCycleFrom g s := by
      by_contra hneg
      have hawb : AllWalkBound g s d := by
        rcases hpbs with hpb | hstable
        · refine awb_of_passbound hwf hs hneg ?_
          rw [Nat.zero_add] at hpb
          exact hpb
        · exact stable_awb hstable hinv1.sLe0
      obtain ⟨k, hwk⟩ := hinv1.sound sd.1 f hfget
      have hwv := cwalk_snoc hwk hadj
      have hb := hawb sd.2 (f + e2.weight) (k + 1) hwv
      exact absurd hb (jlt_iff_not_jle.mp hlt)
    have heq : bellmanFord g s endId? = some
        { steps := steps1 ++
            [{ type := .cycleDetected, edgeId := some e2.id,
               message := "Negative cycle detected!", distances := some d },
             { type := .complete,
               message := "Algorithm complete - Negative cycle exists!",
               distances := some d }],
          hasNegativeCycle := some true, distances := some d } := by
      simp only [bellmanFord]
      rw [hiter]
      simp [hfind]
    refine ⟨_, heq, ⟨steps1 ++
        [{ type := .cycleDetected, edgeId := some e2.id,
           message := "Negative cycle detected!", distances := some d }],
        { type := .complete,
          message := "Algorithm complete - Negative cycle exists!",
          distances := some d }, by simp, rfl⟩, ⟨fun _ => hNC, fun _ => rfl⟩, ?_,
      d, rfl, hinv1.dkeys, hinv1.sLe0, hinv1.sound, ?_⟩
    · intro e p' _ _ hp
      exact absurd hp (by simp)
    · intro hn
      exact absurd hNC (nonneg_no_negcycle hn s)
  | none =>
    have hall := bfFind_none g.edges hfind
    have hstable : Stable g d :=
      stable_of_no_relax hwf.1.1 (fun v hv => (hinv1.dkeys v).mpr hv) hall
    have hnoneg := stable_no_negcycle hstable hinv1.sLe0
    obtain ⟨hroot, hnone⟩ : mfind? p s = some none ∧
        ∀ v, mfind? p v = some none → v = s := by
      rcases hinv1.disj with h | h
      · exact h
      · exact absurd h hnoneg
    have hnocyc : ∀ v c T, ¬ PPath p g v v c T := by
      intro v c T hp2
      have hfin := hinv1.keysFin v (ppath_key hp2)
      obtain ⟨t, ht⟩ : ∃ t, dget d v = some t := by
        cases hh : dget d v with
        | none => exact absurd hh hfin
        | some t => exact ⟨t, rfl⟩
      have hst := ppath_stable hstable hp2
      rw [ht, jadd_some] at hst
      have h1 := jle_some_iff.mp hst
      have hneg2 := hinv1.cycNeg v c T hp2
      omega
    have hchains := chain_exists hroot hnone
      (fun v u hf => by
        obtain ⟨h1, h2, w, hw, _⟩ := hinv1.pvals v u hf
        exact ⟨h1, h2, w, hw⟩) hnocyc
    have hawb : AllWalkBound g s d := stable_awb hstable hinv1.sLe0
    have hadjp : ∀ v' u, mfind? p v' = some (some u) → adjOn g u v' := by
      intro v' u hf
      obtain ⟨_, _, w, hw, _⟩ := hinv1.pvals v' u hf
      exact ⟨w, hw⟩
    cases hstr : strTruthy endId? with
    | false =>
      have heq : bellmanFord g s endId? = some
          { steps := steps1 ++
              [{ type := .complete, message := "Bellman-Ford complete",
                 distances := some d }],
            distances := some d, hasNegativeCycle := some false } := by
        simp only [bellmanFord]
        rw [hiter]
        simp [hfind, hstr]
      refine ⟨_, heq, ⟨steps1,
        { type := .complete, message := "Bellman-Ford complete",
          distances := some d }, rfl, rfl⟩, ?_, ?_,
        d, rfl, hinv1.dkeys, hinv1.sLe0, hinv1.sound, fun _ => hawb⟩
      · constructor
        · intro h
          exact absurd (Option.some.inj h) (by simp)
        · intro h
          exact absurd h hnoneg
      · intro e p' _ _ hp
        exact absurd hp (by simp)
    | true =>
      obtain ⟨e, hE⟩ : ∃ e, endId? = some e := by
        cases hEE : endId? with
        | none => rw [hEE] at hstr; simp [strTruthy] at hstr
        | some e => exact ⟨e, rfl⟩
      subst hE
      have hene : e ≠ "" := by simpa [strTruthy] using hstr
      cases hbe : mhas p e with
      | true =>
        obtain ⟨l, hl⟩ := hchains e hbe
        have hrp := reconstructPath_eq hl
        have hpl : IsPathList g s e l := pchain_isPathList hadjp hl
        cases hinf : (mfind? d e == some none) with
        | true =>
          have heq : bellmanFord g s (some e) = some
              { steps := steps1 ++
                  [{ type := .complete, message := "No path exists",
                     currentPath := none, distances := some d }],
                shortestPath := none, distances := some d } := by
            simp only [bellmanFord]
            rw [hiter]
            simp [hfind, strTruthy, hene, hrp, hinf]
          refine ⟨_, heq, ⟨steps1, _, rfl, rfl⟩, ?_, ?_,
            d, rfl, hinv1.dkeys, hinv1.sLe0, hinv1.sound, fun _ => hawb⟩
          · constructor
            · intro h
              exact absurd h (by simp)
            · intro h
              exact absurd h hnoneg
          · intro e' p' _ _ hp
            exact absurd hp (by simp)
        | false =>
          have heq : bellmanFord g s (some e) = some
              { steps := steps1 ++
                  [{ type := .complete,
                     message := "Shortest path: " ++ oldDistStr (mfind? d e),
                     currentPath := some l, distances := some d }],
                shortestPath := some l, distances := some d } := by
            simp only [bellmanFord]
            rw [hiter]
            simp [hfind, strTruthy, hene, hrp, hinf]
          refine ⟨_, heq, ⟨steps1, _, rfl, rfl⟩, ?_, ?_,
            d, rfl, hinv1.dkeys, hinv1.sLe0, hinv1.sound, fun _ => hawb⟩
          · constructor
            · intro h
              exact absurd h (by simp)
            · intro h
              exact absurd h hnoneg
          · intro e' p' he' _ hp
            have hee : e' = e := Option.some.inj he'.symm
            have hpl' : p' = l := (Option.some.inj hp).symm
            rw [hee, hpl']
            exact hpl
      | false =>
        have hrp := reconstructPath_absent (mhas_eq_false_iff.mp hbe)
        cases hinf : (mfind? d e == some none) with
        | true =>
          have heq : bellmanFord g s (some e) = some
              { steps := steps1 ++
                  [{ type := .complete, message := "No path exists",
                     currentPath := none, distances := some d }],
                shortestPath := none, distances := some d } := by
            simp only [bellmanFord]
            rw [hiter]
            simp [hfind, strTruthy, hene, hrp, hinf]
          refine ⟨_, heq, ⟨steps1, _, rfl, rfl⟩, ?_, ?_,
            d, rfl, hinv1.dkeys, hinv1.sLe0, hinv1.sound, fun _ => hawb⟩
          · constructor
            · intro h
              exact absurd h (by simp)
            · intro h
              exact absurd h hnoneg
          · intro e' p' _ _ hp
            exact absurd hp (by simp)
        | false =>
          have heq : bellmanFord g s (some e) = some
              { steps := steps1 ++
                  [{ type := .complete,
                     message := "Shortest path: " ++ oldDistStr (mfind? d e),
                     currentPath := some [e], distances := some d }],
                shortestPath := some [e], distances := some d } := by
            simp only [bellmanFord]
            rw [hiter]
            simp [hfind, strTruthy, hene, hrp, hinf]
          refine ⟨_, heq, ⟨steps1, _, rfl, rfl⟩, ?_, ?_,
            d, rfl, hinv1.dkeys, hinv1.sLe0, hinv1.sound, fun _ => hawb⟩
          · constructor
            · intro h
              exact absurd h (by simp)
            · intro h
              exact absurd h hnoneg
          · intro e' p' he' hmem _
            exfalso
            have hee : e' = e := Option.some.inj he'.symm
            rw [hee] at hmem
            have hfin : dget d e = jInf := by
              by_contra h
              rw [hinv1.finKey e h] at hbe
              cases hbe
            have hkey : mhas d e = true := (hinv1.dkeys e).mpr hmem
            obtain ⟨val, hval⟩ := (mhas_iff_exists _ _).mp hkey
            have hvn : val = jInf := by
              rw [dget, hval] at hfin
              exact hfin
            rw [hval, hvn] at hinf
            simp [jInf] at hinf

/-! ## A convenient reformulation of the final-step property -/

theorem endsComplete_of_last {r : AlgorithmResult} (hne : r.steps ≠ [])
    (hl : (r.steps.getLast?).map AlgorithmStep.type = some StepType.complete) :
    endsComplete r = true := by
  unfold endsComplete
  rw [hl]
  cases h : r.steps with
  | nil => exact absurd h hne
  | cons a l => simp [h]

/-! ## Claim C10: the full Dijkstra distance map -/

/-- C10: for every well-formed graph with the start node among its nodes and
no end id, the distance map `dijkstra` returns has an entry for every node of
the graph, and a node's entry is `Infinity` exactly when the node is
unreachable from the start under the graph's directedness — the early
`Infinity` break never cuts a reachable node off, because every priority
entry ever pushed is finite. -/
theorem C10_dijkstra_distances (g : Graph) (s : String) (hwf : WellFormed g)
    (hs : s ∈ nodeIds g) :
    ∃ r d, dijkstra g s none = some r ∧ r.distances = some d ∧
      (∀ v, mhas d v = true ↔ v ∈ nodeIds g) ∧
      (∀ v ∈ nodeIds g, dget d v = jInf ↔ ¬ Reachable g s v) := by
  obtain ⟨r, hr, _, _, hd⟩ := dijkstra_run none hwf hs
  obtain ⟨d, hrd, hkeys, hdz, hsound, hreach, _⟩ := hd rfl
  refine ⟨r, d, hr, hrd, hkeys, ?_⟩
  intro v _
  constructor
  · intro hinf hre
    exact (hreach v hre) hinf
  · intro hnr
    cases hh : dget d v with
    | none => rfl
    | some c =>
      obtain ⟨k, hwk⟩ := hsound v c hh
      exact absurd ⟨c, k, hwk⟩ hnr

/-- Witness for C10 on the concrete directed path graph `s → e → x`. -/
theorem C10_dijkstra_distances_witness :
    ∃ r d, dijkstra lineGraph "s" none = some r ∧ r.distances = some d ∧
      (∀ v, mhas d v = true ↔ v ∈ nodeIds lineGraph) ∧
      (∀ v ∈ nodeIds lineGraph, dget d v = jInf ↔ ¬ Reachable lineGraph "s" v) :=
  C10_dijkstra_distances lineGraph "s" (by decide) (by decide)

/-! ## Claim C2 (amended): Dijkstra and Bellman-Ford agree on full runs -/

/-- C2 (amended): with non-negative weights and no end id, `dijkstra` and
`bellmanFord` return distance maps that agree on every key — both record the
exact shortest-walk distance of every reachable node and `Infinity` for every
unreachable one.  (With an end id the claim fails: see the counterexample,
where Dijkstra's early return leaves a reachable node at `Infinity`.) -/
theorem C2_amended (g : Graph) (s : String) (hwf : WellFormed g)
    (hs : s ∈ nodeIds g) (hnn : NonnegW g) :
    ∃ r1 r2 d1 d2, dijkstra g s none = some r1 ∧ bellmanFord g s none = some r2 ∧
      r1.distances = some d1 ∧ r2.distances = some d2 ∧
      ∀ v, dget d1 v = dget d2 v := by
  obtain ⟨r1, hr1, _, _, hd1⟩ := dijkstra_run none hwf hs
  obtain ⟨d1, hrd1, hk1, hz1, hsound1, _, hstab1⟩ := hd1 rfl
  have hawb1 : AllWalkBound g s d1 :=
    stable_awb (hstab1 hnn) (by rw [hz1]; exact jle_refl _)
  obtain ⟨r2, hr2, _, _, _, d2, hrd2, hk2, hz2, hsound2, hawb2f⟩ :=
    bellmanFord_run none hwf hs
  have hawb2 := hawb2f hnn
  refine ⟨r1, r2, d1, d2, hr1, hr2, hrd1, hrd2, ?_⟩
  intro v
  by_cases hv : v ∈ nodeIds g
  · by_cases hre : Reachable g s v
    · obtain ⟨c, k, hwk⟩ := hre
      obtain ⟨i1, hi1, _⟩ := jle_fin_of_le (hawb1 v c k hwk)
      obtain ⟨i2, hi2, _⟩ := jle_fin_of_le (hawb2 v c k hwk)
      obtain ⟨k1, hw1⟩ := hsound1 v i1 hi1
      obtain ⟨k2, hw2⟩ := hsound2 v i2 hi2
      have h12 := hawb1 v i2 k2 hw2
      have h21 := hawb2 v i1 k1 hw1
      rw [hi1] at h12
      rw [hi2] at h21
      have hle1 := jle_some_iff.mp h12
      have hle2 := jle_some_iff.mp h21
      rw [hi1, hi2]
      congr 1
      omega
    · have h1 : dget d1 v = jInf := by
        cases hh : dget d1 v with
        | none => rfl
        | some c =>
          obtain ⟨k, hwk⟩ := hsound1 v c hh
          exact absurd ⟨c, k, hwk⟩ hre
      have h2 : dget d2 v = jInf := by
        cases hh : dget d2 v with
        | none => rfl
        | some c =>
          obtain ⟨k, hwk⟩ := hsound2 v c hh
          exact absurd ⟨c, k, hwk⟩ hre
      rw [h1, h2]
  · have h1 : mhas d1 v = false := by
      cases hh : mhas d1 v with
      | false => rfl
      | true => exact absurd ((hk1 v).mp hh) hv
    have h2 : mhas d2 v = false := by
      cases hh : mhas d2 v with
      | false => rfl
      | true => exact absurd ((hk2 v).mp hh) hv
    rw [dget_not_key h1, dget_not_key h2]

/-- Witness for the amended C2 on the concrete non-negative graph
`s → e → x`. -/
theorem C2_amended_witness :
    ∃ r1 r2 d1 d2, dijkstra lineGraph "s" none = some r1 ∧
      bellmanFord lineGraph "s" none = some r2 ∧
      r1.distances = some d1 ∧ r2.distances = some d2 ∧
      ∀ v, dget d1 v = dget d2 v :=
  C2_amended lineGraph "s" (by decide) (by decide) (by decide)

/-! ## Claim C3 (amended): the negative-cycle flag -/

/-- C3 (amended): `bellmanFord` reports `hasNegativeCycle = some true` exactly
when the graph — directions read off the `isDirected` flag — has a negative
cycle *reachable from the start node*; a negative cycle in an unreachable
part of the graph is not detected (see the counterexample). -/
theorem C3_amended (g : Graph) (s : String) (endId? : Option String)
    (hwf : WellFormed g) (hs : s ∈ nodeIds g) :
    ∃ r, bellmanFord g s endId? = some r ∧
      (r.hasNegativeCycle = some true ↔ NegCycleFrom g s) := by
  obtain ⟨r, hr, _, hiff, _, _⟩ := bellmanFord_run endId? hwf hs
  exact ⟨r, hr, hiff⟩

/-- Witness for the amended C3 on the graph with an unreachable negative
pair cycle. -/
theorem C3_amended_witness :
    ∃ r, bellmanFord negPairGraph "s" none = some r ∧
      (r.hasNegativeCycle = some true ↔ NegCycleFrom negPairGraph "s") :=
  C3_amended negPairGraph "s" none (by decide) (by decide)

/-! ## Claim C4: the DFS cycle flag -/

/-- C4: for every well-formed graph and start node, with any end id (including
runs whose recursion is cut short by reaching the end node), `dfs` terminates
and reports `hasCycle = some true` exactly when some `explore` step of its
trace records a target that is on the recursion-stack snapshot and is not the
undirected parent-skip case. -/
theorem C4_dfs_cycle_flag (g : Graph) (s : String) (endId? : Option String)
    (hwf : WellFormed g) (hs : s ∈ nodeIds g) :
    ∃ r, dfs g s endId? true = some r ∧
      ∃ hc, r.hasCycle = some hc ∧ (hc = true ↔ BackEdgeInTrace g r.steps) := by
  obtain ⟨r, hr, _, _, hc, hhc, hiff⟩ := dfs_run endId? hwf hs
  exact ⟨r, hr, hc, hhc, hiff⟩

/-- Witness for C4 on the concrete directed path graph with an end id. -/
theorem C4_dfs_cycle_flag_witness :
    ∃ r, dfs lineGraph "s" (some "e") true = some r ∧
      ∃ hc, r.hasCycle = some hc ∧ (hc = true ↔ BackEdgeInTrace lineGraph r.steps) :=
  C4_dfs_cycle_flag lineGraph "s" (some "e") (by decide) (by decide)

/-! ## Claim C9: termination with a final complete step -/

/-- C9: for every well-formed graph whose start node (and, for A*, end node)
is among its nodes, each of the five algorithms terminates and returns a
non-empty step list whose final step has type `complete`. -/
theorem C9_termination (g : Graph) (s e : String) (endId? : Option String)
    (hfun : String → Int) (hwf : WellFormed g) (hs : s ∈ nodeIds g)
    (he : e ∈ nodeIds g) :
    (∃ r, bfs g s endId? = some r ∧ endsComplete r = true) ∧
    (∃ r, dfs g s endId? true = some r ∧ endsComplete r = true) ∧
    (∃ r, dijkstra g s endId? = some r ∧ endsComplete r = true) ∧
    (∃ r, bellmanFord g s endId? = some r ∧ endsComplete r = true) ∧
    (∃ r, aStar g s e hfun = .ok (some r) ∧ endsComplete r = true) := by
  refine ⟨?_, ?_, ?_, ?_, ?_⟩
  · obtain ⟨r, hr, hne, hlast, _⟩ := @bfs_master g s endId? hwf hs
    exact ⟨r, hr, endsComplete_of_last hne hlast⟩
  · obtain ⟨r, hr, ⟨pre, stp, hsteps, hstp⟩, _⟩ := dfs_run endId? hwf hs
    exact ⟨r, hr, endsComplete_intro hsteps hstp⟩
  · obtain ⟨r, hr, ⟨pre, stp, hsteps, hstp⟩, _⟩ := dijkstra_run endId? hwf hs
    exact ⟨r, hr, endsComplete_intro hsteps hstp⟩
  · obtain ⟨r, hr, ⟨pre, stp, hsteps, hstp⟩, _⟩ := bellmanFord_run endId? hwf hs
    exact ⟨r, hr, endsComplete_intro hsteps hstp⟩
  · obtain ⟨r, hr, ⟨pre, stp, hsteps, hstp⟩, _⟩ := aStar_run hfun hwf hs he
    exact ⟨r, hr, endsComplete_intro hsteps hstp⟩

/-- Witness for C9 on the concrete directed path graph. -/
theorem C9_termination_witness :
    (∃ r, bfs lineGraph "s" (some "e") = some r ∧ endsComplete r = true) ∧
    (∃ r, dfs lineGraph "s" (some "e") true = some r ∧ endsComplete r = true) ∧
    (∃ r, dijkstra lineGraph "s" (some "e") = some r ∧ endsComplete r = true) ∧
    (∃ r, bellmanFord lineGraph "s" (some "e") = some r ∧ endsComplete r = true) ∧
    (∃ r, aStar lineGraph "s" "x" (fun _ => 0) = .ok (some r) ∧
      endsComplete r = true) :=
  C9_termination lineGraph "s" "x" (some "e") (fun _ => 0) (by decide) (by decide)
    (by decide)

/-! ## Claim C6: reported paths are genuine start-to-end paths -/

/-- C6: for every well-formed graph with start and end among its nodes,
whenever any of the five algorithms returns a defined `shortestPath`, that
list starts at the start node, ends at the end node, and every consecutive
pair is joined by a graph edge usable in that direction per `isDirected`. -/
theorem C6_reported_paths (g : Graph) (s e : String) (hfun : String → Int)
    (hwf : WellFormed g) (hs : s ∈ nodeIds g) (he : e ∈ nodeIds g) :
    (∀ r p, bfs g s (some e) = some r → r.shortestPath = some p →
      IsPathList g s e p) ∧
    (∀ r p, dfs g s (some e) true = some r → r.shortestPath = some p →
      IsPathList g s e p) ∧
    (∀ r p, dijkstra g s (some e) = some r → r.shortestPath = some p →
      IsPathList g s e p) ∧
    (∀ r p, bellmanFord g s (some e) = some r → r.shortestPath = some p →
      IsPathList g s e p) ∧
    (∀ r p, aStar g s e hfun = .ok (some r) → r.shortestPath = some p →
      IsPathList g s e p) := by
  refine ⟨?_, ?_, ?_, ?_, ?_⟩
  · obtain ⟨r0, hr0, _, _, _, hP2, _⟩ := @bfs_master g s (some e) hwf hs
    intro r p hr hp
    have hrr : r0 = r := Option.some.inj (hr0.symm.trans hr)
    subst hrr
    exact (hP2 e p rfl hp).1
  · obtain ⟨r0, hr0, _, hnone, _⟩ := dfs_run (some e) hwf hs
    intro r p hr hp
    have hrr : r0 = r := Option.some.inj (hr0.symm.trans hr)
    subst hrr
    rw [hnone] at hp
    exact absurd hp (by simp)
  · obtain ⟨r0, hr0, _, hP, _⟩ := dijkstra_run (some e) hwf hs
    intro r p hr hp
    have hrr : r0 = r := Option.some.inj (hr0.symm.trans hr)
    subst hrr
    exact hP e p rfl he hp
  · obtain ⟨r0, hr0, _, _, hP, _⟩ := bellmanFord_run (some e) hwf hs
    intro r p hr hp
    have hrr : r0 = r := Option.some.inj (hr0.symm.trans hr)
    subst hrr
    exact hP e p rfl he hp
  · obtain ⟨r0, hr0, _, hP⟩ := aStar_run hfun hwf hs he
    intro r p hr hp
    have hrr : r0 = r := Option.some.inj (Except.ok.inj (hr0.symm.trans hr))
    subst hrr
    exact hP p hp

/-- Witness for C6 on the concrete directed path graph. -/
theorem C6_reported_paths_witness :
    (∀ r p, bfs lineGraph "s" (some "x") = some r → r.shortestPath = some p →
      IsPathList lineGraph "s" "x" p) ∧
    (∀ r p, dfs lineGraph "s" (some "x") true = some r → r.shortestPath = some p →
      IsPathList lineGraph "s" "x" p) ∧
    (∀ r p, dijkstra lineGraph "s" (some "x") = some r → r.shortestPath = some p →
      IsPathList lineGraph "s" "x" p) ∧
    (∀ r p, bellmanFord lineGraph "s" (some "x") = some r → r.shortestPath = some p →
      IsPathList lineGraph "s" "x" p) ∧
    (∀ r p, aStar lineGraph "s" "x" (fun _ => 0) = .ok (some r) →
      r.shortestPath = some p → IsPathList lineGraph "s" "x" p) :=
  C6_reported_paths lineGraph "s" "x" (fun _ => 0) (by decide) (by decide) (by decide)

end GAV
